import Mathlib

/-!
# Rectangle splitter (`rectangular-areas/rect_splitter.c`)

A shallow embedding of the rectangle-set algebra of `rect_splitter.c` and a
verification of its strict insertion/deletion, fuzzy insertion and merge
routines.

Modelling conventions:

* C `int` is modelled by `c_int`, the 32-bit two's-complement integers: every
  `+`, `-` and `*` of the source is computed in the integers and reduced into
  `[-2^31, 2^31)` (wrap-around), comparisons compare the values.
* `rect_t` is a record of the seven `int` fields the source reads and writes.
* The strict routines never compare node pointers, so for them a `list_t` is
  the list of the payload rectangles of its nodes, head first.  `malloc`/`free`
  of a node is the creation/disposal of a list element.
* The fuzzy routines compare and return node pointers, so for them a `list_t`
  is the list of its nodes, each with its address.
* Points, areas and the well-formedness equations of the specification are
  mathematical: they are read over the unbounded integers through `c_int.val`.
* The namespace `Exact` holds the same routines over the unbounded integers.
  It is the arithmetic reference: the code agrees with it as long as every
  rectangle lies in the window `rect_t.in_range`, and the theorems that need
  arithmetic are carried over from it under that hypothesis.
-/

set_option linter.unusedVariables false

/-! ## Machine integers -/

/-- The C type `int`: a 32-bit two's-complement integer. -/
structure c_int where
  val : Int
  lo : -2147483648 ≤ val
  hi : val ≤ 2147483647
deriving DecidableEq

/-- Reduce an integer into the range of `int` (two's-complement wrap-around). -/
def c_int.wrap (x : Int) : c_int :=
  ⟨(x + 2147483648) % 4294967296 - 2147483648, by omega, by omega⟩

/-- The C operator `+` on `int`. -/
instance : Add c_int := ⟨fun a b => c_int.wrap (a.val + b.val)⟩

/-- The C operator `-` on `int`. -/
instance : Sub c_int := ⟨fun a b => c_int.wrap (a.val - b.val)⟩

/-- The C operator `*` on `int`. -/
instance : Mul c_int := ⟨fun a b => c_int.wrap (a.val * b.val)⟩

/-- The C unary operator `-` on `int`. -/
instance : Neg c_int := ⟨fun a => c_int.wrap (-a.val)⟩

/-- The C operator `<` on `int`. -/
instance : LT c_int := ⟨fun a b => a.val < b.val⟩

/-- The C operator `<=` on `int`. -/
instance : LE c_int := ⟨fun a b => a.val ≤ b.val⟩

/-- Integer constants. -/
instance (n : Nat) : OfNat c_int n := ⟨c_int.wrap n⟩

instance (a b : c_int) : Decidable (a < b) := inferInstanceAs (Decidable (a.val < b.val))
instance (a b : c_int) : Decidable (a ≤ b) := inferInstanceAs (Decidable (a.val ≤ b.val))

/-! ## The rectangle algebra and the strict routines -/

/-- The C struct `rect_t`.  It is declared in `rect_splitter.h`; its fields are
read as `int`, the type of the arguments `rect_init` stores in them and of the
locals they are copied to. -/
structure rect_t where
  left : c_int
  top : c_int
  right : c_int
  bottom : c_int
  width : c_int
  height : c_int
  area : c_int
deriving DecidableEq

/-- The initialiser `rect_init(r, x, y, w, h)`. -/
def rect_init (x y w h : c_int) : rect_t :=
  { area := w * h
    left := x
    top := y
    right := x + w
    bottom := y + h
    width := w
    height := h }

/-- The primitive `rect_list_append_node`: link `node` after the tail. -/
def rect_list_append_node {α : Type} (rects : List α) (node : α) : List α :=
  rects ++ [node]

/-- The primitive `rect_list_append`: allocate a node holding `r` and append it. -/
def rect_list_append (rects : List rect_t) (r : rect_t) : List rect_t :=
  rect_list_append_node rects r

/-- The primitive `rect_list_append_xywh`. -/
def rect_list_append_xywh (rects : List rect_t) (x y w h : c_int) : List rect_t :=
  rect_list_append rects (rect_init x y w h)

/-- The primitive `rect_list_concat`: the result is the new `rects`; `other` is left empty. -/
def rect_list_concat {α : Type} (rects other : List α) : List α :=
  match other with
  | [] => rects
  | _ :: _ => rects ++ other

/-- The helper `_calc_intra_rect_area`: the pair `(*width, *height)`. -/
def _calc_intra_rect_area (a b : rect_t) : c_int × c_int :=
  let max_left := if a.left < b.left then b.left else a.left
  let min_right := if a.right < b.right then a.right else b.right
  let max_top := if a.top < b.top then b.top else a.top
  let min_bottom := if a.bottom < b.bottom then a.bottom else b.bottom
  (min_right - max_left, min_bottom - max_top)

/-- The local copy of `r` in `_split_strict` after the `h_1 > 0` block. -/
def split_strict_r1 (current r : rect_t) : rect_t :=
  if current.top - r.top > 0 then
    { r with height := r.height - (current.top - r.top), top := current.top }
  else r

/-- The local copy of `r` in `_split_strict` after the `h_2 > 0` block. -/
def split_strict_r2 (current r : rect_t) : rect_t :=
  let r1 := split_strict_r1 current r
  if r.bottom - current.bottom > 0 then
    { r1 with height := r1.height - (r.bottom - current.bottom) }
  else r1

/-- The helper `_split_strict(dirty, current, r)`: the new contents of `dirty`. -/
def _split_strict (dirty : List rect_t) (current r : rect_t) : List rect_t :=
  let h_1 := current.top - r.top
  let h_2 := r.bottom - current.bottom
  let w_1 := current.left - r.left
  let w_2 := r.right - current.right
  let d1 := if h_1 > 0 then rect_list_append_xywh dirty r.left r.top r.width h_1 else dirty
  let r1 := split_strict_r1 current r
  let d2 := if h_2 > 0 then rect_list_append_xywh d1 r1.left current.bottom r1.width h_2 else d1
  let r2 := split_strict_r2 current r
  let d3 := if w_1 > 0 then rect_list_append_xywh d2 r2.left r2.top w_1 r2.height else d2
  let d4 := if w_2 > 0 then rect_list_append_xywh d3 current.right r2.top w_2 r2.height else d3
  d4

/-- The `while (cur_node)` loop of `rect_list_del_split_strict`.  `kept` is the
part of `rects` before `cur_node` (the nodes reachable up to `prev_node`), the
first argument is the part from `cur_node` on; the result is `(rects, modified)`. -/
def del_split_strict_loop (del_r : rect_t) :
    List rect_t → List rect_t → List rect_t → List rect_t × List rect_t
  | [], kept, modified => (kept, modified)
  | current :: rest, kept, modified =>
    let intra := _calc_intra_rect_area del_r current
    if intra.1 ≤ 0 ∨ intra.2 ≤ 0 then
      del_split_strict_loop del_r rest (kept ++ [current]) modified
    else if intra.1 = current.width ∧ intra.2 = current.height then
      del_split_strict_loop del_r rest kept modified
    else
      del_split_strict_loop del_r rest kept (_split_strict modified del_r current)

/-- The routine `rect_list_del_split_strict(rects, del_r)`: the new contents of `rects`. -/
def rect_list_del_split_strict (rects : List rect_t) (del_r : rect_t) : List rect_t :=
  let res := del_split_strict_loop del_r rects [] []
  rect_list_concat res.1 res.2

/-- The inner `while (dirty.head)` loop of `rect_list_add_split_strict` for one
member `current`: consumes `dirty` from its head and returns `new_dirty`. -/
def add_split_strict_inner (current : rect_t) : List rect_t → List rect_t → List rect_t
  | [], new_dirty => new_dirty
  | r :: dirty, new_dirty =>
    let intra := _calc_intra_rect_area r current
    if intra.1 = r.width ∧ intra.2 = r.height then
      add_split_strict_inner current dirty new_dirty
    else if intra.1 ≤ 0 ∨ intra.2 ≤ 0 then
      add_split_strict_inner current dirty (rect_list_append_node new_dirty r)
    else
      add_split_strict_inner current dirty (_split_strict new_dirty current r)

/-- The outer `while (dirty.head)` loop of `rect_list_add_split_strict`.  The
first argument is the part of `rects` from `cur_node` on; the result is the
list that is concatenated to `rects` (empty when the loop ends with `dirty`
empty). -/
def add_split_strict_outer : List rect_t → List rect_t → List rect_t
  | _, [] => []
  | [], r :: dirty => r :: dirty
  | current :: rest, r :: dirty =>
    add_split_strict_outer rest (add_split_strict_inner current (r :: dirty) [])

/-- The routine `rect_list_add_split_strict(rects, node)`: the new contents of `rects`. -/
def rect_list_add_split_strict (rects : List rect_t) (node : rect_t) : List rect_t :=
  match rects with
  | [] => rect_list_append_node rects node
  | _ :: _ =>
    rect_list_concat rects (add_split_strict_outer rects (rect_list_append_node [] node))

/-- The helper `_calc_intra_outer_rect_area(a, b, intra, outer)`: the pair
`(*intra, *outer)`; every field of both out-parameters is written. -/
def _calc_intra_outer_rect_area (a b : rect_t) : rect_t × rect_t :=
  let max_left := if a.left < b.left then b.left else a.left
  let min_left := if a.left < b.left then a.left else b.left
  let min_right := if a.right < b.right then a.right else b.right
  let max_right := if a.right < b.right then b.right else a.right
  let max_top := if a.top < b.top then b.top else a.top
  let min_top := if a.top < b.top then a.top else b.top
  let min_bottom := if a.bottom < b.bottom then a.bottom else b.bottom
  let max_bottom := if a.bottom < b.bottom then b.bottom else a.bottom
  let intra_width := min_right - max_left
  let intra_height := min_bottom - max_top
  let outer_width := max_right - min_left
  let outer_height := max_bottom - min_top
  ({ left := max_left
     right := min_right
     width := intra_width
     top := max_top
     bottom := min_bottom
     height := intra_height
     area := if intra_width > 0 ∧ intra_height > 0 then intra_width * intra_height else 0 },
   { left := min_left
     right := max_right
     width := outer_width
     top := min_top
     bottom := max_bottom
     height := outer_height
     area := outer_width * outer_height })

/-! ## Fuzzy insertion and merging

`rect_list_add_split_fuzzy` compares node pointers (`old_last == cur_node`) and
returns one, so for the fuzzy routines a list holds nodes with an address.  The
heap is modelled by a break address `brk`: `malloc` returns `brk` and advances
it, `free` releases a node without side effect on the lists.  The outer
`while (dirty.head)` loop is run with fuel. -/

/-- The C struct `rect_node_t`, together with the address of the node. -/
structure rect_node_t where
  addr : Nat
  rect : rect_t
deriving DecidableEq

/-- The result of running a loop with fuel. -/
inductive outcome (α : Type) where
  | ok (a : α)
  | assert_fail
  | out_of_fuel
deriving DecidableEq

/-- The anonymous enum of split actions. -/
inductive split_fuzzy_action where
  | SPLIT_FUZZY_ACTION_NONE
  | SPLIT_FUZZY_ACTION_SPLIT
  | SPLIT_FUZZY_ACTION_MERGE
deriving DecidableEq

open split_fuzzy_action

/-- The primitive `rect_list_append_xywh` on a list of nodes: `malloc` a node at
`brk`, initialise its rectangle and append it.  Returns the new break and list. -/
def rect_list_append_xywh_heap (brk : Nat) (rects : List rect_node_t) (x y w h : c_int) :
    Nat × List rect_node_t :=
  (brk + 1, rect_list_append_node rects { addr := brk, rect := rect_init x y w h })

/-- The variables `_split_fuzzy` updates: `action`, the heap break, `dirty` and `*b`. -/
structure split_fuzzy_state where
  action : split_fuzzy_action
  brk : Nat
  dirty : List rect_node_t
  b : rect_t
deriving DecidableEq

/-- The helper `_split_fuzzy(dirty, a, b)`: the returned action with the updated
heap break, `dirty` and `*b`. -/
def _split_fuzzy (brk : Nat) (dirty : List rect_node_t) (a b : rect_t) : split_fuzzy_state :=
  let h_1 := a.top - b.top
  let h_2 := b.bottom - a.bottom
  let w_1 := a.left - b.left
  let w_2 := b.right - a.right
  let s0 : split_fuzzy_state :=
    { action := SPLIT_FUZZY_ACTION_NONE, brk := brk, dirty := dirty, b := b }
  let s1 : split_fuzzy_state :=
    if h_1 > 0 then
      let p := rect_list_append_xywh_heap s0.brk s0.dirty s0.b.left s0.b.top s0.b.width h_1
      { action := SPLIT_FUZZY_ACTION_SPLIT, brk := p.1, dirty := p.2,
        b := { s0.b with height := s0.b.height - h_1, top := a.top } }
    else s0
  let s2 : split_fuzzy_state :=
    if h_2 > 0 then
      let p := rect_list_append_xywh_heap s1.brk s1.dirty s1.b.left a.bottom s1.b.width h_2
      { action := SPLIT_FUZZY_ACTION_SPLIT, brk := p.1, dirty := p.2,
        b := { s1.b with height := s1.b.height - h_2 } }
    else s1
  if (w_1 > 0 ∨ w_2 > 0) ∧ a.height = s2.b.height then
    { s2 with action := SPLIT_FUZZY_ACTION_MERGE }
  else
    let s3 : split_fuzzy_state :=
      if w_1 > 0 then
        let p := rect_list_append_xywh_heap s2.brk s2.dirty s2.b.left s2.b.top w_1 s2.b.height
        { s2 with action := SPLIT_FUZZY_ACTION_SPLIT, brk := p.1, dirty := p.2 }
      else s2
    let s4 : split_fuzzy_state :=
      if w_2 > 0 then
        let p := rect_list_append_xywh_heap s3.brk s3.dirty a.right s3.b.top w_2 s3.b.height
        { s3 with action := SPLIT_FUZZY_ACTION_SPLIT, brk := p.1, dirty := p.2 }
      else s3
    s4

/-- The pointer to the last node of a list (`NULL` for the empty list). -/
def last_addr (l : List rect_node_t) : Option Nat :=
  l.getLast?.map rect_node_t.addr

/-- The state of `rect_list_add_split_fuzzy` at the head of its outer loop. -/
structure fuzzy_state where
  rects : List rect_node_t
  dirty : List rect_node_t
  old_last : Option Nat
  brk : Nat
deriving DecidableEq

/-- The variables live at the end of the inner `while (cur_node)` loop. -/
structure fuzzy_scan_state where
  rects : List rect_node_t
  dirty : List rect_node_t
  old_last : Option Nat
  brk : Nat
  keep_dirty : Bool
deriving DecidableEq

/-- The update `if (old_last == cur_node) old_last = prev_cur_node;`, where
`before` is the part of `rects` in front of `cur_node`. -/
def update_old_last (old_last : Option Nat) (before : List rect_node_t)
    (cur_node : rect_node_t) : Option Nat :=
  if old_last = some cur_node.addr then last_addr before else old_last

/-- The inner `while (cur_node)` loop of `rect_list_add_split_fuzzy` for the
fragment `r`.  `before` is the part of `rects` in front of `cur_node` (its last
node is `prev_cur_node`), the next argument the part from `cur_node` on. -/
def fuzzy_scan (accepted_error : c_int) (r : rect_t) :
    List rect_node_t → List rect_node_t → Option Nat → List rect_node_t → Nat →
      outcome fuzzy_scan_state
  | before, [], old_last, dirty, brk =>
    .ok { rects := before, dirty := dirty, old_last := old_last, brk := brk, keep_dirty := true }
  | before, cur_node :: rest, old_last, dirty, brk =>
    let current := cur_node.rect
    let io := _calc_intra_outer_rect_area r current
    let intra := io.1
    let outer := io.2
    let area := current.area + r.area - intra.area
    if intra.width = r.width ∧ intra.height = r.height then
      .ok { rects := before ++ cur_node :: rest, dirty := dirty, old_last := old_last,
            brk := brk, keep_dirty := false }
    else if intra.width = current.width ∧ intra.height = current.height then
      fuzzy_scan accepted_error r before rest (update_old_last old_last before cur_node)
        dirty brk
    else if outer.area - area ≤ accepted_error then
      let n : rect_node_t := { cur_node with rect := outer }
      .ok { rects := before ++ rest, dirty := rect_list_append_node dirty n,
            old_last := update_old_last old_last before cur_node, brk := brk,
            keep_dirty := false }
    else if intra.area ≤ accepted_error then
      fuzzy_scan accepted_error r (before ++ [cur_node]) rest old_last dirty brk
    else
      let s := _split_fuzzy brk dirty current r
      if s.action = SPLIT_FUZZY_ACTION_MERGE then
        let n : rect_node_t :=
          { cur_node with
            rect := { current with
                      left := outer.left
                      width := outer.width
                      right := outer.right
                      area := outer.width * s.b.height } }
        .ok { rects := before ++ rest, dirty := rect_list_append_node s.dirty n,
              old_last := update_old_last old_last before cur_node, brk := s.brk,
              keep_dirty := false }
      else if s.action = SPLIT_FUZZY_ACTION_NONE then
        .assert_fail
      else
        .ok { rects := before ++ cur_node :: rest, dirty := s.dirty, old_last := old_last,
              brk := s.brk, keep_dirty := false }

/-- One iteration of the outer `while (dirty.head)` loop for the head `d_node`
of `dirty` and the remaining fragments `dirty`. -/
def fuzzy_step (accepted_error : c_int) (rects : List rect_node_t) (d_node : rect_node_t)
    (dirty : List rect_node_t) (old_last : Option Nat) (brk : Nat) : outcome fuzzy_state :=
  match fuzzy_scan accepted_error d_node.rect [] rects old_last dirty brk with
  | .ok s =>
    .ok { rects := if s.keep_dirty then rect_list_append_node s.rects d_node else s.rects
          dirty := s.dirty
          old_last := s.old_last
          brk := s.brk }
  | .assert_fail => .assert_fail
  | .out_of_fuel => .out_of_fuel

/-- The outer `while (dirty.head)` loop of `rect_list_add_split_fuzzy`. -/
def fuzzy_loop (accepted_error : c_int) : Nat → fuzzy_state → outcome fuzzy_state
  | fuel, st =>
    match st.dirty with
    | [] => .ok st
    | d_node :: dirty =>
      match fuel with
      | 0 => .out_of_fuel
      | fuel + 1 =>
        match fuzzy_step accepted_error st.rects d_node dirty st.old_last st.brk with
        | .ok st1 => fuzzy_loop accepted_error fuel st1
        | .assert_fail => .assert_fail
        | .out_of_fuel => .out_of_fuel

/-- The routine `rect_list_add_split_fuzzy(rects, node, accepted_error)`: the
final state holds the new `rects` and the returned pointer `old_last`. -/
def rect_list_add_split_fuzzy (fuel brk : Nat) (rects : List rect_node_t) (node : rect_node_t)
    (accepted_error : c_int) : outcome fuzzy_state :=
  let old_last := last_addr rects
  match rects with
  | [] =>
    .ok { rects := rect_list_append_node rects node, dirty := [], old_last := old_last,
          brk := brk }
  | _ :: _ =>
    fuzzy_loop accepted_error fuel
      { rects := rects, dirty := rect_list_append_node [] node, old_last := old_last, brk := brk }

/-- The helper `_calc_outer_rect_area(a, b, outer)`. -/
def _calc_outer_rect_area (a b : rect_t) : rect_t :=
  let min_left := if a.left < b.left then a.left else b.left
  let max_right := if a.right < b.right then b.right else a.right
  let min_top := if a.top < b.top then a.top else b.top
  let max_bottom := if a.bottom < b.bottom then b.bottom else a.bottom
  let outer_width := max_right - min_left
  let outer_height := max_bottom - min_top
  { left := min_left
    right := max_right
    width := outer_width
    top := min_top
    bottom := max_bottom
    height := outer_height
    area := outer_width * outer_height }

/-- The inner `while (node != NULL)` loop of `rect_list_merge_rects` for the
candidate `r1`: when a member merges, the set without it and its node holding
the outer rectangle. -/
def merge_scan (accepted_error : c_int) (r1 : rect_t) :
    List rect_node_t → List rect_node_t → Option (List rect_node_t × rect_node_t)
  | _, [] => none
  | before, node :: rest =>
    let r2 := node.rect
    let outer := _calc_outer_rect_area r1 r2
    let area := r1.area + r2.area
    if outer.area - area ≤ accepted_error then
      some (before ++ rest, { node with rect := outer })
    else
      merge_scan accepted_error r1 (before ++ [node]) rest

/-- The routine `rect_list_merge_rects(rects, to_merge, accepted_error)`, its
outer loop run with fuel: the new contents of `rects` (`to_merge` ends empty). -/
def rect_list_merge_rects (fuel : Nat) (rects to_merge : List rect_node_t)
    (accepted_error : c_int) : outcome (List rect_node_t) :=
  match to_merge with
  | [] => .ok rects
  | head :: tail =>
    match fuel with
    | 0 => .out_of_fuel
    | fuel + 1 =>
      match merge_scan accepted_error head.rect [] rects with
      | some (rects1, n) =>
        rect_list_merge_rects fuel rects1 (rect_list_append_node tail n) accepted_error
      | none =>
        rect_list_merge_rects fuel (rect_list_append_node rects head) tail accepted_error

/-- The loop of `rect_list_merge_rects` with both lists it works on: the
contents of `rects` and of `to_merge` when the `while (to_merge->head)` loop is
left. -/
def merge_rects_state (fuel : Nat) (rects to_merge : List rect_node_t)
    (accepted_error : c_int) : outcome (List rect_node_t × List rect_node_t) :=
  match to_merge with
  | [] => .ok (rects, to_merge)
  | head :: tail =>
    match fuel with
    | 0 => .out_of_fuel
    | fuel + 1 =>
      match merge_scan accepted_error head.rect [] rects with
      | some (rects1, n) =>
        merge_rects_state fuel rects1 (rect_list_append_node tail n) accepted_error
      | none =>
        merge_rects_state fuel (rect_list_append_node rects head) tail accepted_error

/-- Walk the list from its head to the node at address `a`: the nodes up to and
including that node, and the nodes linked after it (`n->next` onwards).  `none`
when no node of the list has that address. -/
def split_after (a : Nat) : List rect_node_t → Option (List rect_node_t × List rect_node_t)
  | [] => none
  | x :: xs =>
    if x.addr = a then some ([x], xs)
    else
      match split_after a xs with
      | some p => some (x :: p.1, p.2)
      | none => none

/-- The routine `rect_list_add_split_fuzzy_and_merge`: the new contents of
`rects`.  Following a pointer that is not a node of the list is reported as an
assertion failure. -/
def rect_list_add_split_fuzzy_and_merge (fuel brk : Nat) (rects : List rect_node_t)
    (node : rect_node_t) (split_accepted_error merge_accepted_error : c_int) :
    outcome (List rect_node_t) :=
  match rect_list_add_split_fuzzy fuel brk rects node split_accepted_error with
  | .ok st =>
    match st.old_last with
    | none => .ok st.rects
    | some n =>
      match split_after n st.rects with
      | none => .assert_fail
      | some (_, []) => .ok st.rects
      | some (settled, next :: tail) =>
        rect_list_merge_rects fuel settled (next :: tail) merge_accepted_error
  | .assert_fail => .assert_fail
  | .out_of_fuel => .out_of_fuel


/-! ## Specification vocabulary -/

/-- A rectangle is well formed when its edges agree with its size and the size
is positive (the equations are read over the integers). -/
def rect_t.wf (r : rect_t) : Prop :=
  r.right.val = r.left.val + r.width.val ∧ r.bottom.val = r.top.val + r.height.val ∧
    r.width.val > 0 ∧ r.height.val > 0

/-- A well-formed rectangle whose cached area agrees with its size. -/
def rect_t.wf_area (r : rect_t) : Prop :=
  r.wf ∧ r.area.val = r.width.val * r.height.val

/-- The point `(x, y)` lies in `r`. -/
def rect_t.has (r : rect_t) (x y : Int) : Prop :=
  r.left.val ≤ x ∧ x < r.right.val ∧ r.top.val ≤ y ∧ y < r.bottom.val

/-- The point `(x, y)` lies in some member of the set. -/
def covers (rects : List rect_t) (x y : Int) : Prop :=
  ∃ m ∈ rects, m.has x y

/-- The intersection area of two rectangles: the number of points they share. -/
def inter_area (a b : rect_t) : Int :=
  if max a.left.val b.left.val < min a.right.val b.right.val ∧
      max a.top.val b.top.val < min a.bottom.val b.bottom.val then
    (min a.right.val b.right.val - max a.left.val b.left.val) *
      (min a.bottom.val b.bottom.val - max a.top.val b.top.val)
  else 0

/-- Every two distinct members (members at distinct positions) have intersection area 0. -/
def non_overlapping (rects : List rect_t) : Prop :=
  rects.Pairwise (fun a b => inter_area a b = 0)

/-- The sum of the cached areas of the members. -/
def total_area (rects : List rect_t) : Int :=
  (rects.map (fun m => m.area.val)).sum

/-- Rectangle `r` is fully contained in `m`. -/
def rect_t.inside (r m : rect_t) : Prop :=
  m.left ≤ r.left ∧ r.right ≤ m.right ∧ m.top ≤ r.top ∧ r.bottom ≤ m.bottom

/-- The four edges of `r` lie in the window `[-10000, 10000]`.  For rectangles
in this window no `int` operation of the routines overflows. -/
def rect_t.in_range (r : rect_t) : Prop :=
  (-10000 ≤ r.left.val ∧ r.left.val ≤ 10000) ∧ (-10000 ≤ r.right.val ∧ r.right.val ≤ 10000) ∧
    (-10000 ≤ r.top.val ∧ r.top.val ≤ 10000) ∧ (-10000 ≤ r.bottom.val ∧ r.bottom.val ≤ 10000)

instance (r : rect_t) : Decidable r.wf := by unfold rect_t.wf; infer_instance
instance (r : rect_t) : Decidable r.wf_area := by unfold rect_t.wf_area; infer_instance
instance (r : rect_t) (x y : Int) : Decidable (r.has x y) := by unfold rect_t.has; infer_instance
instance (r m : rect_t) : Decidable (r.inside m) := by unfold rect_t.inside; infer_instance
instance (r : rect_t) : Decidable r.in_range := by unfold rect_t.in_range; infer_instance
instance (l : List rect_t) : Decidable (non_overlapping l) := by unfold non_overlapping; infer_instance
instance (rects : List rect_t) (x y : Int) : Decidable (covers rects x y) := by
  unfold covers; infer_instance

/-- A strict operation on a set: insert a rectangle or delete a rectangle. -/
inductive strict_op where
  | insert (r : rect_t)
  | delete (r : rect_t)

/-- The rectangle an operation is called with. -/
def strict_op.rect : strict_op → rect_t
  | .insert r => r
  | .delete r => r

/-- Apply one strict operation to a set. -/
def apply_strict_op (rects : List rect_t) : strict_op → List rect_t
  | .insert r => rect_list_add_split_strict rects r
  | .delete r => rect_list_del_split_strict rects r

/-- The set built from the empty set by a sequence of strict operations. -/
def run_strict_ops (ops : List strict_op) : List rect_t :=
  ops.foldl apply_strict_op []

/-- The members of `R` up to and including the record the handle `h` points to
(none when the handle is absent). -/
def upto_handle (h : Option Nat) (R : List rect_node_t) : List rect_node_t :=
  match h with
  | none => []
  | some a => R.takeWhile (fun n => n.addr ≠ a) ++ (R.dropWhile (fun n => n.addr ≠ a)).take 1

/-- The members of `R` after the record the handle `h` points to (all of `R`
when the handle is absent). -/
def after_handle (h : Option Nat) (R : List rect_node_t) : List rect_node_t :=
  match h with
  | none => R
  | some a => (R.dropWhile (fun n => n.addr ≠ a)).drop 1

/-- The composition the specification describes for the combined operation:
run the fuzzy insertion, split its result at the handle into the settled
members and the newly added tail and, whenever the tail is non-empty, run the
merge pass on the settled part with the tail as candidates. -/
def fuzzy_then_merge_spec (fuel brk : Nat) (rects : List rect_node_t) (node : rect_node_t)
    (se me : c_int) : outcome (List rect_node_t) :=
  match rect_list_add_split_fuzzy fuel brk rects node se with
  | .ok st =>
    if after_handle st.old_last st.rects ≠ [] then
      rect_list_merge_rects fuel (upto_handle st.old_last st.rects)
        (after_handle st.old_last st.rects) me
    else .ok st.rects
  | .assert_fail => .assert_fail
  | .out_of_fuel => .out_of_fuel

/-- The composition the code implements: as `fuzzy_then_merge_spec`, but the
merge pass runs only when the handle is present and records follow it. -/
def fuzzy_then_merge_guarded (fuel brk : Nat) (rects : List rect_node_t) (node : rect_node_t)
    (se me : c_int) : outcome (List rect_node_t) :=
  match rect_list_add_split_fuzzy fuel brk rects node se with
  | .ok st =>
    if st.old_last ≠ none ∧ after_handle st.old_last st.rects ≠ [] then
      rect_list_merge_rects fuel (upto_handle st.old_last st.rects)
        (after_handle st.old_last st.rects) me
    else .ok st.rects
  | .assert_fail => .assert_fail
  | .out_of_fuel => .out_of_fuel

/-- The nodes of `l` live at pairwise distinct addresses below the heap break. -/
def heap_ok (brk : Nat) (l : List rect_node_t) : Prop :=
  (l.map rect_node_t.addr).Nodup ∧ ∀ n ∈ l, n.addr < brk

instance (brk : Nat) (l : List rect_node_t) : Decidable (heap_ok brk l) := by
  unfold heap_ok; infer_instance

/-- The state of `rect_list_add_split_fuzzy` when it first reaches its outer
loop (the set is not empty and `node` has been queued in `dirty`). -/
def fuzzy_init (brk : Nat) (rects : List rect_node_t) (node : rect_node_t) : fuzzy_state :=
  { rects := rects, dirty := rect_list_append_node [] node, old_last := last_addr rects,
    brk := brk }

/-- The states the outer loop of `rect_list_add_split_fuzzy` passes through
at its head when started in `st0`. -/
inductive fuzzy_reach (accepted_error : c_int) (st0 : fuzzy_state) : fuzzy_state → Prop where
  | start : fuzzy_reach accepted_error st0 st0
  | next (st st1 : fuzzy_state) (d : rect_node_t) (ds : List rect_node_t) :
      fuzzy_reach accepted_error st0 st → st.dirty = d :: ds →
      fuzzy_step accepted_error st.rects d ds st.old_last st.brk = .ok st1 →
      fuzzy_reach accepted_error st0 st1

/-- The record `n` was queued as a dirty fragment during the call
`rect_list_add_split_fuzzy(rects, node, accepted_error)`: it is in `dirty` at
the head of some iteration of the outer loop. -/
def queued (accepted_error : c_int) (brk : Nat) (rects : List rect_node_t) (node n : rect_node_t) :
    Prop :=
  ∃ st, fuzzy_reach accepted_error (fuzzy_init brk rects node) st ∧ n ∈ st.dirty

/-- The rectangles of the nodes of a list. -/
def node_rects (l : List rect_node_t) : List rect_t :=
  l.map rect_node_t.rect

/-- Every two distinct members (members at distinct positions) have
intersection area at most `e`. -/
def overlap_bounded (e : Int) (rects : List rect_t) : Prop :=
  rects.Pairwise (fun a b => inter_area a b ≤ e)

instance (e : Int) (rects : List rect_t) : Decidable (overlap_bounded e rects) := by
  unfold overlap_bounded; infer_instance

/-! ## Auxiliary definitions used by the proofs -/

/-- The number of nodes of `l` at address `a`. -/
def cnt (a : Nat) (l : List rect_node_t) : Nat :=
  (l.map rect_node_t.addr).count a

/-- The scan position `before`/`rest` relative to the split of the set into
original members `P` and new records `T`. -/
def phase (before rest P T : List rect_node_t) : Prop :=
  before ++ rest = P ++ T ∧ ((∃ P2, P = before ++ P2) ∨ (∃ T1, before = P ++ T1))

/-- The condition under which `_split_fuzzy(dirty, a, b)` reports a horizontal
merge, with the trimmed height of `*b` written out. -/
def fuzzy_merge_cond (a b : rect_t) : Prop :=
  (a.left - b.left > 0 ∨ b.right - a.right > 0) ∧ a.height = (split_strict_r2 a b).height

instance (a b : rect_t) : Decidable (fuzzy_merge_cond a b) := by
  unfold fuzzy_merge_cond; infer_instance

/-! ## The branches taken by the fuzzy scan -/

/-- The branches of the `if`/`else if` chain in the inner loop of
`rect_list_add_split_fuzzy`, in source order. -/
inductive fuzzy_branch where
  | fragment_contained
  | member_contained
  | merge_outer
  | no_split
  | split_required
deriving DecidableEq

/-- The branch the inner loop of `rect_list_add_split_fuzzy` takes for the
fragment `r` and the member `current`. -/
def fuzzy_scan_branch (accepted_error : c_int) (r current : rect_t) : fuzzy_branch :=
  let io := _calc_intra_outer_rect_area r current
  let intra := io.1
  let outer := io.2
  let area := current.area + r.area - intra.area
  if intra.width = r.width ∧ intra.height = r.height then .fragment_contained
  else if intra.width = current.width ∧ intra.height = current.height then .member_contained
  else if outer.area - area ≤ accepted_error then .merge_outer
  else if intra.area ≤ accepted_error then .no_split
  else .split_required

/-- The branches taken, member by member, while the inner loop scans `rects`
for the fragment `r`: the scan goes on after `member_contained` and `no_split`
and is left (`break`) after any other branch. -/
def fuzzy_scan_trace (accepted_error : c_int) (r : rect_t) : List rect_node_t → List fuzzy_branch
  | [] => []
  | cur_node :: rest =>
    match fuzzy_scan_branch accepted_error r cur_node.rect with
    | .member_contained => .member_contained :: fuzzy_scan_trace accepted_error r rest
    | .no_split => .no_split :: fuzzy_scan_trace accepted_error r rest
    | b => [b]

/-- The call `rect_list_add_split_fuzzy(rects, node, accepted_error)` reaches
the "split is required" branch: at the head of some iteration of the outer
loop, the scan for the head of `dirty` takes that branch. -/
def reaches_split (accepted_error : c_int) (brk : Nat) (rects : List rect_node_t)
    (node : rect_node_t) : Prop :=
  ∃ st d ds, fuzzy_reach accepted_error (fuzzy_init brk rects node) st ∧ st.dirty = d :: ds ∧
    fuzzy_branch.split_required ∈ fuzzy_scan_trace accepted_error d.rect st.rects

/-! ## The reference model over the unbounded integers

The same routines with `Int` in the place of `int`: every `+`, `-` and `*` is
exact.  No theorem about the code is stated over these definitions.  They are the
arithmetic reference the machine model is compared with (`rect_t.toExact`): the
proofs that need arithmetic are done here and carried over to the machine model
for rectangles inside the window `rect_t.in_range`. -/

namespace Exact

open split_fuzzy_action

/-! ## The rectangle algebra and the strict routines -/

/-- Over `Int`: the C struct `rect_t`. -/
structure rect_t where
  left : Int
  top : Int
  right : Int
  bottom : Int
  width : Int
  height : Int
  area : Int
deriving DecidableEq

/-- Over `Int`: the initialiser `rect_init(r, x, y, w, h)`. -/
def rect_init (x y w h : Int) : rect_t :=
  { area := w * h
    left := x
    top := y
    right := x + w
    bottom := y + h
    width := w
    height := h }

/-- Over `Int`: the primitive `rect_list_append`: allocate a node holding `r` and append it. -/
def rect_list_append (rects : List rect_t) (r : rect_t) : List rect_t :=
  rect_list_append_node rects r

/-- Over `Int`: the primitive `rect_list_append_xywh`. -/
def rect_list_append_xywh (rects : List rect_t) (x y w h : Int) : List rect_t :=
  rect_list_append rects (rect_init x y w h)

/-- Over `Int`: the helper `_calc_intra_rect_area`: the pair `(*width, *height)`. -/
def _calc_intra_rect_area (a b : rect_t) : Int × Int :=
  let max_left := if a.left < b.left then b.left else a.left
  let min_right := if a.right < b.right then a.right else b.right
  let max_top := if a.top < b.top then b.top else a.top
  let min_bottom := if a.bottom < b.bottom then a.bottom else b.bottom
  (min_right - max_left, min_bottom - max_top)

/-- Over `Int`: the local copy of `r` in `_split_strict` after the `h_1 > 0` block. -/
def split_strict_r1 (current r : rect_t) : rect_t :=
  if current.top - r.top > 0 then
    { r with height := r.height - (current.top - r.top), top := current.top }
  else r

/-- Over `Int`: the local copy of `r` in `_split_strict` after the `h_2 > 0` block. -/
def split_strict_r2 (current r : rect_t) : rect_t :=
  let r1 := split_strict_r1 current r
  if r.bottom - current.bottom > 0 then
    { r1 with height := r1.height - (r.bottom - current.bottom) }
  else r1

/-- Over `Int`: the helper `_split_strict(dirty, current, r)`: the new contents of `dirty`. -/
def _split_strict (dirty : List rect_t) (current r : rect_t) : List rect_t :=
  let h_1 := current.top - r.top
  let h_2 := r.bottom - current.bottom
  let w_1 := current.left - r.left
  let w_2 := r.right - current.right
  let d1 := if h_1 > 0 then rect_list_append_xywh dirty r.left r.top r.width h_1 else dirty
  let r1 := split_strict_r1 current r
  let d2 := if h_2 > 0 then rect_list_append_xywh d1 r1.left current.bottom r1.width h_2 else d1
  let r2 := split_strict_r2 current r
  let d3 := if w_1 > 0 then rect_list_append_xywh d2 r2.left r2.top w_1 r2.height else d2
  let d4 := if w_2 > 0 then rect_list_append_xywh d3 current.right r2.top w_2 r2.height else d3
  d4

/-- Over `Int`: the `while (cur_node)` loop of `rect_list_del_split_strict`.  `kept` is the
part of `rects` before `cur_node` (the nodes reachable up to `prev_node`), the
first argument is the part from `cur_node` on; the result is `(rects, modified)`. -/
def del_split_strict_loop (del_r : rect_t) :
    List rect_t → List rect_t → List rect_t → List rect_t × List rect_t
  | [], kept, modified => (kept, modified)
  | current :: rest, kept, modified =>
    let intra := _calc_intra_rect_area del_r current
    if intra.1 ≤ 0 ∨ intra.2 ≤ 0 then
      del_split_strict_loop del_r rest (kept ++ [current]) modified
    else if intra.1 = current.width ∧ intra.2 = current.height then
      del_split_strict_loop del_r rest kept modified
    else
      del_split_strict_loop del_r rest kept (_split_strict modified del_r current)

/-- Over `Int`: the routine `rect_list_del_split_strict(rects, del_r)`: the new contents of `rects`. -/
def rect_list_del_split_strict (rects : List rect_t) (del_r : rect_t) : List rect_t :=
  let res := del_split_strict_loop del_r rects [] []
  rect_list_concat res.1 res.2

/-- Over `Int`: the inner `while (dirty.head)` loop of `rect_list_add_split_strict` for one
member `current`: consumes `dirty` from its head and returns `new_dirty`. -/
def add_split_strict_inner (current : rect_t) : List rect_t → List rect_t → List rect_t
  | [], new_dirty => new_dirty
  | r :: dirty, new_dirty =>
    let intra := _calc_intra_rect_area r current
    if intra.1 = r.width ∧ intra.2 = r.height then
      add_split_strict_inner current dirty new_dirty
    else if intra.1 ≤ 0 ∨ intra.2 ≤ 0 then
      add_split_strict_inner current dirty (rect_list_append_node new_dirty r)
    else
      add_split_strict_inner current dirty (_split_strict new_dirty current r)

/-- Over `Int`: the outer `while (dirty.head)` loop of `rect_list_add_split_strict`.  The
first argument is the part of `rects` from `cur_node` on; the result is the
list that is concatenated to `rects` (empty when the loop ends with `dirty`
empty). -/
def add_split_strict_outer : List rect_t → List rect_t → List rect_t
  | _, [] => []
  | [], r :: dirty => r :: dirty
  | current :: rest, r :: dirty =>
    add_split_strict_outer rest (add_split_strict_inner current (r :: dirty) [])

/-- Over `Int`: the routine `rect_list_add_split_strict(rects, node)`: the new contents of `rects`. -/
def rect_list_add_split_strict (rects : List rect_t) (node : rect_t) : List rect_t :=
  match rects with
  | [] => rect_list_append_node rects node
  | _ :: _ =>
    rect_list_concat rects (add_split_strict_outer rects (rect_list_append_node [] node))

/-- Over `Int`: the helper `_calc_intra_outer_rect_area(a, b, intra, outer)`: the pair
`(*intra, *outer)`; every field of both out-parameters is written. -/
def _calc_intra_outer_rect_area (a b : rect_t) : rect_t × rect_t :=
  let max_left := if a.left < b.left then b.left else a.left
  let min_left := if a.left < b.left then a.left else b.left
  let min_right := if a.right < b.right then a.right else b.right
  let max_right := if a.right < b.right then b.right else a.right
  let max_top := if a.top < b.top then b.top else a.top
  let min_top := if a.top < b.top then a.top else b.top
  let min_bottom := if a.bottom < b.bottom then a.bottom else b.bottom
  let max_bottom := if a.bottom < b.bottom then b.bottom else a.bottom
  let intra_width := min_right - max_left
  let intra_height := min_bottom - max_top
  let outer_width := max_right - min_left
  let outer_height := max_bottom - min_top
  ({ left := max_left
     right := min_right
     width := intra_width
     top := max_top
     bottom := min_bottom
     height := intra_height
     area := if intra_width > 0 ∧ intra_height > 0 then intra_width * intra_height else 0 },
   { left := min_left
     right := max_right
     width := outer_width
     top := min_top
     bottom := max_bottom
     height := outer_height
     area := outer_width * outer_height })

/-! ## Fuzzy insertion and merging

`rect_list_add_split_fuzzy` compares node pointers (`old_last == cur_node`) and
returns one, so for the fuzzy routines a list holds nodes with an address.  The
heap is modelled by a break address `brk`: `malloc` returns `brk` and advances
it, `free` releases a node without side effect on the lists.  The outer
`while (dirty.head)` loop is run with fuel. -/

/-- Over `Int`: the C struct `rect_node_t`, together with the address of the node. -/
structure rect_node_t where
  addr : Nat
  rect : rect_t
deriving DecidableEq

/-- Over `Int`: the primitive `rect_list_append_xywh` on a list of nodes: `malloc` a node at
`brk`, initialise its rectangle and append it.  Returns the new break and list. -/
def rect_list_append_xywh_heap (brk : Nat) (rects : List rect_node_t) (x y w h : Int) :
    Nat × List rect_node_t :=
  (brk + 1, rect_list_append_node rects { addr := brk, rect := rect_init x y w h })

/-- Over `Int`: the variables `_split_fuzzy` updates: `action`, the heap break, `dirty` and `*b`. -/
structure split_fuzzy_state where
  action : split_fuzzy_action
  brk : Nat
  dirty : List rect_node_t
  b : rect_t
deriving DecidableEq

/-- Over `Int`: the helper `_split_fuzzy(dirty, a, b)`: the returned action with the updated
heap break, `dirty` and `*b`. -/
def _split_fuzzy (brk : Nat) (dirty : List rect_node_t) (a b : rect_t) : split_fuzzy_state :=
  let h_1 := a.top - b.top
  let h_2 := b.bottom - a.bottom
  let w_1 := a.left - b.left
  let w_2 := b.right - a.right
  let s0 : split_fuzzy_state :=
    { action := SPLIT_FUZZY_ACTION_NONE, brk := brk, dirty := dirty, b := b }
  let s1 : split_fuzzy_state :=
    if h_1 > 0 then
      let p := rect_list_append_xywh_heap s0.brk s0.dirty s0.b.left s0.b.top s0.b.width h_1
      { action := SPLIT_FUZZY_ACTION_SPLIT, brk := p.1, dirty := p.2,
        b := { s0.b with height := s0.b.height - h_1, top := a.top } }
    else s0
  let s2 : split_fuzzy_state :=
    if h_2 > 0 then
      let p := rect_list_append_xywh_heap s1.brk s1.dirty s1.b.left a.bottom s1.b.width h_2
      { action := SPLIT_FUZZY_ACTION_SPLIT, brk := p.1, dirty := p.2,
        b := { s1.b with height := s1.b.height - h_2 } }
    else s1
  if (w_1 > 0 ∨ w_2 > 0) ∧ a.height = s2.b.height then
    { s2 with action := SPLIT_FUZZY_ACTION_MERGE }
  else
    let s3 : split_fuzzy_state :=
      if w_1 > 0 then
        let p := rect_list_append_xywh_heap s2.brk s2.dirty s2.b.left s2.b.top w_1 s2.b.height
        { s2 with action := SPLIT_FUZZY_ACTION_SPLIT, brk := p.1, dirty := p.2 }
      else s2
    let s4 : split_fuzzy_state :=
      if w_2 > 0 then
        let p := rect_list_append_xywh_heap s3.brk s3.dirty a.right s3.b.top w_2 s3.b.height
        { s3 with action := SPLIT_FUZZY_ACTION_SPLIT, brk := p.1, dirty := p.2 }
      else s3
    s4

/-- Over `Int`: the pointer to the last node of a list (`NULL` for the empty list). -/
def last_addr (l : List rect_node_t) : Option Nat :=
  l.getLast?.map rect_node_t.addr

/-- Over `Int`: the state of `rect_list_add_split_fuzzy` at the head of its outer loop. -/
structure fuzzy_state where
  rects : List rect_node_t
  dirty : List rect_node_t
  old_last : Option Nat
  brk : Nat
deriving DecidableEq

/-- Over `Int`: the variables live at the end of the inner `while (cur_node)` loop. -/
structure fuzzy_scan_state where
  rects : List rect_node_t
  dirty : List rect_node_t
  old_last : Option Nat
  brk : Nat
  keep_dirty : Bool
deriving DecidableEq

/-- Over `Int`: the update `if (old_last == cur_node) old_last = prev_cur_node;`, where
`before` is the part of `rects` in front of `cur_node`. -/
def update_old_last (old_last : Option Nat) (before : List rect_node_t)
    (cur_node : rect_node_t) : Option Nat :=
  if old_last = some cur_node.addr then last_addr before else old_last

/-- Over `Int`: the inner `while (cur_node)` loop of `rect_list_add_split_fuzzy` for the
fragment `r`.  `before` is the part of `rects` in front of `cur_node` (its last
node is `prev_cur_node`), the next argument the part from `cur_node` on. -/
def fuzzy_scan (accepted_error : Int) (r : rect_t) :
    List rect_node_t → List rect_node_t → Option Nat → List rect_node_t → Nat →
      outcome fuzzy_scan_state
  | before, [], old_last, dirty, brk =>
    .ok { rects := before, dirty := dirty, old_last := old_last, brk := brk, keep_dirty := true }
  | before, cur_node :: rest, old_last, dirty, brk =>
    let current := cur_node.rect
    let io := _calc_intra_outer_rect_area r current
    let intra := io.1
    let outer := io.2
    let area := current.area + r.area - intra.area
    if intra.width = r.width ∧ intra.height = r.height then
      .ok { rects := before ++ cur_node :: rest, dirty := dirty, old_last := old_last,
            brk := brk, keep_dirty := false }
    else if intra.width = current.width ∧ intra.height = current.height then
      fuzzy_scan accepted_error r before rest (update_old_last old_last before cur_node)
        dirty brk
    else if outer.area - area ≤ accepted_error then
      let n : rect_node_t := { cur_node with rect := outer }
      .ok { rects := before ++ rest, dirty := rect_list_append_node dirty n,
            old_last := update_old_last old_last before cur_node, brk := brk,
            keep_dirty := false }
    else if intra.area ≤ accepted_error then
      fuzzy_scan accepted_error r (before ++ [cur_node]) rest old_last dirty brk
    else
      let s := _split_fuzzy brk dirty current r
      if s.action = SPLIT_FUZZY_ACTION_MERGE then
        let n : rect_node_t :=
          { cur_node with
            rect := { current with
                      left := outer.left
                      width := outer.width
                      right := outer.right
                      area := outer.width * s.b.height } }
        .ok { rects := before ++ rest, dirty := rect_list_append_node s.dirty n,
              old_last := update_old_last old_last before cur_node, brk := s.brk,
              keep_dirty := false }
      else if s.action = SPLIT_FUZZY_ACTION_NONE then
        .assert_fail
      else
        .ok { rects := before ++ cur_node :: rest, dirty := s.dirty, old_last := old_last,
              brk := s.brk, keep_dirty := false }

/-- Over `Int`: one iteration of the outer `while (dirty.head)` loop for the head `d_node`
of `dirty` and the remaining fragments `dirty`. -/
def fuzzy_step (accepted_error : Int) (rects : List rect_node_t) (d_node : rect_node_t)
    (dirty : List rect_node_t) (old_last : Option Nat) (brk : Nat) : outcome fuzzy_state :=
  match fuzzy_scan accepted_error d_node.rect [] rects old_last dirty brk with
  | .ok s =>
    .ok { rects := if s.keep_dirty then rect_list_append_node s.rects d_node else s.rects
          dirty := s.dirty
          old_last := s.old_last
          brk := s.brk }
  | .assert_fail => .assert_fail
  | .out_of_fuel => .out_of_fuel

/-- Over `Int`: the outer `while (dirty.head)` loop of `rect_list_add_split_fuzzy`. -/
def fuzzy_loop (accepted_error : Int) : Nat → fuzzy_state → outcome fuzzy_state
  | fuel, st =>
    match st.dirty with
    | [] => .ok st
    | d_node :: dirty =>
      match fuel with
      | 0 => .out_of_fuel
      | fuel + 1 =>
        match fuzzy_step accepted_error st.rects d_node dirty st.old_last st.brk with
        | .ok st1 => fuzzy_loop accepted_error fuel st1
        | .assert_fail => .assert_fail
        | .out_of_fuel => .out_of_fuel

/-- Over `Int`: the routine `rect_list_add_split_fuzzy(rects, node, accepted_error)`: the
final state holds the new `rects` and the returned pointer `old_last`. -/
def rect_list_add_split_fuzzy (fuel brk : Nat) (rects : List rect_node_t) (node : rect_node_t)
    (accepted_error : Int) : outcome fuzzy_state :=
  let old_last := last_addr rects
  match rects with
  | [] =>
    .ok { rects := rect_list_append_node rects node, dirty := [], old_last := old_last,
          brk := brk }
  | _ :: _ =>
    fuzzy_loop accepted_error fuel
      { rects := rects, dirty := rect_list_append_node [] node, old_last := old_last, brk := brk }

/-- Over `Int`: the helper `_calc_outer_rect_area(a, b, outer)`. -/
def _calc_outer_rect_area (a b : rect_t) : rect_t :=
  let min_left := if a.left < b.left then a.left else b.left
  let max_right := if a.right < b.right then b.right else a.right
  let min_top := if a.top < b.top then a.top else b.top
  let max_bottom := if a.bottom < b.bottom then b.bottom else a.bottom
  let outer_width := max_right - min_left
  let outer_height := max_bottom - min_top
  { left := min_left
    right := max_right
    width := outer_width
    top := min_top
    bottom := max_bottom
    height := outer_height
    area := outer_width * outer_height }

/-- Over `Int`: the inner `while (node != NULL)` loop of `rect_list_merge_rects` for the
candidate `r1`: when a member merges, the set without it and its node holding
the outer rectangle. -/
def merge_scan (accepted_error : Int) (r1 : rect_t) :
    List rect_node_t → List rect_node_t → Option (List rect_node_t × rect_node_t)
  | _, [] => none
  | before, node :: rest =>
    let r2 := node.rect
    let outer := _calc_outer_rect_area r1 r2
    let area := r1.area + r2.area
    if outer.area - area ≤ accepted_error then
      some (before ++ rest, { node with rect := outer })
    else
      merge_scan accepted_error r1 (before ++ [node]) rest

/-- Over `Int`: the routine `rect_list_merge_rects(rects, to_merge, accepted_error)`, its
outer loop run with fuel: the new contents of `rects` (`to_merge` ends empty). -/
def rect_list_merge_rects (fuel : Nat) (rects to_merge : List rect_node_t)
    (accepted_error : Int) : outcome (List rect_node_t) :=
  match to_merge with
  | [] => .ok rects
  | head :: tail =>
    match fuel with
    | 0 => .out_of_fuel
    | fuel + 1 =>
      match merge_scan accepted_error head.rect [] rects with
      | some (rects1, n) =>
        rect_list_merge_rects fuel rects1 (rect_list_append_node tail n) accepted_error
      | none =>
        rect_list_merge_rects fuel (rect_list_append_node rects head) tail accepted_error

/-! ## Specification vocabulary -/

/-- Over `Int`: a rectangle is well formed when its edges agree with its size and the size is positive. -/
def rect_t.wf (r : rect_t) : Prop :=
  r.right = r.left + r.width ∧ r.bottom = r.top + r.height ∧ r.width > 0 ∧ r.height > 0

/-- Over `Int`: a well-formed rectangle whose cached area agrees with its size. -/
def rect_t.wf_area (r : rect_t) : Prop :=
  r.wf ∧ r.area = r.width * r.height

/-- Over `Int`: the point `(x, y)` lies in `r`. -/
def rect_t.has (r : rect_t) (x y : Int) : Prop :=
  r.left ≤ x ∧ x < r.right ∧ r.top ≤ y ∧ y < r.bottom

/-- Over `Int`: the point `(x, y)` lies in some member of the set. -/
def covers (rects : List rect_t) (x y : Int) : Prop :=
  ∃ m ∈ rects, m.has x y

/-- Over `Int`: the intersection area of two rectangles, as the source computes it. -/
def inter_area (a b : rect_t) : Int :=
  (_calc_intra_outer_rect_area a b).1.area

/-- Over `Int`: every two distinct members (members at distinct positions) have intersection area 0. -/
def non_overlapping (rects : List rect_t) : Prop :=
  rects.Pairwise (fun a b => inter_area a b = 0)

/-- Over `Int`: the sum of the cached areas of the members. -/
def total_area (rects : List rect_t) : Int :=
  (rects.map rect_t.area).sum

/-- Over `Int`: rectangle `r` is fully contained in `m`. -/
def rect_t.inside (r m : rect_t) : Prop :=
  m.left ≤ r.left ∧ r.right ≤ m.right ∧ m.top ≤ r.top ∧ r.bottom ≤ m.bottom

instance (r : rect_t) : Decidable r.wf := by unfold rect_t.wf; infer_instance
instance (r : rect_t) : Decidable r.wf_area := by unfold rect_t.wf_area; infer_instance
instance (r : rect_t) (x y : Int) : Decidable (r.has x y) := by unfold rect_t.has; infer_instance
instance (r m : rect_t) : Decidable (r.inside m) := by unfold rect_t.inside; infer_instance
instance (l : List rect_t) : Decidable (non_overlapping l) := by unfold non_overlapping; infer_instance

/-- Over `Int`: a strict operation on a set: insert a rectangle or delete a rectangle. -/
inductive strict_op where
  | insert (r : rect_t)
  | delete (r : rect_t)

/-- Over `Int`: the rectangle an operation is called with. -/
def strict_op.rect : strict_op → rect_t
  | .insert r => r
  | .delete r => r

/-- Over `Int`: apply one strict operation to a set. -/
def apply_strict_op (rects : List rect_t) : strict_op → List rect_t
  | .insert r => rect_list_add_split_strict rects r
  | .delete r => rect_list_del_split_strict rects r

/-- Over `Int`: the set built from the empty set by a sequence of strict operations. -/
def run_strict_ops (ops : List strict_op) : List rect_t :=
  ops.foldl apply_strict_op []

/-- Over `Int`: the state of `rect_list_add_split_fuzzy` when it first reaches its outer
loop (the set is not empty and `node` has been queued in `dirty`). -/
def fuzzy_init (brk : Nat) (rects : List rect_node_t) (node : rect_node_t) : fuzzy_state :=
  { rects := rects, dirty := rect_list_append_node [] node, old_last := last_addr rects,
    brk := brk }

/-- Over `Int`: the states the outer loop of `rect_list_add_split_fuzzy` passes through
at its head when started in `st0`. -/
inductive fuzzy_reach (accepted_error : Int) (st0 : fuzzy_state) : fuzzy_state → Prop where
  | start : fuzzy_reach accepted_error st0 st0
  | next (st st1 : fuzzy_state) (d : rect_node_t) (ds : List rect_node_t) :
      fuzzy_reach accepted_error st0 st → st.dirty = d :: ds →
      fuzzy_step accepted_error st.rects d ds st.old_last st.brk = .ok st1 →
      fuzzy_reach accepted_error st0 st1

/-! ## Auxiliary definitions used by the proofs -/

/-- Over `Int`: the strips `_split_strict` appends, as a list of their own. -/
def strips (current r : rect_t) : List rect_t :=
  (if current.top - r.top > 0 then
      [rect_init r.left r.top r.width (current.top - r.top)] else []) ++
  ((if r.bottom - current.bottom > 0 then
      [rect_init r.left current.bottom r.width (r.bottom - current.bottom)] else []) ++
  ((if current.left - r.left > 0 then
      [rect_init r.left (split_strict_r2 current r).top (current.left - r.left)
        (split_strict_r2 current r).height] else []) ++
   (if r.right - current.right > 0 then
      [rect_init current.right (split_strict_r2 current r).top (r.right - current.right)
        (split_strict_r2 current r).height] else [])))

/-- Over `Int`: two rectangles share a point: the raw intersection is positive in both axes. -/
def overlap (a b : rect_t) : Prop :=
  max a.left b.left < min a.right b.right ∧ max a.top b.top < min a.bottom b.bottom

instance (a b : rect_t) : Decidable (overlap a b) := by unfold overlap; infer_instance

/-- Over `Int`: what the inner loop of `rect_list_add_split_strict` appends to `new_dirty`
for the fragment `r` and the member `current`. -/
def add_frag (current r : rect_t) : List rect_t :=
  let intra := _calc_intra_rect_area r current
  if intra.1 = r.width ∧ intra.2 = r.height then []
  else if intra.1 ≤ 0 ∨ intra.2 ≤ 0 then [r]
  else strips current r

/-- Over `Int`: what `rect_list_del_split_strict` leaves in `rects` for the member `m`. -/
def del_keep (del_r m : rect_t) : List rect_t :=
  let intra := _calc_intra_rect_area del_r m
  if intra.1 ≤ 0 ∨ intra.2 ≤ 0 then [m] else []

/-- Over `Int`: what `rect_list_del_split_strict` appends to `modified` for the member `m`. -/
def del_mod (del_r m : rect_t) : List rect_t :=
  let intra := _calc_intra_rect_area del_r m
  if intra.1 ≤ 0 ∨ intra.2 ≤ 0 then []
  else if intra.1 = m.width ∧ intra.2 = m.height then []
  else strips del_r m

/-- Over `Int`: the length of the overlap of the intervals `[l1, r1)` and `[l2, r2)`. -/
def ov (l1 r1 l2 r2 : Int) : Int :=
  max 0 (min r1 r2 - max l1 l2)

/-- Over `Int`: the sum of the intersection areas of the members of `D` with `q`. -/
def inter_sum (D : List rect_t) (q : rect_t) : Int :=
  (D.map (fun s => inter_area s q)).sum

/-- Over `Int`: the edges of a rectangle agree with its size. -/
def rect_t.edges (r : rect_t) : Prop :=
  r.right = r.left + r.width ∧ r.bottom = r.top + r.height

instance (r : rect_t) : Decidable r.edges := by unfold rect_t.edges; infer_instance

/-- Over `Int`: the condition under which `_split_fuzzy(dirty, a, b)` reports a horizontal
merge, with the trimmed height of `*b` written out. -/
def fuzzy_merge_cond (a b : rect_t) : Prop :=
  (a.left - b.left > 0 ∨ b.right - a.right > 0) ∧ a.height = (split_strict_r2 a b).height

instance (a b : rect_t) : Decidable (fuzzy_merge_cond a b) := by
  unfold fuzzy_merge_cond; infer_instance

/-- Over `Int`: the top and bottom strips `_split_fuzzy(dirty, a, b)` appends before it
tests for a horizontal merge. -/
def top_bottom_strips (a b : rect_t) : List rect_t :=
  (if a.top - b.top > 0 then [rect_init b.left b.top b.width (a.top - b.top)] else []) ++
  (if b.bottom - a.bottom > 0 then
    [rect_init b.left a.bottom b.width (b.bottom - a.bottom)] else [])

/-- Over `Int`: the rectangles of the nodes of a list. -/
def node_rects (l : List rect_node_t) : List rect_t :=
  l.map rect_node_t.rect

instance (rects : List rect_t) (x y : Int) : Decidable (covers rects x y) := by
  unfold covers; infer_instance

/-- Over `Int`: every two distinct members (members at distinct positions) have
intersection area at most `e`. -/
def overlap_bounded (e : Int) (rects : List rect_t) : Prop :=
  rects.Pairwise (fun a b => inter_area a b ≤ e)

instance (e : Int) (rects : List rect_t) : Decidable (overlap_bounded e rects) := by
  unfold overlap_bounded; infer_instance

/-- The four edges of `r` lie in the window `[-10000, 10000]`. -/
def rect_t.in_range (r : rect_t) : Prop :=
  (-10000 ≤ r.left ∧ r.left ≤ 10000) ∧ (-10000 ≤ r.right ∧ r.right ≤ 10000) ∧
    (-10000 ≤ r.top ∧ r.top ≤ 10000) ∧ (-10000 ≤ r.bottom ∧ r.bottom ≤ 10000)

end Exact

/-! ## From the machine model to the reference model -/

/-- Apply a function to the result of a run. -/
def outcome.map {α β : Type} (f : α → β) : outcome α → outcome β
  | .ok a => .ok (f a)
  | .assert_fail => .assert_fail
  | .out_of_fuel => .out_of_fuel

/-- A rectangle of the machine model, its fields read as integers. -/
def rect_t.toExact (r : rect_t) : Exact.rect_t :=
  { left := r.left.val
    top := r.top.val
    right := r.right.val
    bottom := r.bottom.val
    width := r.width.val
    height := r.height.val
    area := r.area.val }

/-- A node of the machine model, its rectangle read over the integers. -/
def rect_node_t.toExact (n : rect_node_t) : Exact.rect_node_t :=
  { addr := n.addr, rect := n.rect.toExact }

/-- The result of `_split_fuzzy`, read over the integers. -/
def split_fuzzy_state.toExact (s : split_fuzzy_state) : Exact.split_fuzzy_state :=
  { action := s.action, brk := s.brk, dirty := s.dirty.map rect_node_t.toExact,
    b := s.b.toExact }

/-- The state of the inner loop of the fuzzy insertion, read over the integers. -/
def fuzzy_scan_state.toExact (s : fuzzy_scan_state) : Exact.fuzzy_scan_state :=
  { rects := s.rects.map rect_node_t.toExact, dirty := s.dirty.map rect_node_t.toExact,
    old_last := s.old_last, brk := s.brk, keep_dirty := s.keep_dirty }

/-- The state of the outer loop of the fuzzy insertion, read over the integers. -/
def fuzzy_state.toExact (s : fuzzy_state) : Exact.fuzzy_state :=
  { rects := s.rects.map rect_node_t.toExact, dirty := s.dirty.map rect_node_t.toExact,
    old_last := s.old_last, brk := s.brk }

/-- A strict operation, its rectangle read over the integers. -/
def strict_op.toExact : strict_op → Exact.strict_op
  | .insert r => .insert r.toExact
  | .delete r => .delete r.toExact

/-! # Theorems

The theorems of the reference model come first (namespace `Exact`); the
theorems about the code, stated over the machine model, follow it. -/

namespace Exact

open split_fuzzy_action

/-! ## Strips produced by `_split_strict` -/

theorem split_strict_eq (dirty : List rect_t) (current r : rect_t) :
    _split_strict dirty current r = dirty ++ strips current r := by
  have h1 : (split_strict_r1 current r).left = r.left ∧
      (split_strict_r1 current r).width = r.width := by
    unfold split_strict_r1; split_ifs <;> simp
  have h2 : (split_strict_r2 current r).left = r.left := by
    unfold split_strict_r2; simp only; split_ifs <;> simp [h1.1]
  unfold _split_strict strips rect_list_append_xywh rect_list_append rect_list_append_node
  simp only [h1.1, h1.2, h2]
  split_ifs <;> simp

theorem r2_top (current r : rect_t) :
    (split_strict_r2 current r).top = max r.top current.top := by
  unfold split_strict_r2 split_strict_r1
  split_ifs <;> simp <;> omega

theorem r2_height (current r : rect_t) :
    (split_strict_r2 current r).height =
      r.height - max (current.top - r.top) 0 - max (r.bottom - current.bottom) 0 := by
  unfold split_strict_r2 split_strict_r1
  split_ifs <;> simp <;> omega

theorem intra_eq (a b : rect_t) :
    _calc_intra_rect_area a b =
      (min a.right b.right - max a.left b.left, min a.bottom b.bottom - max a.top b.top) := by
  unfold _calc_intra_rect_area
  simp only [Prod.mk.injEq]
  constructor <;> split_ifs <;> omega

theorem inter_area_eq (a b : rect_t) :
    inter_area a b =
      if overlap a b then
        (min a.right b.right - max a.left b.left) * (min a.bottom b.bottom - max a.top b.top)
      else 0 := by
  have hw : (if a.right < b.right then a.right else b.right) = min a.right b.right := by
    split_ifs <;> omega
  have hl : (if a.left < b.left then b.left else a.left) = max a.left b.left := by
    split_ifs <;> omega
  have hb : (if a.bottom < b.bottom then a.bottom else b.bottom) = min a.bottom b.bottom := by
    split_ifs <;> omega
  have ht : (if a.top < b.top then b.top else a.top) = max a.top b.top := by
    split_ifs <;> omega
  unfold inter_area _calc_intra_outer_rect_area overlap
  simp only [hw, hl, hb, ht]
  by_cases h : max a.left b.left < min a.right b.right ∧ max a.top b.top < min a.bottom b.bottom
  · rw [if_pos h, if_pos]
    omega
  · rw [if_neg h, if_neg]
    omega

theorem inter_area_eq_zero_iff (a b : rect_t) : inter_area a b = 0 ↔ ¬ overlap a b := by
  rw [inter_area_eq]
  by_cases h : overlap a b
  · simp only [h, if_true, not_true, iff_false]
    have h1 : 0 < min a.right b.right - max a.left b.left := by have := h.1; omega
    have h2 : 0 < min a.bottom b.bottom - max a.top b.top := by have := h.2; omega
    exact (Int.mul_pos h1 h2).ne'
  · simp [h]

theorem overlap_iff_common_point (a b : rect_t) :
    overlap a b ↔ ∃ x y, a.has x y ∧ b.has x y := by
  unfold overlap rect_t.has
  constructor
  · intro h
    exact ⟨max a.left b.left, max a.top b.top, by omega, by omega⟩
  · rintro ⟨x, y, h1, h2⟩
    omega

theorem mem_ite_singleton {α : Type} (c : Prop) [Decidable c] (a x : α) :
    x ∈ (if c then [a] else []) ↔ c ∧ x = a := by
  split_ifs with h <;> simp [h]

theorem mem_strips (current r s : rect_t) :
    s ∈ strips current r ↔
      (current.top - r.top > 0 ∧ s = rect_init r.left r.top r.width (current.top - r.top)) ∨
      (r.bottom - current.bottom > 0 ∧
        s = rect_init r.left current.bottom r.width (r.bottom - current.bottom)) ∨
      (current.left - r.left > 0 ∧
        s = rect_init r.left (max r.top current.top) (current.left - r.left)
          (r.height - max (current.top - r.top) 0 - max (r.bottom - current.bottom) 0)) ∨
      (r.right - current.right > 0 ∧
        s = rect_init current.right (max r.top current.top) (r.right - current.right)
          (r.height - max (current.top - r.top) 0 - max (r.bottom - current.bottom) 0)) := by
  unfold strips
  rw [r2_top, r2_height]
  simp only [List.mem_append, mem_ite_singleton]

theorem strips_wf (current r : rect_t) (hr : r.wf) (ho : overlap r current) :
    ∀ s ∈ strips current r, s.wf_area ∧ s.inside r := by
  intro s hs
  rw [mem_strips] at hs
  obtain ⟨h1, h2, h3, h4⟩ := hr
  obtain ⟨o1, o2⟩ := ho
  unfold rect_t.wf_area rect_t.wf rect_t.inside
  rcases hs with ⟨h, rfl⟩ | ⟨h, rfl⟩ | ⟨h, rfl⟩ | ⟨h, rfl⟩ <;>
    refine ⟨⟨⟨?_, ?_, ?_, ?_⟩, ?_⟩, ?_, ?_, ?_, ?_⟩ <;> simp only [rect_init] <;> omega

theorem strips_has (current r : rect_t) (hr : r.wf) (ho : overlap r current) (x y : Int) :
    covers (strips current r) x y ↔ r.has x y ∧ ¬ current.has x y := by
  obtain ⟨h1, h2, h3, h4⟩ := hr
  obtain ⟨o1, o2⟩ := ho
  unfold covers
  constructor
  · rintro ⟨s, hs, hp⟩
    rw [mem_strips] at hs
    unfold rect_t.has at hp ⊢
    rcases hs with ⟨h, rfl⟩ | ⟨h, rfl⟩ | ⟨h, rfl⟩ | ⟨h, rfl⟩ <;>
      simp only [rect_init] at hp <;> omega
  · rintro ⟨hp, hn⟩
    unfold rect_t.has at hp hn
    by_cases c1 : y < current.top
    · refine ⟨_, (mem_strips _ _ _).2 (Or.inl ⟨by omega, rfl⟩), ?_⟩
      simp only [rect_t.has, rect_init]; omega
    by_cases c2 : current.bottom ≤ y
    · refine ⟨_, (mem_strips _ _ _).2 (Or.inr (Or.inl ⟨by omega, rfl⟩)), ?_⟩
      simp only [rect_t.has, rect_init]; omega
    by_cases c3 : x < current.left
    · refine ⟨_, (mem_strips _ _ _).2 (Or.inr (Or.inr (Or.inl ⟨by omega, rfl⟩))), ?_⟩
      simp only [rect_t.has, rect_init]; omega
    · refine ⟨_, (mem_strips _ _ _).2 (Or.inr (Or.inr (Or.inr ⟨by omega, rfl⟩))), ?_⟩
      simp only [rect_t.has, rect_init]; omega

theorem strips_pairwise (current r : rect_t) (hr : r.wf) (ho : overlap r current) :
    (strips current r).Pairwise (fun a b => ¬ overlap a b) := by
  obtain ⟨h1, h2, h3, h4⟩ := hr
  obtain ⟨o1, o2⟩ := ho
  unfold strips
  rw [r2_top, r2_height]
  split_ifs <;>
    simp only [List.nil_append, List.append_nil, List.singleton_append, List.pairwise_cons,
      List.Pairwise.nil, List.mem_cons, List.mem_singleton, List.not_mem_nil, forall_eq_or_imp,
      forall_eq, and_true, true_and, false_imp_iff, implies_true, overlap, rect_init] <;>
    omega

/-! ## One fragment against one member (strict insertion) -/

theorem add_inner_eq (current : rect_t) (dirty new_dirty : List rect_t) :
    add_split_strict_inner current dirty new_dirty =
      new_dirty ++ dirty.flatMap (add_frag current) := by
  induction dirty generalizing new_dirty with
  | nil => simp [add_split_strict_inner]
  | cons r dirty ih =>
    simp only [add_split_strict_inner, List.flatMap_cons, add_frag]
    split_ifs
    · rw [ih]; simp
    · rw [ih]; simp [rect_list_append_node]
    · rw [ih, split_strict_eq]; simp

theorem not_disjoint_iff (a b : rect_t) :
    ¬ ((_calc_intra_rect_area a b).1 ≤ 0 ∨ (_calc_intra_rect_area a b).2 ≤ 0) ↔ overlap a b := by
  rw [intra_eq]
  unfold overlap
  simp only
  omega

theorem overlap_comm (a b : rect_t) : overlap a b ↔ overlap b a := by
  unfold overlap
  omega

theorem contained_iff (r current : rect_t) (hr : r.wf) :
    ((_calc_intra_rect_area r current).1 = r.width ∧
      (_calc_intra_rect_area r current).2 = r.height) ↔ r.inside current := by
  obtain ⟨h1, h2, h3, h4⟩ := hr
  rw [intra_eq]
  unfold rect_t.inside
  simp only
  omega

theorem contained_iff_right (r current : rect_t) (hr : r.wf) :
    ((_calc_intra_rect_area current r).1 = r.width ∧
      (_calc_intra_rect_area current r).2 = r.height) ↔ r.inside current := by
  obtain ⟨h1, h2, h3, h4⟩ := hr
  rw [intra_eq]
  unfold rect_t.inside
  simp only
  omega

theorem add_frag_wf (current r : rect_t) (hr : r.wf) :
    ∀ s ∈ add_frag current r,
      s.wf ∧ s.inside r ∧ (r.area = r.width * r.height → s.area = s.width * s.height) := by
  intro s hs
  unfold add_frag at hs
  simp only at hs
  split_ifs at hs with c1 c2
  · simp at hs
  · simp only [List.mem_singleton] at hs
    subst hs
    exact ⟨hr, by unfold rect_t.inside; omega, fun h => h⟩
  · have ho := (not_disjoint_iff r current).1 c2
    have := strips_wf current r hr ho s hs
    exact ⟨this.1.1, this.2, fun _ => this.1.2⟩

theorem add_frag_has (current r : rect_t) (hr : r.wf) (x y : Int) :
    covers (add_frag current r) x y ↔ r.has x y ∧ ¬ current.has x y := by
  unfold add_frag
  simp only
  split_ifs with c1 c2
  · have hin := (contained_iff r current hr).1 c1
    unfold covers rect_t.inside rect_t.has at *
    simp only [List.not_mem_nil, false_and, exists_false, false_iff]
    omega
  · have hno : ¬ overlap r current := fun h => (not_disjoint_iff r current).2 h c2
    rw [overlap_iff_common_point] at hno
    unfold covers
    simp only [List.mem_singleton, exists_eq_left]
    constructor
    · intro h
      exact ⟨h, fun hc => hno ⟨x, y, h, hc⟩⟩
    · exact fun h => h.1
  · exact strips_has current r hr ((not_disjoint_iff r current).1 c2) x y

theorem add_frag_pairwise (current r : rect_t) (hr : r.wf) :
    (add_frag current r).Pairwise (fun a b => ¬ overlap a b) := by
  unfold add_frag
  simp only
  split_ifs with c1 c2
  · exact List.Pairwise.nil
  · exact List.pairwise_singleton _ _
  · exact strips_pairwise current r hr ((not_disjoint_iff r current).1 c2)

theorem not_overlap_of_inside (a b s t : rect_t) (h : ¬ overlap a b) (hs : s.inside a)
    (ht : t.inside b) : ¬ overlap s t := by
  unfold overlap rect_t.inside at *
  omega

theorem inside_trans (a b c : rect_t) (h1 : a.inside b) (h2 : b.inside c) : a.inside c := by
  unfold rect_t.inside at *
  omega

theorem inside_refl (a : rect_t) : a.inside a := by
  unfold rect_t.inside
  omega

/-! ## The loops of strict insertion -/

theorem add_inner_wf (current : rect_t) (D : List rect_t) (hD : ∀ f ∈ D, f.wf) :
    ∀ s ∈ add_split_strict_inner current D [], s.wf ∧ ∃ f ∈ D, s.inside f := by
  intro s hs
  rw [add_inner_eq, List.nil_append, List.mem_flatMap] at hs
  obtain ⟨f, hf, hsf⟩ := hs
  have := add_frag_wf current f (hD f hf) s hsf
  exact ⟨this.1, f, hf, this.2.1⟩

theorem add_inner_area (current : rect_t) (D : List rect_t) (hD : ∀ f ∈ D, f.wf_area) :
    ∀ s ∈ add_split_strict_inner current D [], s.wf_area := by
  intro s hs
  rw [add_inner_eq, List.nil_append, List.mem_flatMap] at hs
  obtain ⟨f, hf, hsf⟩ := hs
  have := add_frag_wf current f (hD f hf).1 s hsf
  exact ⟨this.1, this.2.2 (hD f hf).2⟩

theorem add_inner_has (current : rect_t) (D : List rect_t) (hD : ∀ f ∈ D, f.wf) (x y : Int) :
    covers (add_split_strict_inner current D []) x y ↔ covers D x y ∧ ¬ current.has x y := by
  rw [add_inner_eq, List.nil_append]
  unfold covers
  constructor
  · rintro ⟨s, hs, hp⟩
    rw [List.mem_flatMap] at hs
    obtain ⟨f, hf, hsf⟩ := hs
    have := (add_frag_has current f (hD f hf) x y).1 ⟨s, hsf, hp⟩
    exact ⟨⟨f, hf, this.1⟩, this.2⟩
  · rintro ⟨⟨f, hf, hp⟩, hn⟩
    obtain ⟨s, hs, hsp⟩ := (add_frag_has current f (hD f hf) x y).2 ⟨hp, hn⟩
    exact ⟨s, List.mem_flatMap.2 ⟨f, hf, hs⟩, hsp⟩

theorem add_inner_pairwise (current : rect_t) (D : List rect_t) (hD : ∀ f ∈ D, f.wf)
    (hP : D.Pairwise (fun a b => ¬ overlap a b)) :
    (add_split_strict_inner current D []).Pairwise (fun a b => ¬ overlap a b) := by
  rw [add_inner_eq, List.nil_append, List.pairwise_flatMap]
  refine ⟨fun f hf => add_frag_pairwise current f (hD f hf), ?_⟩
  have hP2 : D.Pairwise (fun a b => (a.wf ∧ b.wf) ∧ ¬ overlap a b) := by
    rw [List.pairwise_and_iff]
    exact ⟨List.pairwise_of_forall_mem_list (fun a ha b hb => ⟨hD a ha, hD b hb⟩), hP⟩
  refine hP2.imp ?_
  rintro a b ⟨⟨ha, hb⟩, hab⟩ s hs t ht
  exact not_overlap_of_inside a b s t hab (add_frag_wf current a ha s hs).2.1
    (add_frag_wf current b hb t ht).2.1

theorem add_outer_nil_right (rects : List rect_t) : add_split_strict_outer rects [] = [] := by
  cases rects <;> rfl

theorem add_outer_nil_left (D : List rect_t) : add_split_strict_outer [] D = D := by
  cases D <;> rfl

theorem add_outer_cons (current : rect_t) (rest D : List rect_t) :
    add_split_strict_outer (current :: rest) D =
      add_split_strict_outer rest (add_split_strict_inner current D []) := by
  cases D with
  | nil => simp [add_split_strict_inner, add_outer_nil_right]
  | cons r D => rfl

theorem add_outer_wf (rects D : List rect_t) (hD : ∀ f ∈ D, f.wf) :
    ∀ s ∈ add_split_strict_outer rects D, s.wf ∧ ∃ f ∈ D, s.inside f := by
  induction rects generalizing D with
  | nil =>
    rw [add_outer_nil_left]
    exact fun s hs => ⟨hD s hs, s, hs, inside_refl s⟩
  | cons c rest ih =>
    rw [add_outer_cons]
    intro s hs
    have h1 := add_inner_wf c D hD
    obtain ⟨hw, g, hg, hsg⟩ := ih _ (fun f hf => (h1 f hf).1) s hs
    obtain ⟨f, hf, hgf⟩ := (h1 g hg).2
    exact ⟨hw, f, hf, inside_trans s g f hsg hgf⟩

theorem add_outer_area (rects D : List rect_t) (hD : ∀ f ∈ D, f.wf_area) :
    ∀ s ∈ add_split_strict_outer rects D, s.wf_area := by
  induction rects generalizing D with
  | nil => rw [add_outer_nil_left]; exact hD
  | cons c rest ih =>
    rw [add_outer_cons]
    exact ih _ (add_inner_area c D hD)

theorem add_outer_has (rects D : List rect_t) (hD : ∀ f ∈ D, f.wf) (x y : Int) :
    covers (add_split_strict_outer rects D) x y ↔ covers D x y ∧ ¬ covers rects x y := by
  induction rects generalizing D with
  | nil =>
    rw [add_outer_nil_left]
    simp [covers]
  | cons c rest ih =>
    rw [add_outer_cons, ih _ (fun f hf => (add_inner_wf c D hD f hf).1), add_inner_has c D hD]
    simp only [covers, List.mem_cons, exists_eq_or_imp, not_or]
    tauto

theorem add_outer_pairwise (rects D : List rect_t) (hD : ∀ f ∈ D, f.wf)
    (hP : D.Pairwise (fun a b => ¬ overlap a b)) :
    (add_split_strict_outer rects D).Pairwise (fun a b => ¬ overlap a b) := by
  induction rects generalizing D with
  | nil => rw [add_outer_nil_left]; exact hP
  | cons c rest ih =>
    rw [add_outer_cons]
    exact ih _ (fun f hf => (add_inner_wf c D hD f hf).1) (add_inner_pairwise c D hD hP)

theorem rect_list_concat_eq {α : Type} (a b : List α) : rect_list_concat a b = a ++ b := by
  cases b <;> simp [rect_list_concat]

theorem add_strict_eq (S : List rect_t) (r : rect_t) :
    rect_list_add_split_strict S r = S ++ add_split_strict_outer S [r] := by
  cases S with
  | nil => simp [rect_list_add_split_strict, rect_list_append_node, add_outer_nil_left]
  | cons c rest =>
    simp only [rect_list_add_split_strict, rect_list_concat_eq, rect_list_append_node,
      List.nil_append]

theorem covers_append (A B : List rect_t) (x y : Int) :
    covers (A ++ B) x y ↔ covers A x y ∨ covers B x y := by
  simp only [covers, List.mem_append]
  constructor
  · rintro ⟨m, hm | hm, hp⟩
    · exact Or.inl ⟨m, hm, hp⟩
    · exact Or.inr ⟨m, hm, hp⟩
  · rintro (⟨m, hm, hp⟩ | ⟨m, hm, hp⟩)
    · exact ⟨m, Or.inl hm, hp⟩
    · exact ⟨m, Or.inr hm, hp⟩

/-- Over the unbounded integers:
strict insertion re-tiles exactly: a point lies in some member of the
result of `rect_list_add_split_strict` iff it lies in some member of the
original set or in the inserted rectangle. -/
theorem exact_add_split_strict_retiles (S : List rect_t) (r : rect_t)
    (hS : ∀ m ∈ S, m.wf) (hr : r.wf) (x y : Int) :
    covers (rect_list_add_split_strict S r) x y ↔ covers S x y ∨ r.has x y := by
  have hone : covers [r] x y ↔ r.has x y := by simp [covers]
  rw [add_strict_eq, covers_append, add_outer_has S [r] (by simpa using hr) x y, hone]
  tauto

/-! ## Strict deletion -/

theorem del_loop_eq (del_r : rect_t) (rects kept modified : List rect_t) :
    del_split_strict_loop del_r rects kept modified =
      (kept ++ rects.flatMap (del_keep del_r), modified ++ rects.flatMap (del_mod del_r)) := by
  induction rects generalizing kept modified with
  | nil => simp [del_split_strict_loop]
  | cons c rest ih =>
    simp only [del_split_strict_loop, List.flatMap_cons, del_keep, del_mod]
    split_ifs
    · rw [ih]; simp
    · rw [ih]; simp
    · rw [ih, split_strict_eq]; simp

theorem del_strict_eq (S : List rect_t) (d : rect_t) :
    rect_list_del_split_strict S d = S.flatMap (del_keep d) ++ S.flatMap (del_mod d) := by
  simp [rect_list_del_split_strict, del_loop_eq, rect_list_concat_eq]

theorem del_keep_mem (d m s : rect_t) (hs : s ∈ del_keep d m) : s = m ∧ ¬ overlap m d := by
  unfold del_keep at hs
  simp only at hs
  split_ifs at hs with c
  · simp only [List.mem_singleton] at hs
    refine ⟨hs, fun h => ?_⟩
    exact (not_disjoint_iff d m).2 ((overlap_comm m d).1 h) c
  · simp at hs

theorem del_mod_mem (d m s : rect_t) (hm : m.wf) (hs : s ∈ del_mod d m) :
    overlap m d ∧ s ∈ strips d m := by
  unfold del_mod at hs
  simp only at hs
  split_ifs at hs with c1 c2
  · simp at hs
  · simp at hs
  · exact ⟨(overlap_comm d m).1 ((not_disjoint_iff d m).1 c1), hs⟩

theorem strips_not_overlap (current r : rect_t) (hr : r.wf) (ho : overlap r current) :
    ∀ s ∈ strips current r, ¬ overlap s current := by
  intro s hs h
  obtain ⟨x, y, h1, h2⟩ := (overlap_iff_common_point s current).1 h
  exact ((strips_has current r hr ho x y).1 ⟨s, hs, h1⟩).2 h2

theorem del_piece_wf (d m s : rect_t) (hm : m.wf) (hs : s ∈ del_keep d m ∨ s ∈ del_mod d m) :
    s.wf ∧ s.inside m ∧ ¬ overlap s d ∧ (m.area = m.width * m.height → s.area = s.width * s.height) := by
  rcases hs with hs | hs
  · obtain ⟨rfl, h⟩ := del_keep_mem d m s hs
    exact ⟨hm, inside_refl s, h, fun h => h⟩
  · obtain ⟨ho, hst⟩ := del_mod_mem d m s hm hs
    have h1 := strips_wf d m hm ho s hst
    exact ⟨h1.1.1, h1.2, strips_not_overlap d m hm ho s hst, fun _ => h1.1.2⟩

theorem del_piece_has (d m : rect_t) (hm : m.wf) (x y : Int) :
    covers (del_keep d m) x y ∨ covers (del_mod d m) x y ↔ m.has x y ∧ ¬ d.has x y := by
  unfold del_keep del_mod
  simp only
  split_ifs with c1 c2
  · have hno : ¬ overlap m d := fun h =>
      (not_disjoint_iff d m).2 ((overlap_comm m d).1 h) c1
    rw [overlap_iff_common_point] at hno
    simp only [covers, List.mem_singleton, exists_eq_left, List.not_mem_nil, false_and,
      exists_false, or_false]
    exact ⟨fun h => ⟨h, fun hc => hno ⟨x, y, h, hc⟩⟩, fun h => h.1⟩
  · have hin := (contained_iff_right m d hm).1 c2
    unfold covers rect_t.inside rect_t.has at *
    simp only [List.not_mem_nil, false_and, exists_false, false_or, false_iff]
    omega
  · have ho : overlap m d := (overlap_comm d m).1 ((not_disjoint_iff d m).1 c1)
    rw [strips_has d m hm ho x y]
    simp [covers]

theorem covers_flatMap (S : List rect_t) (f : rect_t → List rect_t) (x y : Int) :
    covers (S.flatMap f) x y ↔ ∃ m ∈ S, covers (f m) x y := by
  simp only [covers, List.mem_flatMap]
  constructor
  · rintro ⟨s, ⟨m, hm, hs⟩, hp⟩
    exact ⟨m, hm, s, hs, hp⟩
  · rintro ⟨m, hm, s, hs, hp⟩
    exact ⟨s, ⟨m, hm, hs⟩, hp⟩

theorem del_strict_has (S : List rect_t) (d : rect_t) (hS : ∀ m ∈ S, m.wf) (x y : Int) :
    covers (rect_list_del_split_strict S d) x y ↔ covers S x y ∧ ¬ d.has x y := by
  rw [del_strict_eq, covers_append, covers_flatMap, covers_flatMap]
  constructor
  · rintro (⟨m, hm, h⟩ | ⟨m, hm, h⟩)
    · have := (del_piece_has d m (hS m hm) x y).1 (Or.inl h)
      exact ⟨⟨m, hm, this.1⟩, this.2⟩
    · have := (del_piece_has d m (hS m hm) x y).1 (Or.inr h)
      exact ⟨⟨m, hm, this.1⟩, this.2⟩
  · rintro ⟨⟨m, hm, hp⟩, hn⟩
    rcases (del_piece_has d m (hS m hm) x y).2 ⟨hp, hn⟩ with h | h
    · exact Or.inl ⟨m, hm, h⟩
    · exact Or.inr ⟨m, hm, h⟩

theorem del_strict_mem (S : List rect_t) (d s : rect_t)
    (hs : s ∈ rect_list_del_split_strict S d) :
    ∃ m ∈ S, s ∈ del_keep d m ∨ s ∈ del_mod d m := by
  rw [del_strict_eq, List.mem_append, List.mem_flatMap, List.mem_flatMap] at hs
  rcases hs with ⟨m, hm, h⟩ | ⟨m, hm, h⟩
  · exact ⟨m, hm, Or.inl h⟩
  · exact ⟨m, hm, Or.inr h⟩

/-- Over the unbounded integers:
strict deletion removes exactly the deleted area: a point lies in some
member of the result of `rect_list_del_split_strict` iff it lies in some member
of the original set and not in the deleted rectangle, and every member of the
result has intersection area 0 with the deleted rectangle. -/
theorem exact_del_split_strict_exact (S : List rect_t) (d : rect_t)
    (hS : ∀ m ∈ S, m.wf) (hd : d.wf) :
    (∀ x y, covers (rect_list_del_split_strict S d) x y ↔ covers S x y ∧ ¬ d.has x y) ∧
    (∀ s ∈ rect_list_del_split_strict S d, inter_area s d = 0 ∧ inter_area d s = 0) := by
  refine ⟨del_strict_has S d hS, fun s hs => ?_⟩
  obtain ⟨m, hm, h⟩ := del_strict_mem S d s hs
  have := (del_piece_wf d m s (hS m hm) h).2.2.1
  rw [inter_area_eq_zero_iff, inter_area_eq_zero_iff]
  exact ⟨this, fun h => this ((overlap_comm d s).1 h)⟩

/-! ## Strict non-overlap -/

theorem non_overlapping_iff (S : List rect_t) :
    non_overlapping S ↔ S.Pairwise (fun a b => ¬ overlap a b) := by
  unfold non_overlapping
  simp only [inter_area_eq_zero_iff]

theorem add_strict_wf (S : List rect_t) (r : rect_t) (hS : ∀ m ∈ S, m.wf) (hr : r.wf) :
    ∀ m ∈ rect_list_add_split_strict S r, m.wf := by
  intro m hm
  rw [add_strict_eq, List.mem_append] at hm
  rcases hm with hm | hm
  · exact hS m hm
  · exact (add_outer_wf S [r] (by simpa using hr) m hm).1

theorem del_strict_wf (S : List rect_t) (d : rect_t) (hS : ∀ m ∈ S, m.wf) :
    ∀ m ∈ rect_list_del_split_strict S d, m.wf := by
  intro s hs
  obtain ⟨m, hm, h⟩ := del_strict_mem S d s hs
  exact (del_piece_wf d m s (hS m hm) h).1

theorem add_strict_pairwise (S : List rect_t) (r : rect_t) (hS : ∀ m ∈ S, m.wf) (hr : r.wf)
    (hP : S.Pairwise (fun a b => ¬ overlap a b)) :
    (rect_list_add_split_strict S r).Pairwise (fun a b => ¬ overlap a b) := by
  have hr1 : ∀ f ∈ [r], f.wf := by simpa using hr
  rw [add_strict_eq, List.pairwise_append]
  refine ⟨hP, add_outer_pairwise S [r] hr1 (List.pairwise_singleton _ _), ?_⟩
  intro a ha b hb hab
  obtain ⟨x, y, h1, h2⟩ := (overlap_iff_common_point a b).1 hab
  exact ((add_outer_has S [r] hr1 x y).1 ⟨b, hb, h2⟩).2 ⟨a, ha, h1⟩

theorem del_strict_pairwise (S : List rect_t) (d : rect_t) (hS : ∀ m ∈ S, m.wf)
    (hP : S.Pairwise (fun a b => ¬ overlap a b)) :
    (rect_list_del_split_strict S d).Pairwise (fun a b => ¬ overlap a b) := by
  have hP2 : S.Pairwise (fun a b => (a.wf ∧ b.wf) ∧ ¬ overlap a b) := by
    rw [List.pairwise_and_iff]
    exact ⟨List.pairwise_of_forall_mem_list (fun a ha b hb => ⟨hS a ha, hS b hb⟩), hP⟩
  have hsymm : Symmetric (fun a b : rect_t => ¬ overlap a b) :=
    fun a b h h2 => h ((overlap_comm b a).1 h2)
  rw [del_strict_eq, List.pairwise_append]
  refine ⟨?_, ?_, ?_⟩
  · rw [List.pairwise_flatMap]
    refine ⟨fun m hm => ?_, hP2.imp ?_⟩
    · unfold del_keep
      simp only
      split_ifs
      · exact List.pairwise_singleton _ _
      · exact List.Pairwise.nil
    · rintro a b ⟨⟨ha, hb⟩, hab⟩ s hs t ht
      exact not_overlap_of_inside a b s t hab (del_piece_wf d a s ha (Or.inl hs)).2.1
        (del_piece_wf d b t hb (Or.inl ht)).2.1
  · rw [List.pairwise_flatMap]
    refine ⟨fun m hm => ?_, hP2.imp ?_⟩
    · unfold del_mod
      simp only
      split_ifs with c1 c2
      · exact List.Pairwise.nil
      · exact List.Pairwise.nil
      · exact strips_pairwise d m (hS m hm)
          ((overlap_comm d m).1 ((not_disjoint_iff d m).1 c1))
    · rintro a b ⟨⟨ha, hb⟩, hab⟩ s hs t ht
      exact not_overlap_of_inside a b s t hab (del_piece_wf d a s ha (Or.inr hs)).2.1
        (del_piece_wf d b t hb (Or.inr ht)).2.1
  · intro s hs t ht
    rw [List.mem_flatMap] at hs ht
    obtain ⟨a, ha, hsa⟩ := hs
    obtain ⟨b, hb, htb⟩ := ht
    obtain ⟨rfl, hnd⟩ := del_keep_mem d a s hsa
    obtain ⟨hod, hst⟩ := del_mod_mem d b t (hS b hb) htb
    have hne : s ≠ b := fun h => hnd (h ▸ hod)
    have hsb : ¬ overlap s b := hP.forall hsymm ha hb hne
    exact not_overlap_of_inside s b s t hsb (inside_refl s)
      (del_piece_wf d b t (hS b hb) (Or.inr htb)).2.1

theorem run_strict_ops_inv (ops : List strict_op) (hops : ∀ op ∈ ops, op.rect.wf) :
    (∀ m ∈ run_strict_ops ops, m.wf) ∧
      (run_strict_ops ops).Pairwise (fun a b => ¬ overlap a b) := by
  induction ops using List.reverseRecOn with
  | nil => simp [run_strict_ops]
  | append_singleton ops op ih =>
    have hops1 : ∀ o ∈ ops, o.rect.wf := fun o ho => hops o (by simp [ho])
    have hop : op.rect.wf := hops op (by simp)
    obtain ⟨ih1, ih2⟩ := ih hops1
    have hrun : run_strict_ops (ops ++ [op]) = apply_strict_op (run_strict_ops ops) op := by
      simp [run_strict_ops, List.foldl_append]
    rw [hrun]
    cases op with
    | insert r =>
      exact ⟨add_strict_wf _ r ih1 hop, add_strict_pairwise _ r ih1 hop ih2⟩
    | delete r =>
      exact ⟨del_strict_wf _ r ih1, del_strict_pairwise _ r ih1 ih2⟩

/-- Over the unbounded integers:
strict non-overlap is an invariant of both strict operations: a set of
well-formed rectangles whose distinct members have intersection area 0 keeps
that property under `rect_list_add_split_strict` and under
`rect_list_del_split_strict`, and so does every set built from the empty set
by these two operations. -/
theorem exact_strict_non_overlap_invariant (S : List rect_t) (r : rect_t) (ops : List strict_op)
    (hS : ∀ m ∈ S, m.wf) (hr : r.wf) (hP : non_overlapping S)
    (hops : ∀ op ∈ ops, op.rect.wf) :
    non_overlapping (rect_list_add_split_strict S r) ∧
    non_overlapping (rect_list_del_split_strict S r) ∧
    non_overlapping (run_strict_ops ops) := by
  rw [non_overlapping_iff] at hP
  simp only [non_overlapping_iff]
  exact ⟨add_strict_pairwise S r hS hr hP, del_strict_pairwise S r hS hP,
    (run_strict_ops_inv ops hops).2⟩

/-! ## Areas -/

theorem inter_area_ov (a b : rect_t) :
    inter_area a b = ov a.left a.right b.left b.right * ov a.top a.bottom b.top b.bottom := by
  rw [inter_area_eq]
  unfold ov
  by_cases h : overlap a b
  · rw [if_pos h]
    obtain ⟨h1, h2⟩ := h
    have e1 : max 0 (min a.right b.right - max a.left b.left) =
        min a.right b.right - max a.left b.left := by omega
    have e2 : max 0 (min a.bottom b.bottom - max a.top b.top) =
        min a.bottom b.bottom - max a.top b.top := by omega
    rw [e1, e2]
  · rw [if_neg h]
    unfold overlap at h
    rcases not_and_or.1 h with h1 | h1
    · have e1 : max 0 (min a.right b.right - max a.left b.left) = 0 := by omega
      rw [e1, zero_mul]
    · have e2 : max 0 (min a.bottom b.bottom - max a.top b.top) = 0 := by omega
      rw [e2, mul_zero]

theorem ov_congr (a b a1 b1 c d : Int) (ha : a = a1) (hb : b = b1) :
    ov a b c d = ov a1 b1 c d := by
  rw [ha, hb]

theorem ov_split (rl rr cl cr ql qr : Int) (h : max rl cl < min rr cr) :
    ov rl rr ql qr = ov rl cl ql qr + ov (max rl cl) (min rr cr) ql qr + ov cr rr ql qr := by
  unfold ov
  omega

theorem top_term (current r q : rect_t) (hr : r.wf) :
    (if current.top - r.top > 0 then
        inter_area (rect_init r.left r.top r.width (current.top - r.top)) q else 0) =
      ov r.left r.right q.left q.right * ov r.top current.top q.top q.bottom := by
  obtain ⟨h1, h2, h3, h4⟩ := hr
  split_ifs with c
  · rw [inter_area_ov]
    simp only [rect_init]
    rw [ov_congr r.left (r.left + r.width) r.left r.right _ _ rfl (by omega),
      ov_congr r.top (r.top + (current.top - r.top)) r.top current.top _ _ rfl (by omega)]
  · have : ov r.top current.top q.top q.bottom = 0 := by unfold ov; omega
    rw [this, mul_zero]

theorem bottom_term (current r q : rect_t) (hr : r.wf) :
    (if r.bottom - current.bottom > 0 then
        inter_area (rect_init r.left current.bottom r.width (r.bottom - current.bottom)) q
      else 0) =
      ov r.left r.right q.left q.right * ov current.bottom r.bottom q.top q.bottom := by
  obtain ⟨h1, h2, h3, h4⟩ := hr
  split_ifs with c
  · rw [inter_area_ov]
    simp only [rect_init]
    rw [ov_congr r.left (r.left + r.width) r.left r.right _ _ rfl (by omega),
      ov_congr current.bottom (current.bottom + (r.bottom - current.bottom)) current.bottom
        r.bottom _ _ rfl (by omega)]
  · have : ov current.bottom r.bottom q.top q.bottom = 0 := by unfold ov; omega
    rw [this, mul_zero]

theorem left_term (current r q : rect_t) (hr : r.wf) :
    (if current.left - r.left > 0 then
        inter_area (rect_init r.left (max r.top current.top) (current.left - r.left)
          (r.height - max (current.top - r.top) 0 - max (r.bottom - current.bottom) 0)) q
      else 0) =
      ov r.left current.left q.left q.right *
        ov (max r.top current.top) (min r.bottom current.bottom) q.top q.bottom := by
  obtain ⟨h1, h2, h3, h4⟩ := hr
  split_ifs with c
  · rw [inter_area_ov]
    simp only [rect_init]
    rw [ov_congr r.left (r.left + (current.left - r.left)) r.left current.left _ _ rfl
        (by omega),
      ov_congr (max r.top current.top) (max r.top current.top +
          (r.height - max (current.top - r.top) 0 - max (r.bottom - current.bottom) 0))
        (max r.top current.top) (min r.bottom current.bottom) _ _ rfl (by omega)]
  · have : ov r.left current.left q.left q.right = 0 := by unfold ov; omega
    rw [this, zero_mul]

theorem right_term (current r q : rect_t) (hr : r.wf) :
    (if r.right - current.right > 0 then
        inter_area (rect_init current.right (max r.top current.top) (r.right - current.right)
          (r.height - max (current.top - r.top) 0 - max (r.bottom - current.bottom) 0)) q
      else 0) =
      ov current.right r.right q.left q.right *
        ov (max r.top current.top) (min r.bottom current.bottom) q.top q.bottom := by
  obtain ⟨h1, h2, h3, h4⟩ := hr
  split_ifs with c
  · rw [inter_area_ov]
    simp only [rect_init]
    rw [ov_congr current.right (current.right + (r.right - current.right)) current.right
        r.right _ _ rfl (by omega),
      ov_congr (max r.top current.top) (max r.top current.top +
          (r.height - max (current.top - r.top) 0 - max (r.bottom - current.bottom) 0))
        (max r.top current.top) (min r.bottom current.bottom) _ _ rfl (by omega)]
  · have : ov current.right r.right q.left q.right = 0 := by unfold ov; omega
    rw [this, zero_mul]

theorem sum_map_ite_singleton (c : Prop) [Decidable c] (a : rect_t) (f : rect_t → Int) :
    ((if c then [a] else []).map f).sum = if c then f a else 0 := by
  split_ifs <;> simp

theorem strips_inter_sum (current r q : rect_t) (hr : r.wf) (ho : overlap r current) :
    inter_sum (strips current r) q =
      inter_area r q -
        ov (max r.left current.left) (min r.right current.right) q.left q.right *
          ov (max r.top current.top) (min r.bottom current.bottom) q.top q.bottom := by
  unfold inter_sum strips
  rw [r2_top, r2_height]
  simp only [List.map_append, List.sum_append, sum_map_ite_singleton]
  rw [top_term current r q hr, bottom_term current r q hr, left_term current r q hr,
    right_term current r q hr, inter_area_ov r q,
    ov_split r.left r.right current.left current.right q.left q.right ho.1,
    ov_split r.top r.bottom current.top current.bottom q.top q.bottom ho.2]
  ring

theorem inter_area_inside (s q : rect_t) (hs : s.wf) (h : s.inside q) :
    inter_area s q = s.width * s.height := by
  obtain ⟨h1, h2, h3, h4⟩ := hs
  unfold rect_t.inside at h
  rw [inter_area_ov]
  have e1 : ov s.left s.right q.left q.right = s.width := by unfold ov; omega
  have e2 : ov s.top s.bottom q.top q.bottom = s.height := by unfold ov; omega
  rw [e1, e2]

theorem inter_area_comm (a b : rect_t) : inter_area a b = inter_area b a := by
  rw [inter_area_ov, inter_area_ov]
  have e1 : ov a.left a.right b.left b.right = ov b.left b.right a.left a.right := by
    unfold ov; omega
  have e2 : ov a.top a.bottom b.top b.bottom = ov b.top b.bottom a.top a.bottom := by
    unfold ov; omega
  rw [e1, e2]

theorem total_area_eq_inter_sum (L : List rect_t) (q : rect_t)
    (h : ∀ s ∈ L, s.wf_area ∧ s.inside q) : total_area L = inter_sum L q := by
  unfold total_area inter_sum
  congr 1
  apply List.map_congr_left
  intro s hs
  rw [inter_area_inside s q (h s hs).1.1 (h s hs).2, (h s hs).1.2]

theorem strips_area (current r : rect_t) (hr : r.wf) (ho : overlap r current) :
    total_area (strips current r) = r.width * r.height - inter_area r current := by
  rw [total_area_eq_inter_sum _ r (strips_wf current r hr ho), strips_inter_sum current r r hr ho,
    inter_area_inside r r hr (inside_refl r), inter_area_ov r current]
  obtain ⟨h1, h2, h3, h4⟩ := hr
  obtain ⟨o1, o2⟩ := ho
  have e1 : ov (max r.left current.left) (min r.right current.right) r.left r.right =
      ov r.left r.right current.left current.right := by unfold ov; omega
  have e2 : ov (max r.top current.top) (min r.bottom current.bottom) r.top r.bottom =
      ov r.top r.bottom current.top current.bottom := by unfold ov; omega
  rw [e1, e2]

theorem inter_area_zero_of_not_overlap (a b : rect_t) (h : ¬ overlap a b) : inter_area a b = 0 :=
  (inter_area_eq_zero_iff a b).2 h

theorem add_frag_area (current f : rect_t) (hf : f.wf_area) :
    total_area (add_frag current f) = f.area - inter_area f current := by
  unfold add_frag
  simp only
  split_ifs with c1 c2
  · rw [inter_area_inside f current hf.1 ((contained_iff f current hf.1).1 c1), hf.2]
    simp [total_area]
  · rw [inter_area_zero_of_not_overlap f current
      (fun h => (not_disjoint_iff f current).2 h c2)]
    simp [total_area]
  · rw [strips_area current f hf.1 ((not_disjoint_iff f current).1 c2), hf.2]

theorem add_frag_inter (current f q : rect_t) (hf : f.wf) (hq : ¬ overlap current q) :
    inter_sum (add_frag current f) q = inter_area f q := by
  unfold add_frag
  simp only
  split_ifs with c1 c2
  · have hin := (contained_iff f current hf).1 c1
    rw [inter_area_zero_of_not_overlap f q
      (not_overlap_of_inside current q f q hq hin (inside_refl q))]
    simp [inter_sum]
  · simp [inter_sum]
  · rw [strips_inter_sum current f q hf ((not_disjoint_iff f current).1 c2)]
    unfold overlap at hq
    rcases not_and_or.1 hq with h | h
    · have e : ov (max f.left current.left) (min f.right current.right) q.left q.right = 0 := by
        unfold ov; omega
      rw [e, zero_mul, sub_zero]
    · have e : ov (max f.top current.top) (min f.bottom current.bottom) q.top q.bottom = 0 := by
        unfold ov; omega
      rw [e, mul_zero, sub_zero]

theorem total_area_append (A B : List rect_t) :
    total_area (A ++ B) = total_area A + total_area B := by
  simp [total_area]

theorem inter_sum_append (A B : List rect_t) (q : rect_t) :
    inter_sum (A ++ B) q = inter_sum A q + inter_sum B q := by
  simp [inter_sum]

theorem total_area_cons (a : rect_t) (B : List rect_t) :
    total_area (a :: B) = a.area + total_area B := by
  simp [total_area]

theorem inter_sum_cons (a : rect_t) (B : List rect_t) (q : rect_t) :
    inter_sum (a :: B) q = inter_area a q + inter_sum B q := by
  simp [inter_sum]

theorem add_inner_total_area (current : rect_t) (D : List rect_t) (hD : ∀ f ∈ D, f.wf_area) :
    total_area (add_split_strict_inner current D []) = total_area D - inter_sum D current := by
  rw [add_inner_eq, List.nil_append]
  induction D with
  | nil => simp [total_area, inter_sum]
  | cons f D ih =>
    rw [List.flatMap_cons, total_area_append, total_area_cons, inter_sum_cons,
      add_frag_area current f (hD f (by simp)), ih (fun g hg => hD g (by simp [hg]))]
    ring

theorem add_inner_inter_sum (current q : rect_t) (D : List rect_t) (hD : ∀ f ∈ D, f.wf)
    (hq : ¬ overlap current q) :
    inter_sum (add_split_strict_inner current D []) q = inter_sum D q := by
  rw [add_inner_eq, List.nil_append]
  induction D with
  | nil => simp [inter_sum]
  | cons f D ih =>
    rw [List.flatMap_cons, inter_sum_append, inter_sum_cons,
      add_frag_inter current f q (hD f (by simp)) hq, ih (fun g hg => hD g (by simp [hg]))]

theorem add_outer_total_area (rects D : List rect_t) (hD : ∀ f ∈ D, f.wf_area)
    (hP : rects.Pairwise (fun a b => ¬ overlap a b)) :
    total_area (add_split_strict_outer rects D) =
      total_area D - (rects.map (fun m => inter_sum D m)).sum := by
  induction rects generalizing D with
  | nil => rw [add_outer_nil_left]; simp
  | cons c rest ih =>
    rw [List.pairwise_cons] at hP
    rw [add_outer_cons, ih _ (add_inner_area c D hD) hP.2, add_inner_total_area c D hD,
      List.map_cons, List.sum_cons]
    have e : rest.map (fun m => inter_sum (add_split_strict_inner c D []) m) =
        rest.map (fun m => inter_sum D m) := by
      apply List.map_congr_left
      intro m hm
      exact add_inner_inter_sum c m D (fun f hf => (hD f hf).1) (hP.1 m hm)
    rw [e]
    ring

/-- Over the unbounded integers:
area conservation on strict insert: for a set of well-formed (cached
area included), pairwise non-overlapping rectangles and a well-formed
rectangle `r`, the sum of member areas after `rect_list_add_split_strict`
equals the sum before plus `r.area` minus the sum over the members of the
intersection area of `r` and the member. -/
theorem exact_add_split_strict_area (S : List rect_t) (r : rect_t)
    (hS : ∀ m ∈ S, m.wf_area) (hP : non_overlapping S) (hr : r.wf_area) :
    total_area (rect_list_add_split_strict S r) =
      total_area S + r.area - (S.map (fun m => inter_area r m)).sum := by
  rw [non_overlapping_iff] at hP
  rw [add_strict_eq, total_area_append, add_outer_total_area S [r] (by simpa using hr) hP]
  have e : S.map (fun m => inter_sum [r] m) = S.map (fun m => inter_area r m) := by
    apply List.map_congr_left
    intro m hm
    simp [inter_sum]
  rw [e]
  simp only [total_area, List.map_cons, List.map_nil, List.sum_cons, List.sum_nil]
  ring

theorem del_piece_area (d m : rect_t) (hm : m.wf_area) :
    total_area (del_keep d m) + total_area (del_mod d m) = m.area - inter_area d m := by
  rw [inter_area_comm d m]
  unfold del_keep del_mod
  simp only
  split_ifs with c1 c2
  · rw [inter_area_zero_of_not_overlap m d
      (fun h => (not_disjoint_iff d m).2 ((overlap_comm m d).1 h) c1)]
    simp [total_area]
  · rw [inter_area_inside m d hm.1 ((contained_iff_right m d hm.1).1 c2), hm.2]
    simp [total_area]
  · rw [strips_area d m hm.1 ((overlap_comm d m).1 ((not_disjoint_iff d m).1 c1)), hm.2]
    simp [total_area]

/-- Over the unbounded integers:
area conservation on strict delete: for a set of well-formed (cached
area included), pairwise non-overlapping rectangles and a well-formed
rectangle `d`, the sum of member areas after `rect_list_del_split_strict`
equals the sum before minus the sum over the members of the intersection area
of `d` and the member. -/
theorem exact_del_split_strict_area (S : List rect_t) (d : rect_t)
    (hS : ∀ m ∈ S, m.wf_area) (hP : non_overlapping S) (hd : d.wf_area) :
    total_area (rect_list_del_split_strict S d) =
      total_area S - (S.map (fun m => inter_area d m)).sum := by
  rw [del_strict_eq, total_area_append]
  clear hP
  induction S with
  | nil => simp [total_area]
  | cons m S ih =>
    have h1 := del_piece_area d m (hS m (by simp))
    have h2 := ih (fun g hg => hS g (by simp [hg]))
    rw [List.flatMap_cons, List.flatMap_cons, total_area_append, total_area_append,
      total_area_cons, List.map_cons, List.sum_cons]
    linarith

/-! ## Containment and round trip -/

theorem add_frag_inside (current f : rect_t) (hf : f.wf) (h : f.inside current) :
    add_frag current f = [] := by
  unfold add_frag
  simp only
  rw [if_pos ((contained_iff f current hf).2 h)]

theorem add_inner_inside (current : rect_t) (D : List rect_t) (hD : ∀ f ∈ D, f.wf)
    (h : ∀ f ∈ D, f.inside current) : add_split_strict_inner current D [] = [] := by
  rw [add_inner_eq, List.nil_append]
  induction D with
  | nil => rfl
  | cons f D ih =>
    rw [List.flatMap_cons, add_frag_inside current f (hD f (by simp)) (h f (by simp)),
      ih (fun g hg => hD g (by simp [hg])) (fun g hg => h g (by simp [hg]))]
    rfl

theorem add_outer_inside (rects D : List rect_t) (hD : ∀ f ∈ D, f.wf)
    (h : ∃ m ∈ rects, ∀ f ∈ D, f.inside m) : add_split_strict_outer rects D = [] := by
  induction rects generalizing D with
  | nil =>
    obtain ⟨m, hm, _⟩ := h
    simp at hm
  | cons c rest ih =>
    rw [add_outer_cons]
    obtain ⟨m, hm, hin⟩ := h
    rcases List.mem_cons.1 hm with rfl | hm
    · rw [add_inner_inside m D hD hin, add_outer_nil_right]
    · have h1 := add_inner_wf c D hD
      refine ih _ (fun f hf => (h1 f hf).1) ⟨m, hm, fun s hs => ?_⟩
      obtain ⟨f, hf, hsf⟩ := (h1 s hs).2
      exact inside_trans s f m hsf (hin f hf)

/-- Over the unbounded integers:
idempotent containment: inserting with `rect_list_add_split_strict` a
well-formed rectangle that is fully contained in some member of a set of
well-formed rectangles leaves the set unchanged (same members, same geometry,
same order). -/
theorem exact_add_split_strict_contained (S : List rect_t) (r : rect_t)
    (hS : ∀ m ∈ S, m.wf) (hr : r.wf) (h : ∃ m ∈ S, r.inside m) :
    rect_list_add_split_strict S r = S := by
  obtain ⟨m, hm, hin⟩ := h
  rw [add_strict_eq, add_outer_inside S [r] (by simpa using hr) ⟨m, hm, by simpa using hin⟩,
    List.append_nil]

/-! ## Fuzzy insertion: the split assertion -/

theorem rect_init_edges (x y w h : Int) : (rect_init x y w h).edges := by
  simp [rect_t.edges, rect_init]

theorem wf_edges (r : rect_t) (h : r.wf) : r.edges := ⟨h.1, h.2.1⟩

theorem append_xywh_heap_mem (brk : Nat) (dirty : List rect_node_t) (x y w h : Int)
    (n : rect_node_t) (hn : n ∈ (rect_list_append_xywh_heap brk dirty x y w h).2) :
    n ∈ dirty ∨ n = { addr := brk, rect := rect_init x y w h } := by
  simpa [rect_list_append_xywh_heap, rect_list_append_node] using hn

theorem split_fuzzy_action_ne_none (brk : Nat) (dirty : List rect_node_t) (a b : rect_t)
    (hb : b.edges)
    (hc : ¬ ((_calc_intra_outer_rect_area b a).1.width = b.width ∧
      (_calc_intra_outer_rect_area b a).1.height = b.height)) :
    (_split_fuzzy brk dirty a b).action ≠ SPLIT_FUZZY_ACTION_NONE := by
  obtain ⟨e1, e2⟩ := hb
  intro hnone
  apply hc
  unfold _split_fuzzy at hnone
  simp only at hnone
  unfold _calc_intra_outer_rect_area
  simp only
  split_ifs at hnone <;>
    first
    | (simp at hnone; done)
    | (constructor <;> split_ifs <;> omega)

theorem split_fuzzy_dirty_edges (brk : Nat) (dirty : List rect_node_t) (a b : rect_t)
    (hd : ∀ n ∈ dirty, n.rect.edges) :
    ∀ n ∈ (_split_fuzzy brk dirty a b).dirty, n.rect.edges := by
  have key : ∀ (brk : Nat) (d : List rect_node_t) (x y w h : Int),
      (∀ n ∈ d, n.rect.edges) →
      ∀ n ∈ (rect_list_append_xywh_heap brk d x y w h).2, n.rect.edges := by
    intro brk d x y w h hd n hn
    rcases append_xywh_heap_mem brk d x y w h n hn with h1 | h1
    · exact hd n h1
    · rw [h1]; exact rect_init_edges x y w h
  unfold _split_fuzzy
  simp only
  split_ifs <;> simp only [] <;> intro n hn <;>
    first
    | exact hd n hn
    | exact key _ _ _ _ _ _ hd n hn
    | exact key _ _ _ _ _ _ (key _ _ _ _ _ _ hd) n hn
    | exact key _ _ _ _ _ _ (key _ _ _ _ _ _ (key _ _ _ _ _ _ hd)) n hn
    | exact key _ _ _ _ _ _ (key _ _ _ _ _ _ (key _ _ _ _ _ _ (key _ _ _ _ _ _ hd))) n hn
theorem outer_edges (a b : rect_t) : (_calc_intra_outer_rect_area a b).2.edges := by
  unfold _calc_intra_outer_rect_area rect_t.edges
  simp only
  constructor <;> omega

theorem fuzzy_scan_edges (err : Int) (r : rect_t) (hr : r.edges) :
    ∀ (rest before : List rect_node_t) (old_last : Option Nat) (dirty : List rect_node_t)
      (brk : Nat),
      (∀ n ∈ before, n.rect.edges) → (∀ n ∈ rest, n.rect.edges) → (∀ n ∈ dirty, n.rect.edges) →
      fuzzy_scan err r before rest old_last dirty brk ≠ .assert_fail ∧
      ∀ res, fuzzy_scan err r before rest old_last dirty brk = .ok res →
        (∀ n ∈ res.rects, n.rect.edges) ∧ (∀ n ∈ res.dirty, n.rect.edges) := by
  intro rest
  induction rest with
  | nil =>
    intro before old_last dirty brk hb _ hd
    simp only [fuzzy_scan]
    refine ⟨by simp, ?_⟩
    intro res hres
    simp only [outcome.ok.injEq] at hres
    subst hres
    exact ⟨hb, hd⟩
  | cons cur rest ih =>
    intro before old_last dirty brk hb hrest hd
    have hcur : cur.rect.edges := hrest cur (by simp)
    have hrest1 : ∀ n ∈ rest, n.rect.edges := fun n hn => hrest n (by simp [hn])
    have hall : ∀ n ∈ before ++ cur :: rest, n.rect.edges := by
      intro n hn
      rcases List.mem_append.1 hn with h | h
      · exact hb n h
      · exact hrest n h
    have hrem : ∀ n ∈ before ++ rest, n.rect.edges := by
      intro n hn
      rcases List.mem_append.1 hn with h | h
      · exact hb n h
      · exact hrest1 n h
    simp only [fuzzy_scan]
    split_ifs with c1 c2 c3 c4 c5 c6
    · refine ⟨by simp, ?_⟩
      intro res hres
      simp only [outcome.ok.injEq] at hres
      subst hres
      exact ⟨hall, hd⟩
    · exact ih before _ dirty brk hb hrest1 hd
    · refine ⟨by simp, ?_⟩
      intro res hres
      simp only [outcome.ok.injEq] at hres
      subst hres
      refine ⟨hrem, ?_⟩
      intro n hn
      simp only [rect_list_append_node, List.mem_append, List.mem_singleton] at hn
      rcases hn with h | h
      · exact hd n h
      · rw [h]; exact outer_edges r cur.rect
    · refine ih (before ++ [cur]) old_last dirty brk ?_ hrest1 hd
      intro n hn
      rcases List.mem_append.1 hn with h | h
      · exact hb n h
      · simp only [List.mem_singleton] at h
        rw [h]; exact hcur
    · refine ⟨by simp, ?_⟩
      intro res hres
      simp only [outcome.ok.injEq] at hres
      subst hres
      refine ⟨hrem, ?_⟩
      intro n hn
      simp only [rect_list_append_node, List.mem_append, List.mem_singleton] at hn
      rcases hn with h | h
      · exact split_fuzzy_dirty_edges brk dirty cur.rect r hd n h
      · rw [h]
        have ho := outer_edges r cur.rect
        unfold rect_t.edges at ho hcur ⊢
        simp only
        exact ⟨ho.1, hcur.2⟩
    · exact absurd c6 (split_fuzzy_action_ne_none brk dirty cur.rect r hr c1)
    · refine ⟨by simp, ?_⟩
      intro res hres
      simp only [outcome.ok.injEq] at hres
      subst hres
      exact ⟨hall, split_fuzzy_dirty_edges brk dirty cur.rect r hd⟩

theorem fuzzy_step_edges (err : Int) (rects : List rect_node_t) (d : rect_node_t)
    (dirty : List rect_node_t) (old_last : Option Nat) (brk : Nat)
    (hR : ∀ n ∈ rects, n.rect.edges) (hd : d.rect.edges) (hD : ∀ n ∈ dirty, n.rect.edges) :
    fuzzy_step err rects d dirty old_last brk ≠ .assert_fail ∧
    ∀ st, fuzzy_step err rects d dirty old_last brk = .ok st →
      (∀ n ∈ st.rects, n.rect.edges) ∧ (∀ n ∈ st.dirty, n.rect.edges) := by
  have h := fuzzy_scan_edges err d.rect hd rects [] old_last dirty brk (by simp) hR hD
  unfold fuzzy_step
  cases hs : fuzzy_scan err d.rect [] rects old_last dirty brk with
  | ok s =>
    simp only
    refine ⟨by simp, ?_⟩
    intro st hst
    simp only [outcome.ok.injEq] at hst
    subst hst
    obtain ⟨h1, h2⟩ := h.2 s hs
    refine ⟨?_, h2⟩
    intro n hn
    simp only at hn
    split_ifs at hn
    · simp only [rect_list_append_node, List.mem_append, List.mem_singleton] at hn
      rcases hn with h | h
      · exact h1 n h
      · rw [h]; exact hd
    · exact h1 n hn
  | assert_fail => exact absurd hs h.1
  | out_of_fuel => simp

theorem fuzzy_loop_reach (err : Int) (st0 : fuzzy_state) :
    ∀ (fuel : Nat) (st st1 : fuzzy_state), fuzzy_reach err st0 st →
      fuzzy_loop err fuel st = .ok st1 → fuzzy_reach err st0 st1 ∧ st1.dirty = [] := by
  intro fuel
  induction fuel with
  | zero =>
    intro st st1 hreach hrun
    unfold fuzzy_loop at hrun
    cases hdl : st.dirty with
    | nil =>
      rw [hdl] at hrun
      simp only [outcome.ok.injEq] at hrun
      subst hrun
      exact ⟨hreach, hdl⟩
    | cons d ds => rw [hdl] at hrun; simp at hrun
  | succ fuel ih =>
    intro st st1 hreach hrun
    unfold fuzzy_loop at hrun
    cases hdl : st.dirty with
    | nil =>
      rw [hdl] at hrun
      simp only [outcome.ok.injEq] at hrun
      subst hrun
      exact ⟨hreach, hdl⟩
    | cons d ds =>
      rw [hdl] at hrun
      simp only at hrun
      cases hs : fuzzy_step err st.rects d ds st.old_last st.brk with
      | ok st2 =>
        rw [hs] at hrun
        exact ih st2 st1 (fuzzy_reach.next st st2 d ds hreach hdl hs) hrun
      | assert_fail => rw [hs] at hrun; simp at hrun
      | out_of_fuel => rw [hs] at hrun; simp at hrun

/-! ## The split assertion is unreachable -/

theorem fuzzy_reach_edges (err : Int) (st0 : fuzzy_state)
    (h0R : ∀ n ∈ st0.rects, n.rect.edges) (h0D : ∀ n ∈ st0.dirty, n.rect.edges) :
    ∀ st, fuzzy_reach err st0 st →
      (∀ n ∈ st.rects, n.rect.edges) ∧ (∀ n ∈ st.dirty, n.rect.edges) := by
  intro st hst
  induction hst with
  | start => exact ⟨h0R, h0D⟩
  | next st st1 d ds hreach hd hstep ih =>
    obtain ⟨ihR, ihD⟩ := ih
    rw [hd] at ihD
    exact (fuzzy_step_edges err st.rects d ds st.old_last st.brk ihR (ihD d (by simp))
      (fun n hn => ihD n (by simp [hn]))).2 st1 hstep

/-- Over the unbounded integers:
for all rectangles `a` and `b` the intra rectangle computed by
`_calc_intra_outer_rect_area` has width `min(a.right, b.right) - max(a.left, b.left)`,
height `min(a.bottom, b.bottom) - max(a.top, b.top)`, and area `width * height`
when both are positive and 0 otherwise; in particular the area is 0 when both
raw width and height are negative. -/
theorem exact_calc_intra_outer_intra_fields (a b : rect_t) :
    (_calc_intra_outer_rect_area a b).1.width = min a.right b.right - max a.left b.left ∧
    (_calc_intra_outer_rect_area a b).1.height = min a.bottom b.bottom - max a.top b.top ∧
    (_calc_intra_outer_rect_area a b).1.area =
      (if (_calc_intra_outer_rect_area a b).1.width > 0 ∧
          (_calc_intra_outer_rect_area a b).1.height > 0 then
        (_calc_intra_outer_rect_area a b).1.width * (_calc_intra_outer_rect_area a b).1.height
      else 0) ∧
    ((_calc_intra_outer_rect_area a b).1.width < 0 →
      (_calc_intra_outer_rect_area a b).1.height < 0 →
      (_calc_intra_outer_rect_area a b).1.area = 0) := by
  refine ⟨?_, ?_, rfl, ?_⟩
  · unfold _calc_intra_outer_rect_area
    simp only
    split_ifs <;> omega
  · unfold _calc_intra_outer_rect_area
    simp only
    split_ifs <;> omega
  · intro hw hh
    have h : (_calc_intra_outer_rect_area a b).1.area =
        (if (_calc_intra_outer_rect_area a b).1.width > 0 ∧
            (_calc_intra_outer_rect_area a b).1.height > 0 then
          (_calc_intra_outer_rect_area a b).1.width * (_calc_intra_outer_rect_area a b).1.height
        else 0) := rfl
    rw [h, if_neg]
    omega

/-! ## Fuzzy insertion: what `_split_fuzzy` appends -/

theorem node_rects_append (l1 l2 : List rect_node_t) :
    node_rects (l1 ++ l2) = node_rects l1 ++ node_rects l2 := by
  simp [node_rects]

theorem node_rects_append_xywh (brk : Nat) (d : List rect_node_t) (x y w h : Int) :
    node_rects (rect_list_append_xywh_heap brk d x y w h).2 =
      node_rects d ++ [rect_init x y w h] := by
  simp [node_rects, rect_list_append_xywh_heap, rect_list_append_node]

theorem split_fuzzy_b (brk : Nat) (dirty : List rect_node_t) (a b : rect_t) :
    (_split_fuzzy brk dirty a b).b = split_strict_r2 a b := by
  unfold _split_fuzzy split_strict_r2 split_strict_r1
  simp only
  split_ifs <;> rfl

theorem split_fuzzy_action_merge (brk : Nat) (dirty : List rect_node_t) (a b : rect_t) :
    (_split_fuzzy brk dirty a b).action = SPLIT_FUZZY_ACTION_MERGE ↔ fuzzy_merge_cond a b := by
  unfold _split_fuzzy fuzzy_merge_cond split_strict_r2 split_strict_r1
  simp only
  split_ifs <;> simp_all

theorem split_fuzzy_rects (brk : Nat) (dirty : List rect_node_t) (a b : rect_t) :
    node_rects (_split_fuzzy brk dirty a b).dirty =
      node_rects dirty ++
        (if fuzzy_merge_cond a b then top_bottom_strips a b else strips a b) := by
  unfold _split_fuzzy fuzzy_merge_cond strips top_bottom_strips split_strict_r2 split_strict_r1
  simp only
  split_ifs <;> simp [node_rects_append_xywh]

theorem top_bottom_subset_strips (a b s : rect_t) (hs : s ∈ top_bottom_strips a b) :
    s ∈ strips a b := by
  unfold top_bottom_strips at hs
  unfold strips
  simp only [List.mem_append] at hs ⊢
  tauto

theorem split_fuzzy_new_mem (brk : Nat) (dirty : List rect_node_t) (a b : rect_t)
    (n : rect_node_t) (hn : n ∈ (_split_fuzzy brk dirty a b).dirty) :
    n.rect ∈ node_rects dirty ∨ n.rect ∈ strips a b := by
  have h : n.rect ∈ node_rects (_split_fuzzy brk dirty a b).dirty :=
    List.mem_map.2 ⟨n, hn, rfl⟩
  rw [split_fuzzy_rects, List.mem_append] at h
  rcases h with h | h
  · exact Or.inl h
  · split_ifs at h
    · exact Or.inr (top_bottom_subset_strips a b _ h)
    · exact Or.inr h

theorem overlap_of_inter_area_pos (a b : rect_t) (h : 0 < inter_area a b) : overlap a b := by
  by_contra hc
  rw [(inter_area_eq_zero_iff a b).2 hc] at h
  exact lt_irrefl _ h

theorem outer_wf_area (a b : rect_t) (ha : a.wf) (hb : b.wf) :
    (_calc_intra_outer_rect_area a b).2.wf_area := by
  obtain ⟨a1, a2, a3, a4⟩ := ha
  obtain ⟨b1, b2, b3, b4⟩ := hb
  refine ⟨⟨?_, ?_, ?_, ?_⟩, rfl⟩ <;> unfold _calc_intra_outer_rect_area <;> simp only <;>
    split_ifs <;> omega

theorem split_fuzzy_dirty_wf (brk : Nat) (dirty : List rect_node_t) (a b : rect_t)
    (hb : b.wf) (ho : overlap b a) (hd : ∀ n ∈ dirty, n.rect.wf_area) :
    ∀ n ∈ (_split_fuzzy brk dirty a b).dirty, n.rect.wf_area := by
  intro n hn
  rcases split_fuzzy_new_mem brk dirty a b n hn with h | h
  · obtain ⟨m, hm, hmr⟩ := List.mem_map.1 h
    rw [← hmr]; exact hd m hm
  · exact (strips_wf a b hb ho n.rect h).1

theorem merge_node_wf_area (a b : rect_t) (ha : a.wf_area) (hb : b.wf)
    (hm : fuzzy_merge_cond a b) :
    ({ a with
        left := (_calc_intra_outer_rect_area b a).2.left
        width := (_calc_intra_outer_rect_area b a).2.width
        right := (_calc_intra_outer_rect_area b a).2.right
        area := (_calc_intra_outer_rect_area b a).2.width *
          (split_strict_r2 a b).height } : rect_t).wf_area := by
  have ho := outer_wf_area b a hb ha.1
  obtain ⟨⟨o1, o2, o3, o4⟩, _⟩ := ho
  obtain ⟨⟨a1, a2, a3, a4⟩, a5⟩ := ha
  unfold rect_t.wf_area rect_t.wf
  simp only
  exact ⟨⟨o1, a2, o3, a4⟩, by rw [hm.2]⟩

theorem fuzzy_scan_wf (err : Int) (herr : 0 ≤ err) (r : rect_t) (hr : r.wf_area) :
    ∀ (rest before : List rect_node_t) (old_last : Option Nat) (dirty : List rect_node_t)
      (brk : Nat) (res : fuzzy_scan_state),
      (∀ n ∈ before, n.rect.wf_area) → (∀ n ∈ rest, n.rect.wf_area) →
      (∀ n ∈ dirty, n.rect.wf_area) →
      fuzzy_scan err r before rest old_last dirty brk = .ok res →
      (∀ n ∈ res.rects, n.rect.wf_area) ∧ (∀ n ∈ res.dirty, n.rect.wf_area) := by
  intro rest
  induction rest with
  | nil =>
    intro before old_last dirty brk res hb _ hd hres
    simp only [fuzzy_scan, outcome.ok.injEq] at hres
    subst hres
    exact ⟨hb, hd⟩
  | cons cur rest ih =>
    intro before old_last dirty brk res hb hrest hd hres
    have hcur : cur.rect.wf_area := hrest cur (by simp)
    have hrest1 : ∀ n ∈ rest, n.rect.wf_area := fun n hn => hrest n (by simp [hn])
    have hall : ∀ n ∈ before ++ cur :: rest, n.rect.wf_area := by
      intro n hn
      rcases List.mem_append.1 hn with h | h
      · exact hb n h
      · exact hrest n h
    have hrem : ∀ n ∈ before ++ rest, n.rect.wf_area := by
      intro n hn
      rcases List.mem_append.1 hn with h | h
      · exact hb n h
      · exact hrest1 n h
    simp only [fuzzy_scan] at hres
    split_ifs at hres with c1 c2 c3 c4 c5 c6
    · simp only [outcome.ok.injEq] at hres
      subst hres
      exact ⟨hall, hd⟩
    · exact ih before _ dirty brk res hb hrest1 hd hres
    · simp only [outcome.ok.injEq] at hres
      subst hres
      refine ⟨hrem, ?_⟩
      intro n hn
      simp only [rect_list_append_node, List.mem_append, List.mem_singleton] at hn
      rcases hn with h | h
      · exact hd n h
      · rw [h]; exact outer_wf_area r cur.rect hr.1 hcur.1
    · refine ih (before ++ [cur]) old_last dirty brk res ?_ hrest1 hd hres
      intro n hn
      rcases List.mem_append.1 hn with h | h
      · exact hb n h
      · simp only [List.mem_singleton] at h
        rw [h]; exact hcur
    · simp only [outcome.ok.injEq] at hres
      subst hres
      have ho : overlap r cur.rect := overlap_of_inter_area_pos r cur.rect (by
        unfold inter_area; omega)
      refine ⟨hrem, ?_⟩
      intro n hn
      simp only [rect_list_append_node, List.mem_append, List.mem_singleton] at hn
      rcases hn with h | h
      · exact split_fuzzy_dirty_wf brk dirty cur.rect r hr.1 ho hd n h
      · rw [h, split_fuzzy_b]
        exact merge_node_wf_area cur.rect r hcur hr.1
          ((split_fuzzy_action_merge brk dirty cur.rect r).1 c5)
    · simp only [outcome.ok.injEq] at hres
      subst hres
      have ho : overlap r cur.rect := overlap_of_inter_area_pos r cur.rect (by
        unfold inter_area; omega)
      exact ⟨hall, split_fuzzy_dirty_wf brk dirty cur.rect r hr.1 ho hd⟩

theorem fuzzy_step_wf (err : Int) (herr : 0 ≤ err) (rects : List rect_node_t)
    (d : rect_node_t) (dirty : List rect_node_t) (old_last : Option Nat) (brk : Nat)
    (st : fuzzy_state)
    (hR : ∀ n ∈ rects, n.rect.wf_area) (hd : d.rect.wf_area)
    (hD : ∀ n ∈ dirty, n.rect.wf_area)
    (hs : fuzzy_step err rects d dirty old_last brk = .ok st) :
    (∀ n ∈ st.rects, n.rect.wf_area) ∧ (∀ n ∈ st.dirty, n.rect.wf_area) := by
  unfold fuzzy_step at hs
  cases hsc : fuzzy_scan err d.rect [] rects old_last dirty brk with
  | ok s =>
    rw [hsc] at hs
    simp only [outcome.ok.injEq] at hs
    subst hs
    obtain ⟨h1, h2⟩ := fuzzy_scan_wf err herr d.rect hd rects [] old_last dirty brk s
      (by simp) hR hD hsc
    refine ⟨?_, h2⟩
    intro n hn
    simp only at hn
    split_ifs at hn
    · simp only [rect_list_append_node, List.mem_append, List.mem_singleton] at hn
      rcases hn with h | h
      · exact h1 n h
      · rw [h]; exact hd
    · exact h1 n hn
  | assert_fail => rw [hsc] at hs; simp at hs
  | out_of_fuel => rw [hsc] at hs; simp at hs

theorem fuzzy_reach_wf (err : Int) (herr : 0 ≤ err) (st0 : fuzzy_state)
    (h0R : ∀ n ∈ st0.rects, n.rect.wf_area) (h0D : ∀ n ∈ st0.dirty, n.rect.wf_area) :
    ∀ st, fuzzy_reach err st0 st →
      (∀ n ∈ st.rects, n.rect.wf_area) ∧ (∀ n ∈ st.dirty, n.rect.wf_area) := by
  intro st hst
  induction hst with
  | start => exact ⟨h0R, h0D⟩
  | next st st1 d ds hreach hd hstep ih =>
    obtain ⟨ihR, ihD⟩ := ih
    rw [hd] at ihD
    exact fuzzy_step_wf err herr st.rects d ds st.old_last st.brk st1 ihR (ihD d (by simp))
      (fun n hn => ihD n (by simp [hn])) hstep

theorem fuzzy_run_reach (fuel brk : Nat) (S : List rect_node_t) (node : rect_node_t)
    (err : Int) (st : fuzzy_state)
    (hrun : rect_list_add_split_fuzzy fuel brk S node err = .ok st) :
    (S = [] ∧ st.rects = [node]) ∨
      (fuzzy_reach err (fuzzy_init brk S node) st ∧ st.dirty = []) := by
  unfold rect_list_add_split_fuzzy at hrun
  cases S with
  | nil =>
    simp only [outcome.ok.injEq] at hrun
    subst hrun
    exact Or.inl ⟨rfl, rfl⟩
  | cons m S =>
    simp only at hrun
    exact Or.inr (fuzzy_loop_reach err (fuzzy_init brk (m :: S) node) fuel
      (fuzzy_init brk (m :: S) node) st fuzzy_reach.start hrun)

theorem merge_scan_wf (e : Int) (r1 : rect_t) (hr1 : r1.wf) :
    ∀ (rest before rects1 : List rect_node_t) (n : rect_node_t),
      (∀ m ∈ before ++ rest, m.rect.wf_area) →
      merge_scan e r1 before rest = some (rects1, n) →
      n.rect.wf_area ∧ ∀ m ∈ rects1, m.rect.wf_area := by
  intro rest
  induction rest with
  | nil =>
    intro before rects1 n _ h
    simp [merge_scan] at h
  | cons c rest ih =>
    intro before rects1 n hall h
    simp only [merge_scan] at h
    split_ifs at h with hc
    · simp only [Option.some.injEq, Prod.mk.injEq] at h
      obtain ⟨rfl, rfl⟩ := h
      refine ⟨?_, fun m hm => hall m ?_⟩
      · have := outer_wf_area r1 c.rect hr1 (hall c (by simp)).1
        exact this
      · simp only [List.mem_append, List.mem_cons] at hm ⊢
        tauto
    · exact ih (before ++ [c]) rects1 n (by simpa using hall) h

theorem merge_rects_wf (e : Int) :
    ∀ (fuel : Nat) (rects to_merge R : List rect_node_t),
      (∀ m ∈ rects, m.rect.wf_area) → (∀ m ∈ to_merge, m.rect.wf_area) →
      rect_list_merge_rects fuel rects to_merge e = .ok R → ∀ m ∈ R, m.rect.wf_area := by
  intro fuel
  induction fuel with
  | zero =>
    intro rects to_merge R hR hT hrun
    cases to_merge with
    | nil =>
      simp only [rect_list_merge_rects, outcome.ok.injEq] at hrun
      subst hrun
      exact hR
    | cons head tail => simp [rect_list_merge_rects] at hrun
  | succ fuel ih =>
    intro rects to_merge R hR hT hrun
    cases to_merge with
    | nil =>
      simp only [rect_list_merge_rects, outcome.ok.injEq] at hrun
      subst hrun
      exact hR
    | cons head tail =>
      have hhead := hT head (by simp)
      have htail : ∀ m ∈ tail, m.rect.wf_area := fun m hm => hT m (by simp [hm])
      cases hs : merge_scan e head.rect [] rects with
      | none =>
        simp only [rect_list_merge_rects, hs] at hrun
        refine ih _ _ R ?_ htail hrun
        intro m hm
        simp only [rect_list_append_node, List.mem_append, List.mem_singleton] at hm
        rcases hm with h | h
        · exact hR m h
        · rw [h]; exact hhead
      | some p =>
        obtain ⟨rects1, nn⟩ := p
        simp only [rect_list_merge_rects, hs] at hrun
        obtain ⟨h1, h2⟩ := merge_scan_wf e head.rect hhead.1 rects [] rects1 nn
          (by simpa using hR) hs
        refine ih _ _ R h2 ?_ hrun
        intro m hm
        simp only [rect_list_append_node, List.mem_append, List.mem_singleton] at hm
        rcases hm with h | h
        · exact htail m h
        · rw [h]; exact h1

/-- Over the unbounded integers:
well-formedness is preserved by every set operation: if every member
of the set and every supplied rectangle has `right = left + width`,
`bottom = top + height`, `area = width * height`, `width > 0` and `height > 0`,
then so has every member of the set after `rect_list_add_split_strict`,
`rect_list_del_split_strict`, `rect_list_add_split_fuzzy` (`accepted_error ≥ 0`;
also every record in the set or queued as dirty at the head of any iteration)
and `rect_list_merge_rects`; no degenerate rectangle is put into a set. -/
theorem exact_set_operations_preserve_wf (S : List rect_t) (r : rect_t) (N C : List rect_node_t)
    (node : rect_node_t) (brk : Nat) (accepted_error : Int)
    (hS : ∀ m ∈ S, m.wf_area) (hr : r.wf_area) (hN : ∀ m ∈ N, m.rect.wf_area)
    (hnode : node.rect.wf_area) (hC : ∀ m ∈ C, m.rect.wf_area) (herr : 0 ≤ accepted_error) :
    (∀ m ∈ rect_list_add_split_strict S r, m.wf_area) ∧
    (∀ m ∈ rect_list_del_split_strict S r, m.wf_area) ∧
    (∀ fuel st, rect_list_add_split_fuzzy fuel brk N node accepted_error = .ok st →
      ∀ n ∈ st.rects, n.rect.wf_area) ∧
    (∀ st, fuzzy_reach accepted_error (fuzzy_init brk N node) st →
      ∀ n ∈ st.rects ++ st.dirty, n.rect.wf_area) ∧
    (∀ fuel e R, rect_list_merge_rects fuel N C e = .ok R → ∀ n ∈ R, n.rect.wf_area) := by
  have h0D : ∀ n ∈ (fuzzy_init brk N node).dirty, n.rect.wf_area := by
    intro n hn
    simp only [fuzzy_init, rect_list_append_node, List.nil_append, List.mem_singleton] at hn
    rw [hn]; exact hnode
  have hreach := fuzzy_reach_wf accepted_error herr (fuzzy_init brk N node) hN h0D
  refine ⟨?_, ?_, ?_, ?_, ?_⟩
  · intro m hm
    rw [add_strict_eq, List.mem_append] at hm
    rcases hm with hm | hm
    · exact hS m hm
    · exact add_outer_area S [r] (by simpa using hr) m hm
  · intro s hs
    obtain ⟨m, hm, h⟩ := del_strict_mem S r s hs
    have := del_piece_wf r m s (hS m hm).1 h
    exact ⟨this.1, this.2.2.2 (hS m hm).2⟩
  · intro fuel st hrun n hn
    rcases fuzzy_run_reach fuel brk N node accepted_error st hrun with ⟨_, h⟩ | ⟨h, _⟩
    · rw [h, List.mem_singleton] at hn
      rw [hn]; exact hnode
    · exact (hreach st h).1 n hn
  · intro st hst n hn
    rcases List.mem_append.1 hn with h | h
    · exact (hreach st hst).1 n h
    · exact (hreach st hst).2 n h
  · intro fuel e R hrun
    exact merge_rects_wf e fuel N C R hN hC hrun

/-! ## Fuzzy insertion keeps every covered point -/

theorem strips_cover (current r : rect_t) (hr : r.edges) (x y : Int) (hp : r.has x y) :
    current.has x y ∨ covers (strips current r) x y := by
  obtain ⟨h1, h2⟩ := hr
  unfold rect_t.has at hp
  unfold covers
  by_cases c1 : y < current.top
  · refine Or.inr ⟨_, (mem_strips _ _ _).2 (Or.inl ⟨by omega, rfl⟩), ?_⟩
    simp only [rect_t.has, rect_init]; omega
  by_cases c2 : current.bottom ≤ y
  · refine Or.inr ⟨_, (mem_strips _ _ _).2 (Or.inr (Or.inl ⟨by omega, rfl⟩)), ?_⟩
    simp only [rect_t.has, rect_init]; omega
  by_cases c3 : x < current.left
  · refine Or.inr ⟨_, (mem_strips _ _ _).2 (Or.inr (Or.inr (Or.inl ⟨by omega, rfl⟩))), ?_⟩
    simp only [rect_t.has, rect_init]; omega
  by_cases c4 : current.right ≤ x
  · refine Or.inr ⟨_, (mem_strips _ _ _).2 (Or.inr (Or.inr (Or.inr ⟨by omega, rfl⟩))), ?_⟩
    simp only [rect_t.has, rect_init]; omega
  · exact Or.inl (by unfold rect_t.has; omega)

theorem merge_cover (current r : rect_t) (hr : r.edges) (h : ℤ) (x y : Int)
    (hp : r.has x y ∨ current.has x y) :
    ({ current with
        left := (_calc_intra_outer_rect_area r current).2.left
        width := (_calc_intra_outer_rect_area r current).2.width
        right := (_calc_intra_outer_rect_area r current).2.right
        area := h } : rect_t).has x y ∨
      covers (top_bottom_strips current r) x y := by
  obtain ⟨h1, h2⟩ := hr
  have hl : (_calc_intra_outer_rect_area r current).2.left = min r.left current.left := by
    unfold _calc_intra_outer_rect_area; simp only; split_ifs <;> omega
  have hrt : (_calc_intra_outer_rect_area r current).2.right = max r.right current.right := by
    unfold _calc_intra_outer_rect_area; simp only; split_ifs <;> omega
  unfold covers top_bottom_strips
  simp only [List.mem_append, mem_ite_singleton]
  unfold rect_t.has at hp ⊢
  simp only [hl, hrt]
  rcases hp with hp | hp
  · by_cases c1 : y < current.top
    · refine Or.inr ⟨_, Or.inl ⟨by omega, rfl⟩, ?_⟩
      simp only [rect_init]; omega
    by_cases c2 : current.bottom ≤ y
    · refine Or.inr ⟨_, Or.inr ⟨by omega, rfl⟩, ?_⟩
      simp only [rect_init]; omega
    · exact Or.inl (by omega)
  · exact Or.inl (by omega)

theorem outer_cover (a b : rect_t) (x y : Int) (hp : a.has x y ∨ b.has x y) :
    (_calc_intra_outer_rect_area a b).2.has x y := by
  unfold _calc_intra_outer_rect_area rect_t.has at *
  simp only
  refine ⟨?_, ?_, ?_, ?_⟩ <;> split_ifs <;> omega

theorem intra_contained_left (r current : rect_t) (hr : r.edges)
    (h : (_calc_intra_outer_rect_area r current).1.width = r.width ∧
      (_calc_intra_outer_rect_area r current).1.height = r.height) : r.inside current := by
  obtain ⟨h1, h2⟩ := hr
  obtain ⟨hw, hh⟩ := h
  unfold _calc_intra_outer_rect_area at hw hh
  simp only at hw hh
  unfold rect_t.inside
  refine ⟨?_, ?_, ?_, ?_⟩ <;> split_ifs at hw hh <;> omega

theorem intra_contained_right (r current : rect_t) (hc : current.edges)
    (h : (_calc_intra_outer_rect_area r current).1.width = current.width ∧
      (_calc_intra_outer_rect_area r current).1.height = current.height) :
    current.inside r := by
  obtain ⟨h1, h2⟩ := hc
  obtain ⟨hw, hh⟩ := h
  unfold _calc_intra_outer_rect_area at hw hh
  simp only at hw hh
  unfold rect_t.inside
  refine ⟨?_, ?_, ?_, ?_⟩ <;> split_ifs at hw hh <;> omega

theorem has_of_inside (a b : rect_t) (h : a.inside b) (x y : Int) (hp : a.has x y) :
    b.has x y := by
  unfold rect_t.inside at h
  unfold rect_t.has at *
  omega

theorem covers_node_rects_append (l1 l2 : List rect_node_t) (x y : Int) :
    covers (node_rects (l1 ++ l2)) x y ↔
      covers (node_rects l1) x y ∨ covers (node_rects l2) x y := by
  rw [node_rects_append, covers_append]

theorem covers_node_rects_cons (n : rect_node_t) (l : List rect_node_t) (x y : Int) :
    covers (node_rects (n :: l)) x y ↔ n.rect.has x y ∨ covers (node_rects l) x y := by
  simp [covers, node_rects]

theorem covers_node_rects_nil (x y : Int) : ¬ covers (node_rects []) x y := by
  simp [covers, node_rects]

theorem fuzzy_scan_covers (err : Int) (r : rect_t) (hr : r.edges) (x y : Int) :
    ∀ (rest before : List rect_node_t) (old_last : Option Nat) (dirty : List rect_node_t)
      (brk : Nat) (res : fuzzy_scan_state),
      (∀ n ∈ rest, n.rect.edges) →
      fuzzy_scan err r before rest old_last dirty brk = .ok res →
      (covers (node_rects before) x y ∨ covers (node_rects rest) x y ∨
        covers (node_rects dirty) x y ∨ r.has x y) →
      (covers (node_rects res.rects) x y ∨ covers (node_rects res.dirty) x y ∨
        (res.keep_dirty = true ∧ r.has x y)) := by
  intro rest
  induction rest with
  | nil =>
    intro before old_last dirty brk res _ hres hp
    simp only [fuzzy_scan, outcome.ok.injEq] at hres
    subst hres
    have := covers_node_rects_nil x y
    simp only
    tauto
  | cons cur rest ih =>
    intro before old_last dirty brk res hrest hres hp
    have hcur : cur.rect.edges := hrest cur (by simp)
    have hrest1 : ∀ n ∈ rest, n.rect.edges := fun n hn => hrest n (by simp [hn])
    rw [covers_node_rects_cons] at hp
    simp only [fuzzy_scan] at hres
    split_ifs at hres with c1 c2 c3 c4 c5 c6
    · simp only [outcome.ok.injEq] at hres
      subst hres
      simp only [covers_node_rects_append, covers_node_rects_cons]
      have := has_of_inside r cur.rect (intra_contained_left r cur.rect hr c1) x y
      tauto
    · refine ih before _ dirty brk res hrest1 hres ?_
      have := has_of_inside cur.rect r (intra_contained_right r cur.rect hcur c2) x y
      tauto
    · simp only [outcome.ok.injEq] at hres
      subst hres
      simp only [rect_list_append_node, covers_node_rects_append, covers_node_rects_cons]
      have h1 := outer_cover r cur.rect x y
      have := covers_node_rects_nil x y
      tauto
    · refine ih (before ++ [cur]) old_last dirty brk res hrest1 hres ?_
      simp only [covers_node_rects_append, covers_node_rects_cons]
      have := covers_node_rects_nil x y
      tauto
    · simp only [outcome.ok.injEq] at hres
      subst hres
      have hm := (split_fuzzy_action_merge brk dirty cur.rect r).1 c5
      have hd : covers (node_rects (_split_fuzzy brk dirty cur.rect r).dirty) x y ↔
          covers (node_rects dirty) x y ∨ covers (top_bottom_strips cur.rect r) x y := by
        rw [split_fuzzy_rects, if_pos hm, covers_append]
      have h1 := merge_cover cur.rect r hr
        ((_calc_intra_outer_rect_area r cur.rect).2.width *
          (_split_fuzzy brk dirty cur.rect r).b.height) x y
      have hnil := covers_node_rects_nil x y
      simp only [rect_list_append_node, covers_node_rects_append, covers_node_rects_cons, hd]
      generalize (_split_fuzzy brk dirty cur.rect r).b.height = hgt at h1 ⊢
      clear ih c1 c2 c3 c4 c5 hm hd hrest hrest1 hcur hr
      tauto
    · simp only [outcome.ok.injEq] at hres
      subst hres
      have hm : ¬ fuzzy_merge_cond cur.rect r :=
        fun h => c5 ((split_fuzzy_action_merge brk dirty cur.rect r).2 h)
      have hd : covers (node_rects (_split_fuzzy brk dirty cur.rect r).dirty) x y ↔
          covers (node_rects dirty) x y ∨ covers (strips cur.rect r) x y := by
        rw [split_fuzzy_rects, if_neg hm, covers_append]
      simp only [covers_node_rects_append, covers_node_rects_cons, hd]
      have h1 := strips_cover cur.rect r hr x y
      clear ih c1 c2 c3 c4 c5 c6 hm hd hrest hrest1 hcur hr
      tauto

theorem fuzzy_step_covers (err : Int) (rects : List rect_node_t) (d : rect_node_t)
    (ds : List rect_node_t) (old_last : Option Nat) (brk : Nat) (st : fuzzy_state)
    (hR : ∀ n ∈ rects, n.rect.edges) (hd : d.rect.edges) (x y : Int)
    (hs : fuzzy_step err rects d ds old_last brk = .ok st)
    (hp : covers (node_rects rects) x y ∨ covers (node_rects (d :: ds)) x y) :
    covers (node_rects st.rects) x y ∨ covers (node_rects st.dirty) x y := by
  unfold fuzzy_step at hs
  cases hsc : fuzzy_scan err d.rect [] rects old_last ds brk with
  | ok s =>
    rw [hsc] at hs
    simp only [outcome.ok.injEq] at hs
    subst hs
    rw [covers_node_rects_cons] at hp
    have h := fuzzy_scan_covers err d.rect hd x y rects [] old_last ds brk s hR hsc (by tauto)
    simp only
    by_cases hk : s.keep_dirty = true
    · simp only [hk, if_true, rect_list_append_node, covers_node_rects_append,
        covers_node_rects_cons]
      tauto
    · simp only [hk, if_false]
      tauto
  | assert_fail => rw [hsc] at hs; simp at hs
  | out_of_fuel => rw [hsc] at hs; simp at hs

theorem fuzzy_reach_covers (err : Int) (st0 : fuzzy_state)
    (h0R : ∀ n ∈ st0.rects, n.rect.edges) (h0D : ∀ n ∈ st0.dirty, n.rect.edges) (x y : Int)
    (hp : covers (node_rects st0.rects) x y ∨ covers (node_rects st0.dirty) x y) :
    ∀ st, fuzzy_reach err st0 st →
      covers (node_rects st.rects) x y ∨ covers (node_rects st.dirty) x y := by
  intro st hst
  induction hst with
  | start => exact hp
  | next st st1 d ds hreach hd hstep ih =>
    obtain ⟨hR, hD⟩ := fuzzy_reach_edges err st0 h0R h0D st hreach
    rw [hd] at ih hD
    exact fuzzy_step_covers err st.rects d ds st.old_last st.brk st1 hR (hD d (by simp)) x y
      hstep ih

/-- Over the unbounded integers:
fuzzy insertion never loses covered area: for a set of well-formed
rectangles, a well-formed rectangle and `accepted_error ≥ 0`, whenever
`rect_list_add_split_fuzzy` returns, every point that lies in some member of
the original set or in the inserted rectangle lies in some member of the
resulting set. -/
theorem exact_fuzzy_keeps_cover (fuel brk : Nat) (S : List rect_node_t) (node : rect_node_t)
    (accepted_error : Int) (st : fuzzy_state)
    (hS : ∀ m ∈ S, m.rect.wf) (hr : node.rect.wf) (herr : 0 ≤ accepted_error)
    (hrun : rect_list_add_split_fuzzy fuel brk S node accepted_error = .ok st) (x y : Int)
    (hp : covers (node_rects S) x y ∨ node.rect.has x y) :
    covers (node_rects st.rects) x y := by
  rcases fuzzy_run_reach fuel brk S node accepted_error st hrun with ⟨h1, h2⟩ | ⟨h1, h2⟩
  · subst h1
    rw [h2, covers_node_rects_cons]
    have := covers_node_rects_nil x y
    tauto
  · have h0R : ∀ n ∈ (fuzzy_init brk S node).rects, n.rect.edges :=
      fun n hn => wf_edges _ (hS n hn)
    have h0D : ∀ n ∈ (fuzzy_init brk S node).dirty, n.rect.edges := by
      intro n hn
      simp only [fuzzy_init, rect_list_append_node, List.nil_append, List.mem_singleton] at hn
      rw [hn]; exact wf_edges _ hr
    have h0 : covers (node_rects (fuzzy_init brk S node).rects) x y ∨
        covers (node_rects (fuzzy_init brk S node).dirty) x y := by
      simp only [fuzzy_init, rect_list_append_node, List.nil_append, covers_node_rects_cons]
      tauto
    have := fuzzy_reach_covers accepted_error (fuzzy_init brk S node) h0R h0D x y h0 st h1
    rw [h2] at this
    have hn := covers_node_rects_nil x y
    tauto

/-! ## Fuzzy insertion keeps the pairwise overlap bound -/

theorem overlap_bounded_nodes (e : Int) (l : List rect_node_t) :
    overlap_bounded e (node_rects l) ↔
      l.Pairwise (fun a b => inter_area a.rect b.rect ≤ e) := by
  unfold overlap_bounded node_rects
  rw [List.pairwise_map]

theorem inter_area_nonneg (a b : rect_t) : 0 ≤ inter_area a b := by
  rw [inter_area_eq]
  split_ifs with h
  · obtain ⟨h1, h2⟩ := h
    exact Int.mul_nonneg (by omega) (by omega)
  · exact le_refl _

theorem fuzzy_scan_bound (e : Int) (r : rect_t) :
    ∀ (rest before : List rect_node_t) (old_last : Option Nat) (dirty : List rect_node_t)
      (brk : Nat) (res : fuzzy_scan_state),
      (before ++ rest).Pairwise (fun a b => inter_area a.rect b.rect ≤ e) →
      (∀ a ∈ before, inter_area r a.rect ≤ e) →
      fuzzy_scan e r before rest old_last dirty brk = .ok res →
      res.rects.Pairwise (fun a b => inter_area a.rect b.rect ≤ e) ∧
      (res.keep_dirty = true → ∀ a ∈ res.rects, inter_area r a.rect ≤ e) := by
  intro rest
  induction rest with
  | nil =>
    intro before old_last dirty brk res hP hb hres
    simp only [fuzzy_scan, outcome.ok.injEq] at hres
    subst hres
    exact ⟨by simpa using hP, fun _ => hb⟩
  | cons cur rest ih =>
    intro before old_last dirty brk res hP hb hres
    have hrem : (before ++ rest).Pairwise (fun a b => inter_area a.rect b.rect ≤ e) :=
      hP.sublist (List.Sublist.append_left (List.sublist_cons_self _ _) _)
    simp only [fuzzy_scan] at hres
    split_ifs at hres with c1 c2 c3 c4 c5 c6
    · simp only [outcome.ok.injEq] at hres
      subst hres
      exact ⟨hP, fun h => by simp at h⟩
    · exact ih before _ dirty brk res hrem hb hres
    · simp only [outcome.ok.injEq] at hres
      subst hres
      exact ⟨hrem, fun h => by simp at h⟩
    · refine ih (before ++ [cur]) old_last dirty brk res (by simpa using hP) ?_ hres
      intro a ha
      rcases List.mem_append.1 ha with h | h
      · exact hb a h
      · simp only [List.mem_singleton] at h
        rw [h]
        exact c4
    · simp only [outcome.ok.injEq] at hres
      subst hres
      exact ⟨hrem, fun h => by simp at h⟩
    · simp only [outcome.ok.injEq] at hres
      subst hres
      exact ⟨hP, fun h => by simp at h⟩

theorem fuzzy_step_bound (e : Int) (rects : List rect_node_t) (d : rect_node_t)
    (ds : List rect_node_t) (old_last : Option Nat) (brk : Nat) (st : fuzzy_state)
    (hP : rects.Pairwise (fun a b => inter_area a.rect b.rect ≤ e))
    (hs : fuzzy_step e rects d ds old_last brk = .ok st) :
    st.rects.Pairwise (fun a b => inter_area a.rect b.rect ≤ e) := by
  unfold fuzzy_step at hs
  cases hsc : fuzzy_scan e d.rect [] rects old_last ds brk with
  | ok s =>
    rw [hsc] at hs
    simp only [outcome.ok.injEq] at hs
    subst hs
    obtain ⟨h1, h2⟩ := fuzzy_scan_bound e d.rect rects [] old_last ds brk s
      (by simpa using hP) (by simp) hsc
    simp only
    by_cases hk : s.keep_dirty = true
    · simp only [hk, if_true, rect_list_append_node]
      rw [List.pairwise_append]
      refine ⟨h1, List.pairwise_singleton _ _, ?_⟩
      intro a ha b hb
      simp only [List.mem_singleton] at hb
      rw [hb, inter_area_comm]
      exact h2 hk a ha
    · simp only [hk]
      exact h1
  | assert_fail => rw [hsc] at hs; simp at hs
  | out_of_fuel => rw [hsc] at hs; simp at hs

theorem fuzzy_reach_bound (e : Int) (st0 : fuzzy_state)
    (h0 : st0.rects.Pairwise (fun a b => inter_area a.rect b.rect ≤ e)) :
    ∀ st, fuzzy_reach e st0 st →
      st.rects.Pairwise (fun a b => inter_area a.rect b.rect ≤ e) := by
  intro st hst
  induction hst with
  | start => exact h0
  | next st st1 d ds hreach hd hstep ih =>
    exact fuzzy_step_bound e st.rects d ds st.old_last st.brk st1 ih hstep

/-- Over the unbounded integers:
fuzzy insertion alone keeps a hard pairwise overlap bound: for
`e ≥ 0`, if every two distinct members of a set of well-formed rectangles have
intersection area at most `e`, then whenever `rect_list_add_split_fuzzy` with a
well-formed rectangle and budget `e` returns, every two distinct members of the
resulting set have intersection area at most `e`; with `e = 0` the resulting
set is strict (pairwise intersection area 0). -/
theorem exact_fuzzy_keeps_overlap_bound (fuel brk : Nat) (S : List rect_node_t) (node : rect_node_t)
    (e : Int) (st : fuzzy_state)
    (hS : ∀ m ∈ S, m.rect.wf) (hr : node.rect.wf) (he : 0 ≤ e)
    (hP : overlap_bounded e (node_rects S))
    (hrun : rect_list_add_split_fuzzy fuel brk S node e = .ok st) :
    overlap_bounded e (node_rects st.rects) ∧
    (e = 0 → non_overlapping (node_rects st.rects)) := by
  have key : overlap_bounded e (node_rects st.rects) := by
    rw [overlap_bounded_nodes] at hP ⊢
    rcases fuzzy_run_reach fuel brk S node e st hrun with ⟨_, h2⟩ | ⟨h1, _⟩
    · rw [h2]
      exact List.pairwise_singleton _ _
    · exact fuzzy_reach_bound e (fuzzy_init brk S node) hP st h1
  refine ⟨key, fun h0 => ?_⟩
  subst h0
  unfold overlap_bounded at key
  unfold non_overlapping
  exact key.imp (fun {a b} h => le_antisymm h (inter_area_nonneg a b))

/-! ## The window `[-10000, 10000]` is kept by every routine -/

theorem in_range_of_inside (s f : rect_t) (hs : s.wf) (h : s.inside f) (hf : f.in_range) :
    s.in_range := by
  unfold rect_t.in_range at *
  unfold rect_t.inside at h
  unfold rect_t.wf at hs
  omega

/-- The product of two integers of size at most `20000` and `60000`. -/
theorem mul_window (w h : Int) (hw1 : -20000 ≤ w) (hw2 : w ≤ 20000) (hh1 : -60000 ≤ h)
    (hh2 : h ≤ 60000) : -1200000000 ≤ w * h ∧ w * h ≤ 1200000000 := by
  constructor <;> nlinarith [mul_nonneg (sub_nonneg.2 hw1) (sub_nonneg.2 hh1),
    mul_nonneg (sub_nonneg.2 hw2) (sub_nonneg.2 hh2),
    mul_nonneg (sub_nonneg.2 hw1) (sub_nonneg.2 hh2),
    mul_nonneg (sub_nonneg.2 hw2) (sub_nonneg.2 hh1)]

/-- The product of two integers of size at most `20000`. -/
theorem mul_window_small (w h : Int) (hw1 : -20000 ≤ w) (hw2 : w ≤ 20000) (hh1 : -20000 ≤ h)
    (hh2 : h ≤ 20000) : -400000000 ≤ w * h ∧ w * h ≤ 400000000 := by
  constructor <;> nlinarith [mul_nonneg (sub_nonneg.2 hw1) (sub_nonneg.2 hh1),
    mul_nonneg (sub_nonneg.2 hw2) (sub_nonneg.2 hh2),
    mul_nonneg (sub_nonneg.2 hw1) (sub_nonneg.2 hh2),
    mul_nonneg (sub_nonneg.2 hw2) (sub_nonneg.2 hh1)]

theorem area_window (r : rect_t) (h : r.wf_area) (h2 : r.in_range) :
    0 ≤ r.area ∧ r.area ≤ 400000000 := by
  obtain ⟨⟨e1, e2, e3, e4⟩, e5⟩ := h
  obtain ⟨a1, a2, a3, a4⟩ := h2
  have hm := mul_window_small r.width r.height (by omega) (by omega) (by omega) (by omega)
  rw [e5]
  exact ⟨mul_nonneg (by omega) (by omega), hm.2⟩

theorem intra_area_window (l r t b : Int) (hl : -10000 ≤ l ∧ l ≤ 10000)
    (hr : -10000 ≤ r ∧ r ≤ 10000) (ht : -10000 ≤ t ∧ t ≤ 10000) (hb : -10000 ≤ b ∧ b ≤ 10000) :
    0 ≤ (if r - l > 0 ∧ b - t > 0 then (r - l) * (b - t) else 0) ∧
    (if r - l > 0 ∧ b - t > 0 then (r - l) * (b - t) else 0) ≤ 400000000 := by
  have hm := mul_window_small (r - l) (b - t) (by omega) (by omega) (by omega) (by omega)
  split_ifs with h
  · exact ⟨mul_nonneg (by omega) (by omega), hm.2⟩
  · exact ⟨le_refl _, by omega⟩

/-- Inside the window the areas and the outer size computed by
`_calc_intra_outer_rect_area` are small. -/
theorem intra_outer_window (a b : rect_t) (ha : a.in_range) (hb : b.in_range) :
    (0 ≤ (_calc_intra_outer_rect_area a b).1.area ∧
      (_calc_intra_outer_rect_area a b).1.area ≤ 400000000) ∧
    (-400000000 ≤ (_calc_intra_outer_rect_area a b).2.area ∧
      (_calc_intra_outer_rect_area a b).2.area ≤ 400000000) ∧
    (-20000 ≤ (_calc_intra_outer_rect_area a b).2.width ∧
      (_calc_intra_outer_rect_area a b).2.width ≤ 20000) := by
  obtain ⟨a1, a2, a3, a4⟩ := ha
  obtain ⟨b1, b2, b3, b4⟩ := hb
  simp only [_calc_intra_outer_rect_area]
  refine ⟨intra_area_window _ _ _ _ (by split_ifs <;> omega) (by split_ifs <;> omega)
      (by split_ifs <;> omega) (by split_ifs <;> omega),
    mul_window_small _ _ (by split_ifs <;> omega) (by split_ifs <;> omega)
      (by split_ifs <;> omega) (by split_ifs <;> omega), ?_⟩
  constructor <;> split_ifs <;> omega

theorem outer_in_range (a b : rect_t) (ha : a.in_range) (hb : b.in_range) :
    (_calc_intra_outer_rect_area a b).2.in_range := by
  unfold rect_t.in_range at *
  unfold _calc_intra_outer_rect_area
  simp only
  refine ⟨?_, ?_, ?_, ?_⟩ <;> split_ifs <;> omega

theorem merge_node_in_range (a b : rect_t) (ha : a.in_range) (hb : b.in_range) (h : Int) :
    ({ a with
        left := (_calc_intra_outer_rect_area b a).2.left
        width := (_calc_intra_outer_rect_area b a).2.width
        right := (_calc_intra_outer_rect_area b a).2.right
        area := h } : rect_t).in_range := by
  have ho := outer_in_range b a hb ha
  unfold rect_t.in_range at *
  simp only
  omega

theorem split_fuzzy_dirty_range (brk : Nat) (dirty : List rect_node_t) (a b : rect_t)
    (hb : b.wf) (hb2 : b.in_range) (ho : overlap b a) (hd : ∀ n ∈ dirty, n.rect.in_range) :
    ∀ n ∈ (_split_fuzzy brk dirty a b).dirty, n.rect.in_range := by
  intro n hn
  rcases split_fuzzy_new_mem brk dirty a b n hn with h | h
  · obtain ⟨m, hm, hmr⟩ := List.mem_map.1 h
    rw [← hmr]; exact hd m hm
  · obtain ⟨h1, h2⟩ := strips_wf a b hb ho n.rect h
    exact in_range_of_inside _ _ h1.1 h2 hb2

theorem fuzzy_scan_range (err : Int) (herr : 0 ≤ err) (r : rect_t)
    (hr : r.wf_area ∧ r.in_range) :
    ∀ (rest before : List rect_node_t) (old_last : Option Nat) (dirty : List rect_node_t)
      (brk : Nat) (res : fuzzy_scan_state),
      (∀ n ∈ before, n.rect.in_range) → (∀ n ∈ rest, n.rect.in_range) →
      (∀ n ∈ dirty, n.rect.in_range) →
      fuzzy_scan err r before rest old_last dirty brk = .ok res →
      (∀ n ∈ res.rects, n.rect.in_range) ∧ (∀ n ∈ res.dirty, n.rect.in_range) := by
  intro rest
  induction rest with
  | nil =>
    intro before old_last dirty brk res hb _ hd hres
    simp only [fuzzy_scan, outcome.ok.injEq] at hres
    subst hres
    exact ⟨hb, hd⟩
  | cons cur rest ih =>
    intro before old_last dirty brk res hb hrest hd hres
    have hcur : cur.rect.in_range := hrest cur (by simp)
    have hrest1 : ∀ n ∈ rest, n.rect.in_range := fun n hn => hrest n (by simp [hn])
    have hall : ∀ n ∈ before ++ cur :: rest, n.rect.in_range := by
      intro n hn
      rcases List.mem_append.1 hn with h | h
      · exact hb n h
      · exact hrest n h
    have hrem : ∀ n ∈ before ++ rest, n.rect.in_range := by
      intro n hn
      rcases List.mem_append.1 hn with h | h
      · exact hb n h
      · exact hrest1 n h
    simp only [fuzzy_scan] at hres
    split_ifs at hres with c1 c2 c3 c4 c5 c6
    · simp only [outcome.ok.injEq] at hres
      subst hres
      exact ⟨hall, hd⟩
    · exact ih before _ dirty brk res hb hrest1 hd hres
    · simp only [outcome.ok.injEq] at hres
      subst hres
      refine ⟨hrem, ?_⟩
      intro n hn
      simp only [rect_list_append_node, List.mem_append, List.mem_singleton] at hn
      rcases hn with h | h
      · exact hd n h
      · rw [h]; exact outer_in_range r cur.rect hr.2 hcur
    · refine ih (before ++ [cur]) old_last dirty brk res ?_ hrest1 hd hres
      intro n hn
      rcases List.mem_append.1 hn with h | h
      · exact hb n h
      · simp only [List.mem_singleton] at h
        rw [h]; exact hcur
    · simp only [outcome.ok.injEq] at hres
      subst hres
      have ho : overlap r cur.rect := overlap_of_inter_area_pos r cur.rect (by
        unfold inter_area; omega)
      refine ⟨hrem, ?_⟩
      intro n hn
      simp only [rect_list_append_node, List.mem_append, List.mem_singleton] at hn
      rcases hn with h | h
      · exact split_fuzzy_dirty_range brk dirty cur.rect r hr.1.1 hr.2 ho hd n h
      · rw [h]
        exact merge_node_in_range cur.rect r hcur hr.2 _
    · simp only [outcome.ok.injEq] at hres
      subst hres
      have ho : overlap r cur.rect := overlap_of_inter_area_pos r cur.rect (by
        unfold inter_area; omega)
      exact ⟨hall, split_fuzzy_dirty_range brk dirty cur.rect r hr.1.1 hr.2 ho hd⟩

theorem fuzzy_step_range (err : Int) (herr : 0 ≤ err) (rects : List rect_node_t)
    (d : rect_node_t) (dirty : List rect_node_t) (old_last : Option Nat) (brk : Nat)
    (st : fuzzy_state)
    (hR : ∀ n ∈ rects, n.rect.in_range) (hd : d.rect.wf_area ∧ d.rect.in_range)
    (hD : ∀ n ∈ dirty, n.rect.in_range)
    (hs : fuzzy_step err rects d dirty old_last brk = .ok st) :
    (∀ n ∈ st.rects, n.rect.in_range) ∧ (∀ n ∈ st.dirty, n.rect.in_range) := by
  unfold fuzzy_step at hs
  cases hsc : fuzzy_scan err d.rect [] rects old_last dirty brk with
  | ok s =>
    rw [hsc] at hs
    simp only [outcome.ok.injEq] at hs
    subst hs
    obtain ⟨h1, h2⟩ := fuzzy_scan_range err herr d.rect hd rects [] old_last dirty brk s
      (by simp) hR hD hsc
    refine ⟨?_, h2⟩
    intro n hn
    simp only at hn
    split_ifs at hn
    · simp only [rect_list_append_node, List.mem_append, List.mem_singleton] at hn
      rcases hn with h | h
      · exact h1 n h
      · rw [h]; exact hd.2
    · exact h1 n hn
  | assert_fail => rw [hsc] at hs; simp at hs
  | out_of_fuel => rw [hsc] at hs; simp at hs

theorem merge_scan_range (e : Int) (r1 : rect_t) (hr1 : r1.in_range) :
    ∀ (rest before rects1 : List rect_node_t) (n : rect_node_t),
      (∀ m ∈ before ++ rest, m.rect.in_range) →
      merge_scan e r1 before rest = some (rects1, n) →
      n.rect.in_range ∧ ∀ m ∈ rects1, m.rect.in_range := by
  intro rest
  induction rest with
  | nil =>
    intro before rects1 n _ h
    simp [merge_scan] at h
  | cons c rest ih =>
    intro before rects1 n hall h
    simp only [merge_scan] at h
    split_ifs at h with hc
    · simp only [Option.some.injEq, Prod.mk.injEq] at h
      obtain ⟨rfl, rfl⟩ := h
      refine ⟨?_, fun m hm => hall m ?_⟩
      · exact outer_in_range r1 c.rect hr1 (hall c (by simp))
      · simp only [List.mem_append, List.mem_cons] at hm ⊢
        tauto
    · exact ih (before ++ [c]) rects1 n (by simpa using hall) h

end Exact

/-! # Theorems about the code (machine model) -/

/-! ## Machine integers -/

theorem c_int.eq_of_val_eq {a b : c_int} (h : a.val = b.val) : a = b := by
  cases a; cases b; simp only [c_int.mk.injEq]; exact h

theorem c_int.eq_iff (a b : c_int) : a = b ↔ a.val = b.val :=
  ⟨fun h => by rw [h], c_int.eq_of_val_eq⟩

theorem c_int.lt_iff (a b : c_int) : a < b ↔ a.val < b.val := Iff.rfl

theorem c_int.le_iff (a b : c_int) : a ≤ b ↔ a.val ≤ b.val := Iff.rfl

theorem c_int.val_add (a b : c_int) :
    (a + b).val = (a.val + b.val + 2147483648) % 4294967296 - 2147483648 := rfl

theorem c_int.val_sub (a b : c_int) :
    (a - b).val = (a.val - b.val + 2147483648) % 4294967296 - 2147483648 := rfl

theorem c_int.val_mul (a b : c_int) :
    (a * b).val = (a.val * b.val + 2147483648) % 4294967296 - 2147483648 := rfl

theorem c_int.val_zero : (0 : c_int).val = 0 := rfl

theorem c_int.val_wrap (x : Int) (h1 : -2147483648 ≤ x) (h2 : x ≤ 2147483647) :
    (c_int.wrap x).val = x := by
  show (x + 2147483648) % 4294967296 - 2147483648 = x
  omega

/-! ## Containment and round trip -/

theorem intra_self (r : rect_t) (hr : r.wf) : _calc_intra_rect_area r r = (r.width, r.height) := by
  obtain ⟨h1, h2, h3, h4⟩ := hr
  have w1 := r.width.lo
  have w2 := r.width.hi
  have w3 := r.height.lo
  have w4 := r.height.hi
  simp only [_calc_intra_rect_area, ite_self, Prod.mk.injEq]
  constructor <;> apply c_int.eq_of_val_eq <;> rw [c_int.val_sub] <;> omega

/-- C7: round trip: for a well-formed rectangle `r`, inserting `r` into the
empty set with `rect_list_add_split_strict` and then deleting `r` with
`rect_list_del_split_strict` gives the empty set. -/
theorem add_del_round_trip (r : rect_t) (hr : r.wf) :
    rect_list_del_split_strict (rect_list_add_split_strict [] r) r = [] := by
  have hadd : rect_list_add_split_strict [] r = [r] := rfl
  have h1 : ¬ (r.width ≤ 0 ∨ r.height ≤ 0) := by
    obtain ⟨_, _, h3, h4⟩ := hr
    simp only [c_int.le_iff, c_int.val_zero]
    omega
  rw [hadd]
  simp only [rect_list_del_split_strict, del_split_strict_loop, intra_self r hr, if_neg h1,
    and_self, if_true]
  rfl

theorem add_del_round_trip_witness :
    rect_list_del_split_strict (rect_list_add_split_strict [] (rect_init 3 4 5 6))
      (rect_init 3 4 5 6) = [] :=
  add_del_round_trip (rect_init 3 4 5 6) (by decide)

/-! ## Fuzzy insertion: the heap and the returned handle -/

theorem cnt_nil (a : Nat) : cnt a [] = 0 := rfl

theorem cnt_append (a : Nat) (l1 l2 : List rect_node_t) :
    cnt a (l1 ++ l2) = cnt a l1 + cnt a l2 := by
  simp [cnt]

theorem cnt_cons (a : Nat) (n : rect_node_t) (l : List rect_node_t) :
    cnt a (n :: l) = cnt a l + if n.addr = a then 1 else 0 := by
  simp [cnt, List.count_cons]

theorem heap_ok_iff_cnt (brk : Nat) (l : List rect_node_t) :
    heap_ok brk l ↔ ∀ a, cnt a l ≤ if a < brk then 1 else 0 := by
  unfold heap_ok cnt
  constructor
  · rintro ⟨h1, h2⟩ a
    split_ifs with c
    · exact List.nodup_iff_count_le_one.1 h1 a
    · have : a ∉ l.map rect_node_t.addr := by
        intro hmem
        obtain ⟨n, hn, rfl⟩ := List.mem_map.1 hmem
        exact c (h2 n hn)
      rw [List.count_eq_zero_of_not_mem this]
  · intro h
    refine ⟨List.nodup_iff_count_le_one.2 (fun a => ?_), fun n hn => ?_⟩
    · have := h a
      split_ifs at this <;> omega
    · by_contra c
      have := h n.addr
      rw [if_neg c] at this
      have hmem : n.addr ∈ l.map rect_node_t.addr := List.mem_map.2 ⟨n, hn, rfl⟩
      have := List.count_pos_iff.2 hmem
      omega

theorem append_xywh_heap_cnt (brk0 : Nat) (dirty0 : List rect_node_t) (brk1 : Nat)
    (d1 : List rect_node_t) (x y w h : c_int)
    (hq : brk0 ≤ brk1 ∧
      ∀ a, cnt a d1 = cnt a dirty0 + if brk0 ≤ a ∧ a < brk1 then 1 else 0) :
    brk0 ≤ (rect_list_append_xywh_heap brk1 d1 x y w h).1 ∧
    ∀ a, cnt a (rect_list_append_xywh_heap brk1 d1 x y w h).2 =
      cnt a dirty0 +
        if brk0 ≤ a ∧ a < (rect_list_append_xywh_heap brk1 d1 x y w h).1 then 1 else 0 := by
  obtain ⟨h1, h2⟩ := hq
  simp only [rect_list_append_xywh_heap, rect_list_append_node]
  refine ⟨by omega, fun a => ?_⟩
  have := h2 a
  simp only [cnt_append, cnt_cons, cnt_nil]
  split_ifs at this ⊢ <;> omega

theorem split_fuzzy_cnt (brk : Nat) (dirty : List rect_node_t) (a b : rect_t) :
    brk ≤ (_split_fuzzy brk dirty a b).brk ∧
    ∀ x, cnt x (_split_fuzzy brk dirty a b).dirty =
      cnt x dirty + if brk ≤ x ∧ x < (_split_fuzzy brk dirty a b).brk then 1 else 0 := by
  have q0 : brk ≤ brk ∧ ∀ x, cnt x dirty = cnt x dirty + if brk ≤ x ∧ x < brk then 1 else 0 := by
    refine ⟨le_refl _, fun x => ?_⟩
    split_ifs <;> omega
  unfold _split_fuzzy
  simp only
  split_ifs <;>
    first
    | exact q0
    | exact append_xywh_heap_cnt _ _ _ _ _ _ _ _ q0
    | exact append_xywh_heap_cnt _ _ _ _ _ _ _ _ (append_xywh_heap_cnt _ _ _ _ _ _ _ _ q0)
    | exact append_xywh_heap_cnt _ _ _ _ _ _ _ _
        (append_xywh_heap_cnt _ _ _ _ _ _ _ _ (append_xywh_heap_cnt _ _ _ _ _ _ _ _ q0))
    | exact append_xywh_heap_cnt _ _ _ _ _ _ _ _
        (append_xywh_heap_cnt _ _ _ _ _ _ _ _
          (append_xywh_heap_cnt _ _ _ _ _ _ _ _ (append_xywh_heap_cnt _ _ _ _ _ _ _ _ q0)))
theorem fuzzy_scan_cnt (err : c_int) (r : rect_t) :
    ∀ (rest before : List rect_node_t) (old_last : Option Nat) (dirty : List rect_node_t)
      (brk : Nat) (res : fuzzy_scan_state),
      fuzzy_scan err r before rest old_last dirty brk = .ok res →
      brk ≤ res.brk ∧
      ∀ a, cnt a res.rects + cnt a res.dirty ≤
        cnt a before + cnt a rest + cnt a dirty + if brk ≤ a ∧ a < res.brk then 1 else 0 := by
  intro rest
  induction rest with
  | nil =>
    intro before old_last dirty brk res hres
    simp only [fuzzy_scan, outcome.ok.injEq] at hres
    subst hres
    refine ⟨le_refl _, fun a => ?_⟩
    simp only [cnt_nil]
    omega
  | cons cur rest ih =>
    intro before old_last dirty brk res hres
    simp only [fuzzy_scan] at hres
    split_ifs at hres with c1 c2 c3 c4 c5 c6
    · simp only [outcome.ok.injEq] at hres
      subst hres
      refine ⟨le_refl _, fun a => ?_⟩
      simp only [cnt_append, cnt_cons]
      omega
    · obtain ⟨h1, h2⟩ := ih before _ dirty brk res hres
      refine ⟨h1, fun a => ?_⟩
      have := h2 a
      simp only [cnt_cons]
      omega
    · simp only [outcome.ok.injEq] at hres
      subst hres
      refine ⟨le_refl _, fun a => ?_⟩
      simp only [rect_list_append_node, cnt_append, cnt_cons, cnt_nil]
      omega
    · obtain ⟨h1, h2⟩ := ih (before ++ [cur]) old_last dirty brk res hres
      refine ⟨h1, fun a => ?_⟩
      have := h2 a
      simp only [cnt_append, cnt_cons, cnt_nil] at this ⊢
      omega
    · simp only [outcome.ok.injEq] at hres
      subst hres
      obtain ⟨h1, h2⟩ := split_fuzzy_cnt brk dirty cur.rect r
      refine ⟨h1, fun a => ?_⟩
      have := h2 a
      simp only [rect_list_append_node, cnt_append, cnt_cons, cnt_nil]
      omega
    · simp only [outcome.ok.injEq] at hres
      subst hres
      obtain ⟨h1, h2⟩ := split_fuzzy_cnt brk dirty cur.rect r
      refine ⟨h1, fun a => ?_⟩
      have := h2 a
      simp only [cnt_append, cnt_cons]
      omega

theorem fuzzy_step_heap (err : c_int) (rects : List rect_node_t) (d : rect_node_t)
    (ds : List rect_node_t) (old_last : Option Nat) (brk : Nat) (st1 : fuzzy_state)
    (hh : heap_ok brk (rects ++ d :: ds))
    (hs : fuzzy_step err rects d ds old_last brk = .ok st1) :
    heap_ok st1.brk (st1.rects ++ st1.dirty) := by
  rw [heap_ok_iff_cnt] at hh ⊢
  unfold fuzzy_step at hs
  cases hsc : fuzzy_scan err d.rect [] rects old_last ds brk with
  | ok s =>
    rw [hsc] at hs
    simp only [outcome.ok.injEq] at hs
    subst hs
    obtain ⟨h1, h2⟩ := fuzzy_scan_cnt err d.rect rects [] old_last ds brk s hsc
    intro a
    have ha := hh a
    have hb := h2 a
    simp only [cnt_append, cnt_cons, cnt_nil] at ha hb ⊢
    have hk : cnt a (if s.keep_dirty = true then rect_list_append_node s.rects d else s.rects) ≤
        cnt a s.rects + if d.addr = a then 1 else 0 := by
      by_cases hkd : s.keep_dirty = true
      · rw [if_pos hkd]
        simp only [rect_list_append_node, cnt_append, cnt_cons, cnt_nil]
        omega
      · rw [if_neg hkd]
        omega
    have hda : (if d.addr = a then 1 else 0) ≤ 1 := by split_ifs <;> omega
    by_cases c1 : a < brk
    · have c2 : ¬ (brk ≤ a ∧ a < s.brk) := by omega
      have c3 : a < s.brk := by omega
      rw [if_pos c1] at ha
      rw [if_neg c2] at hb
      rw [if_pos c3]
      omega
    · rw [if_neg c1] at ha
      have hb2 : (if brk ≤ a ∧ a < s.brk then 1 else 0) ≤ if a < s.brk then 1 else 0 := by
        split_ifs <;> omega
      omega
  | assert_fail => rw [hsc] at hs; simp at hs
  | out_of_fuel => rw [hsc] at hs; simp at hs
theorem last_addr_nil : last_addr [] = none := rfl

theorem last_addr_append_singleton (l : List rect_node_t) (n : rect_node_t) :
    last_addr (l ++ [n]) = some n.addr := by
  simp [last_addr]

theorem last_addr_append_of_ne_nil (l1 l2 : List rect_node_t) (h : l2 ≠ []) :
    last_addr (l1 ++ l2) = last_addr l2 := by
  unfold last_addr
  rw [List.getLast?_append_of_ne_nil l1 h]

theorem last_addr_mem (l : List rect_node_t) (a : Nat) (h : last_addr l = some a) :
    ∃ n ∈ l, n.addr = a := by
  unfold last_addr at h
  rw [Option.map_eq_some'] at h
  obtain ⟨n, hn, hna⟩ := h
  exact ⟨n, List.mem_of_getLast?_eq_some hn, hna⟩

theorem addr_ne_of_nodup (before rest : List rect_node_t) (cur n : rect_node_t)
    (hnd : ((before ++ cur :: rest).map rect_node_t.addr).Nodup)
    (hn : n ∈ before ∨ n ∈ rest) : n.addr ≠ cur.addr := by
  intro heq
  simp only [List.map_append, List.map_cons] at hnd
  rw [List.nodup_append] at hnd
  obtain ⟨h1, h2, h3⟩ := hnd
  rcases hn with hn | hn
  · exact h3 (List.mem_map.2 ⟨n, hn, rfl⟩) (by rw [heq]; simp)
  · rw [List.nodup_cons] at h2
    exact h2.1 (by rw [← heq]; exact List.mem_map.2 ⟨n, hn, rfl⟩)

theorem skip_phase (before rest P T : List rect_node_t) (cur : rect_node_t)
    (hph : phase before (cur :: rest) P T) : phase (before ++ [cur]) rest P T := by
  obtain ⟨heq, hc⟩ := hph
  refine ⟨by simpa using heq, ?_⟩
  rcases hc with ⟨P2, hP⟩ | ⟨T1, hT⟩
  · subst hP
    rw [List.append_assoc] at heq
    have heq2 := List.append_cancel_left heq
    cases P2 with
    | nil => exact Or.inr ⟨[cur], by simp⟩
    | cons p P2 =>
      simp only [List.cons_append, List.cons.injEq] at heq2
      obtain ⟨rfl, _⟩ := heq2
      exact Or.inl ⟨P2, by simp⟩
  · exact Or.inr ⟨T1 ++ [cur], by rw [hT]; simp⟩

theorem remove_phase (before rest P T : List rect_node_t) (cur : rect_node_t)
    (old_last : Option Nat) (hph : phase before (cur :: rest) P T)
    (hnd : ((before ++ cur :: rest).map rect_node_t.addr).Nodup)
    (hol : old_last = last_addr P) :
    ∃ P1 T1, phase before rest P1 T1 ∧ P1.Sublist P ∧ T1.Sublist T ∧
      update_old_last old_last before cur = last_addr P1 := by
  obtain ⟨heq, hc⟩ := hph
  rcases hc with ⟨P2, hP⟩ | ⟨T1, hT⟩
  · subst hP
    rw [List.append_assoc] at heq
    have heq2 := List.append_cancel_left heq
    cases P2 with
    | nil =>
      simp only [List.nil_append] at heq2
      subst heq2
      refine ⟨before, rest, ⟨rfl, Or.inl ⟨[], by simp⟩⟩, by simp, by simp, ?_⟩
      subst hol
      unfold update_old_last
      simp only [List.append_nil]
      split_ifs <;> rfl
    | cons p P2 =>
      simp only [List.cons_append, List.cons.injEq] at heq2
      obtain ⟨rfl, hrest⟩ := heq2
      refine ⟨before ++ P2, T, ⟨by rw [hrest, List.append_assoc], Or.inl ⟨P2, rfl⟩⟩,
        ?_, List.Sublist.refl _, ?_⟩
      · exact List.Sublist.append_left (List.sublist_cons_self _ _) _
      · subst hol
        unfold update_old_last
        by_cases hP2 : P2 = []
        · subst hP2
          rw [last_addr_append_singleton, if_pos rfl, List.append_nil]
        · have e1 : last_addr (before ++ cur :: P2) = last_addr P2 := by
            rw [show before ++ cur :: P2 = (before ++ [cur]) ++ P2 by simp]
            exact last_addr_append_of_ne_nil _ _ hP2
          rw [e1, last_addr_append_of_ne_nil _ _ hP2]
          rw [if_neg]
          intro hcontra
          obtain ⟨n, hn, hna⟩ := last_addr_mem P2 cur.addr hcontra
          exact addr_ne_of_nodup before rest cur n hnd (Or.inr (by rw [hrest]; simp [hn])) hna
  · subst hT
    rw [List.append_assoc] at heq
    have heq2 := List.append_cancel_left heq
    refine ⟨P, T1 ++ rest, ⟨by rw [List.append_assoc], Or.inr ⟨T1, rfl⟩⟩, List.Sublist.refl _,
      ?_, ?_⟩
    · rw [← heq2]
      exact List.Sublist.append_left (List.sublist_cons_self _ _) _
    · subst hol
      unfold update_old_last
      rw [if_neg]
      intro hcontra
      obtain ⟨n, hn, hna⟩ := last_addr_mem P cur.addr hcontra
      exact addr_ne_of_nodup (P ++ T1) rest cur n hnd (Or.inl (by simp [hn])) hna

theorem nodup_remove (before rest : List rect_node_t) (cur : rect_node_t)
    (hnd : ((before ++ cur :: rest).map rect_node_t.addr).Nodup) :
    ((before ++ rest).map rect_node_t.addr).Nodup := by
  refine hnd.sublist ?_
  exact (List.Sublist.append_left (List.sublist_cons_self _ _) _).map _

theorem fuzzy_scan_handle (err : c_int) (r : rect_t) :
    ∀ (rest before : List rect_node_t) (old_last : Option Nat) (dirty : List rect_node_t)
      (brk : Nat) (res : fuzzy_scan_state) (P T : List rect_node_t),
      phase before rest P T →
      ((before ++ rest).map rect_node_t.addr).Nodup →
      old_last = last_addr P →
      fuzzy_scan err r before rest old_last dirty brk = .ok res →
      ∃ P1 T1, res.rects = P1 ++ T1 ∧ P1.Sublist P ∧ T1.Sublist T ∧
        res.old_last = last_addr P1 := by
  intro rest
  induction rest with
  | nil =>
    intro before old_last dirty brk res P T hph hnd hol hres
    simp only [fuzzy_scan, outcome.ok.injEq] at hres
    subst hres
    exact ⟨P, T, by simpa using hph.1, List.Sublist.refl _, List.Sublist.refl _, hol⟩
  | cons cur rest ih =>
    intro before old_last dirty brk res P T hph hnd hol hres
    have hkeep : ∃ P1 T1, before ++ cur :: rest = P1 ++ T1 ∧ P1.Sublist P ∧ T1.Sublist T ∧
        old_last = last_addr P1 :=
      ⟨P, T, hph.1, List.Sublist.refl _, List.Sublist.refl _, hol⟩
    obtain ⟨P1, T1, hph1, hs1, hs2, hol1⟩ := remove_phase before rest P T cur old_last hph hnd hol
    have hrem : ∃ P1 T1, before ++ rest = P1 ++ T1 ∧ P1.Sublist P ∧ T1.Sublist T ∧
        update_old_last old_last before cur = last_addr P1 :=
      ⟨P1, T1, hph1.1, hs1, hs2, hol1⟩
    simp only [fuzzy_scan] at hres
    split_ifs at hres with c1 c2 c3 c4 c5 c6
    · simp only [outcome.ok.injEq] at hres
      subst hres
      exact hkeep
    · obtain ⟨P2, T2, h1, h2, h3, h4⟩ :=
        ih before _ dirty brk res P1 T1 hph1 (nodup_remove before rest cur hnd) hol1 hres
      exact ⟨P2, T2, h1, h2.trans hs1, h3.trans hs2, h4⟩
    · simp only [outcome.ok.injEq] at hres
      subst hres
      exact hrem
    · refine ih (before ++ [cur]) old_last dirty brk res P T
        (skip_phase before rest P T cur hph) (by simpa using hnd) hol hres
    · simp only [outcome.ok.injEq] at hres
      subst hres
      exact hrem
    · simp only [outcome.ok.injEq] at hres
      subst hres
      exact hkeep
theorem handle_split (P T : List rect_node_t)
    (hnd : ((P ++ T).map rect_node_t.addr).Nodup) :
    upto_handle (last_addr P) (P ++ T) = P ∧ after_handle (last_addr P) (P ++ T) = T := by
  rcases List.eq_nil_or_concat P with rfl | ⟨P1, p, rfl⟩
  · simp [last_addr, upto_handle, after_handle]
  · rw [List.concat_eq_append] at hnd ⊢
    rw [last_addr_append_singleton]
    have hpos : ∀ n ∈ P1, (decide (n.addr ≠ p.addr)) = true := by
      intro n hn
      have := addr_ne_of_nodup P1 T p n (by simpa using hnd) (Or.inl hn)
      simpa using this
    unfold upto_handle after_handle
    simp only [List.append_assoc, List.singleton_append]
    rw [List.takeWhile_append_of_pos hpos, List.dropWhile_append_of_pos hpos]
    simp

theorem fuzzy_reach_inv (err : c_int) (brk : Nat) (S : List rect_node_t) (node : rect_node_t)
    (hheap : heap_ok brk (S ++ [node])) :
    ∀ st, fuzzy_reach err (fuzzy_init brk S node) st →
      heap_ok st.brk (st.rects ++ st.dirty) ∧
      ∃ P T, st.rects = P ++ T ∧ P.Sublist S ∧ st.old_last = last_addr P ∧
        ∀ n ∈ T, queued err brk S node n := by
  intro st hst
  induction hst with
  | start =>
    refine ⟨by simpa [fuzzy_init, rect_list_append_node] using hheap, S, [], ?_⟩
    simp [fuzzy_init]
  | next st st1 d ds hreach hd hstep ih =>
    obtain ⟨hh, P, T, hPT, hsub, hol, hq⟩ := ih
    rw [hd] at hh
    refine ⟨fuzzy_step_heap err st.rects d ds st.old_last st.brk st1 hh hstep, ?_⟩
    have hnd : ((([] : List rect_node_t) ++ st.rects).map rect_node_t.addr).Nodup := by
      have := hh.1
      rw [List.map_append, List.nodup_append] at this
      simpa using this.1
    have hqd : queued err brk S node d := ⟨st, hreach, by rw [hd]; simp⟩
    unfold fuzzy_step at hstep
    cases hsc : fuzzy_scan err d.rect [] st.rects st.old_last ds st.brk with
    | ok s =>
      rw [hsc] at hstep
      simp only [outcome.ok.injEq] at hstep
      subst hstep
      obtain ⟨P1, T1, h1, h2, h3, h4⟩ := fuzzy_scan_handle err d.rect st.rects [] st.old_last ds
        st.brk s P T ⟨by simpa using hPT, Or.inl ⟨P, by simp⟩⟩ hnd hol hsc
      have hq1 : ∀ n ∈ T1, queued err brk S node n := fun n hn => hq n (h3.subset hn)
      by_cases hk : s.keep_dirty = true
      · refine ⟨P1, T1 ++ [d], ?_, h2.trans hsub, h4, ?_⟩
        · simp only [hk, if_true, rect_list_append_node, h1, List.append_assoc]
        · intro n hn
          rcases List.mem_append.1 hn with h | h
          · exact hq1 n h
          · simp only [List.mem_singleton] at h
            rw [h]; exact hqd
      · refine ⟨P1, T1, ?_, h2.trans hsub, h4, hq1⟩
        simp only [hk, h1]
        simp
    | assert_fail => rw [hsc] at hstep; simp at hstep
    | out_of_fuel => rw [hsc] at hstep; simp at hstep

theorem fuzzy_loop_reach_c (err : c_int) (st0 : fuzzy_state) :
    ∀ (fuel : Nat) (st st1 : fuzzy_state), fuzzy_reach err st0 st →
      fuzzy_loop err fuel st = .ok st1 → fuzzy_reach err st0 st1 ∧ st1.dirty = [] := by
  intro fuel
  induction fuel with
  | zero =>
    intro st st1 hreach hrun
    unfold fuzzy_loop at hrun
    cases hdl : st.dirty with
    | nil =>
      rw [hdl] at hrun
      simp only [outcome.ok.injEq] at hrun
      subst hrun
      exact ⟨hreach, hdl⟩
    | cons d ds => rw [hdl] at hrun; simp at hrun
  | succ fuel ih =>
    intro st st1 hreach hrun
    unfold fuzzy_loop at hrun
    cases hdl : st.dirty with
    | nil =>
      rw [hdl] at hrun
      simp only [outcome.ok.injEq] at hrun
      subst hrun
      exact ⟨hreach, hdl⟩
    | cons d ds =>
      rw [hdl] at hrun
      simp only at hrun
      cases hs : fuzzy_step err st.rects d ds st.old_last st.brk with
      | ok st2 =>
        rw [hs] at hrun
        exact ih st2 st1 (fuzzy_reach.next st st2 d ds hreach hdl hs) hrun
      | assert_fail => rw [hs] at hrun; simp at hrun
      | out_of_fuel => rw [hs] at hrun; simp at hrun

theorem fuzzy_run_inv (fuel brk : Nat) (S : List rect_node_t) (node : rect_node_t)
    (err : c_int) (st : fuzzy_state) (hheap : heap_ok brk (S ++ [node]))
    (hrun : rect_list_add_split_fuzzy fuel brk S node err = .ok st) :
    ((st.rects).map rect_node_t.addr).Nodup ∧
    ∃ P T, st.rects = P ++ T ∧ P.Sublist S ∧ st.old_last = last_addr P ∧
      (∀ n ∈ T, n = node ∨ queued err brk S node n) ∧
      (S ≠ [] → ∀ n ∈ T, queued err brk S node n) := by
  unfold rect_list_add_split_fuzzy at hrun
  cases S with
  | nil =>
    simp only [outcome.ok.injEq] at hrun
    subst hrun
    refine ⟨by simp [rect_list_append_node], [], [node], by simp [rect_list_append_node],
      List.Sublist.refl _, rfl, by simp, by simp⟩
  | cons m S =>
    simp only at hrun
    obtain ⟨hreach, hdirty⟩ := fuzzy_loop_reach_c err (fuzzy_init brk (m :: S) node) fuel
      (fuzzy_init brk (m :: S) node) st fuzzy_reach.start hrun
    obtain ⟨hh, P, T, h1, h2, h3, h4⟩ := fuzzy_reach_inv err brk (m :: S) node hheap st hreach
    rw [hdirty, List.append_nil] at hh
    exact ⟨hh.1, P, T, h1, h2, h3, fun n hn => Or.inr (h4 n hn), fun _ => h4⟩

/-- C8: the handle returned by `rect_list_add_split_fuzzy` separates old from
new records: when the call returns the set `R` and the handle `h`, the members
of `R` up to and including `h` are a subsequence of the original set (same
nodes, same order, same geometry), every member after `h` was queued as a
dirty fragment during the call (the handle itself points to a member of `R`),
and when `h` is absent every member of `R` is
the inserted node or was queued during the call. -/
theorem fuzzy_handle_separates (fuel brk : Nat) (S : List rect_node_t) (node : rect_node_t)
    (accepted_error : c_int) (st : fuzzy_state) (hheap : heap_ok brk (S ++ [node]))
    (hr : node.rect.wf)
    (hrun : rect_list_add_split_fuzzy fuel brk S node accepted_error = .ok st) :
    st.rects = upto_handle st.old_last st.rects ++ after_handle st.old_last st.rects ∧
    (upto_handle st.old_last st.rects).Sublist S ∧
    (∀ a, st.old_last = some a → ∃ n ∈ upto_handle st.old_last st.rects, n.addr = a) ∧
    (st.old_last ≠ none →
      ∀ n ∈ after_handle st.old_last st.rects, queued accepted_error brk S node n) ∧
    (st.old_last = none →
      ∀ n ∈ st.rects, n = node ∨ queued accepted_error brk S node n) := by
  obtain ⟨hnd, P, T, h1, h2, h3, h4, h5⟩ :=
    fuzzy_run_inv fuel brk S node accepted_error st hheap hrun
  rw [h1] at hnd
  obtain ⟨e1, e2⟩ := handle_split P T hnd
  rw [h3, h1, e1, e2]
  refine ⟨rfl, h2, fun a ha => last_addr_mem P a ha, ?_, ?_⟩
  · intro hne
    apply h5
    rintro rfl
    have : P = [] := by simpa using h2
    subst this
    exact hne rfl
  · intro hnone n hn
    have hP : P = [] := by
      rcases List.eq_nil_or_concat P with rfl | ⟨P1, p, rfl⟩
      · rfl
      · rw [List.concat_eq_append, last_addr_append_singleton] at hnone
        simp at hnone
    subst hP
    exact h4 n (by simpa using hn)

theorem fuzzy_handle_separates_witness :
    heap_ok 2 ([⟨0, rect_init 0 0 10 10⟩] ++ [⟨1, rect_init 5 5 10 10⟩]) ∧
    upto_handle (some 0)
      [⟨0, rect_init 0 0 10 10⟩, ⟨2, rect_init 5 10 10 5⟩, ⟨3, rect_init 10 5 5 5⟩] =
      [⟨0, rect_init 0 0 10 10⟩] ∧
    (∀ n ∈ after_handle (some 0)
        [⟨0, rect_init 0 0 10 10⟩, ⟨2, rect_init 5 10 10 5⟩, ⟨3, rect_init 10 5 5 5⟩],
      queued 0 2 [⟨0, rect_init 0 0 10 10⟩] ⟨1, rect_init 5 5 10 10⟩ n) :=
  ⟨by decide, by decide,
    (fuzzy_handle_separates 10 2 [⟨0, rect_init 0 0 10 10⟩] ⟨1, rect_init 5 5 10 10⟩ 0
      { rects := [⟨0, rect_init 0 0 10 10⟩, ⟨2, rect_init 5 10 10 5⟩, ⟨3, rect_init 10 5 5 5⟩]
        dirty := []
        old_last := some 0
        brk := 4 }
      (by decide) (by decide) (by decide)).2.2.2.1 (by decide)⟩

/-! ## The combined fuzzy insertion and merge -/

theorem split_after_eq (P1 T : List rect_node_t) (p : rect_node_t)
    (h : ∀ n ∈ P1, n.addr ≠ p.addr) :
    split_after p.addr (P1 ++ p :: T) = some (P1 ++ [p], T) := by
  induction P1 with
  | nil => simp [split_after]
  | cons x P1 ih =>
    have hx : x.addr ≠ p.addr := h x (by simp)
    have e := ih (fun n hn => h n (by simp [hn]))
    rw [List.cons_append, split_after, if_neg hx, e]
    rfl

/-- C9 (as stated) fails: inserting `(5,-5,10,15)` into `{(0,0,10,10)}` with
split budget 0 removes the only original member by a horizontal merge, so the
handle is absent and the code runs no merge pass and keeps two records, while
the described composition merges the two new records (wasted area 25 ≤ 25)
into one. -/
theorem fuzzy_and_merge_differs_from_spec :
    rect_list_add_split_fuzzy_and_merge 10 2 [⟨0, rect_init 0 0 10 10⟩]
        ⟨1, rect_init 5 (-5) 10 15⟩ 0 25 =
      .ok [⟨2, rect_init 5 (-5) 10 5⟩, ⟨0, rect_init 0 0 15 10⟩] ∧
    fuzzy_then_merge_spec 10 2 [⟨0, rect_init 0 0 10 10⟩] ⟨1, rect_init 5 (-5) 10 15⟩ 0 25 =
      .ok [⟨2, rect_init 0 (-5) 15 15⟩] ∧
    rect_list_add_split_fuzzy_and_merge 10 2 [⟨0, rect_init 0 0 10 10⟩]
        ⟨1, rect_init 5 (-5) 10 15⟩ 0 25 ≠
      fuzzy_then_merge_spec 10 2 [⟨0, rect_init 0 0 10 10⟩] ⟨1, rect_init 5 (-5) 10 15⟩ 0 25 := by
  refine ⟨by decide, by decide, by decide⟩

/-- C9 (amended): `rect_list_add_split_fuzzy_and_merge` yields the same set as
running `rect_list_add_split_fuzzy`, splitting its result at the returned
handle into the settled members and the tail after it and, whenever the handle
is present and the tail is non-empty, running `rect_list_merge_rects` on the
settled part with that tail as candidates; otherwise the result of the
insertion is returned as it is. -/
theorem fuzzy_and_merge_refines_guarded (fuel brk : Nat) (S : List rect_node_t)
    (node : rect_node_t) (se me : c_int) (hheap : heap_ok brk (S ++ [node])) :
    rect_list_add_split_fuzzy_and_merge fuel brk S node se me =
      fuzzy_then_merge_guarded fuel brk S node se me := by
  unfold rect_list_add_split_fuzzy_and_merge fuzzy_then_merge_guarded
  cases hrun : rect_list_add_split_fuzzy fuel brk S node se with
  | ok st =>
    obtain ⟨hnd, P, T, h1, h2, h3, _, _⟩ := fuzzy_run_inv fuel brk S node se st hheap hrun
    rw [h1] at hnd
    obtain ⟨e1, e2⟩ := handle_split P T hnd
    simp only
    rw [h3, h1, e1, e2]
    rcases List.eq_nil_or_concat P with rfl | ⟨P1, p, rfl⟩
    · simp [last_addr]
    · rw [List.concat_eq_append] at hnd ⊢
      rw [last_addr_append_singleton]
      simp only
      have hne : ∀ n ∈ P1, n.addr ≠ p.addr := fun n hn =>
        addr_ne_of_nodup P1 T p n (by simpa using hnd) (Or.inl hn)
      rw [List.append_assoc, List.singleton_append, split_after_eq P1 T p hne]
      cases T with
      | nil => simp
      | cons t T => simp
  | assert_fail => rfl
  | out_of_fuel => rfl

theorem fuzzy_and_merge_refines_guarded_witness :
    heap_ok 2 ([⟨0, rect_init 0 0 10 10⟩] ++ [⟨1, rect_init 5 5 10 10⟩]) ∧
    rect_list_add_split_fuzzy_and_merge 10 2 [⟨0, rect_init 0 0 10 10⟩]
        ⟨1, rect_init 5 5 10 10⟩ 0 100 =
      fuzzy_then_merge_guarded 10 2 [⟨0, rect_init 0 0 10 10⟩] ⟨1, rect_init 5 5 10 10⟩ 0 100 ∧
    fuzzy_then_merge_guarded 10 2 [⟨0, rect_init 0 0 10 10⟩] ⟨1, rect_init 5 5 10 10⟩ 0 100 =
      .ok [⟨3, rect_init 0 0 15 15⟩] :=
  ⟨by decide,
    fuzzy_and_merge_refines_guarded 10 2 [⟨0, rect_init 0 0 10 10⟩] ⟨1, rect_init 5 5 10 10⟩
      0 100 (by decide),
    by decide⟩

/-! ## The rectangle algebra -/

/-- C14: the one-pass computation agrees with the independent ones: the intra
width and height of `_calc_intra_outer_rect_area` equal the pair returned by
`_calc_intra_rect_area`, and its outer rectangle (all seven fields) equals the
one returned by `_calc_outer_rect_area`. -/
theorem calc_intra_outer_agrees (a b : rect_t) :
    ((_calc_intra_outer_rect_area a b).1.width, (_calc_intra_outer_rect_area a b).1.height) =
      _calc_intra_rect_area a b ∧
    (_calc_intra_outer_rect_area a b).2 = _calc_outer_rect_area a b :=
  ⟨rfl, rfl⟩

/-- C15: the concrete deletion scenario: `rect_list_del_split_strict` on the
set `{(0,0,10,10)}` with the rectangle `(2,2,4,4)` gives exactly four strips
whose areas sum to 84, no two of which overlap and none of which overlaps the
deleted rectangle. -/
theorem del_split_strict_scenario :
    rect_list_del_split_strict [rect_init 0 0 10 10] (rect_init 2 2 4 4) =
      [rect_init 0 0 10 2, rect_init 0 6 10 4, rect_init 0 2 2 4, rect_init 6 2 4 4] ∧
    (rect_list_del_split_strict [rect_init 0 0 10 10] (rect_init 2 2 4 4)).length = 4 ∧
    total_area (rect_list_del_split_strict [rect_init 0 0 10 10] (rect_init 2 2 4 4)) = 84 ∧
    non_overlapping (rect_list_del_split_strict [rect_init 0 0 10 10] (rect_init 2 2 4 4)) ∧
    (∀ s ∈ rect_list_del_split_strict [rect_init 0 0 10 10] (rect_init 2 2 4 4),
      inter_area s (rect_init 2 2 4 4) = 0 ∧ s.wf_area) := by
  refine ⟨by decide, by decide, by decide, by decide, by decide⟩

/-! ## The merge pass -/

theorem merge_scan_length (e : c_int) (r1 : rect_t) :
    ∀ (rest before rects1 : List rect_node_t) (n : rect_node_t),
      merge_scan e r1 before rest = some (rects1, n) →
      rects1.length + 1 = before.length + rest.length := by
  intro rest
  induction rest with
  | nil =>
    intro before rects1 n h
    simp [merge_scan] at h
  | cons m rest ih =>
    intro before rects1 n h
    simp only [merge_scan] at h
    split_ifs at h with c
    · simp only [Option.some.injEq, Prod.mk.injEq] at h
      obtain ⟨rfl, _⟩ := h
      simp only [List.length_append, List.length_cons]
      omega
    · have := ih (before ++ [m]) rects1 n h
      simp only [List.length_append, List.length_cons, List.length_nil] at this ⊢
      omega

theorem merge_rects_total (e : c_int) :
    ∀ (k : Nat) (rects to_merge : List rect_node_t),
      2 * to_merge.length + rects.length ≤ k →
      ∃ R, R.length ≤ rects.length + to_merge.length ∧
        ∀ fuel, k ≤ fuel →
          rect_list_merge_rects fuel rects to_merge e = .ok R ∧
          merge_rects_state fuel rects to_merge e = .ok (R, []) := by
  intro k
  induction k with
  | zero =>
    intro rects to_merge hk
    have h1 : to_merge = [] := by
      cases to_merge with
      | nil => rfl
      | cons a l => simp at hk
    subst h1
    refine ⟨rects, by simp, fun fuel _ => ?_⟩
    cases fuel <;> simp [rect_list_merge_rects, merge_rects_state]
  | succ k ih =>
    intro rects to_merge hk
    cases to_merge with
    | nil =>
      refine ⟨rects, by simp, fun fuel _ => ?_⟩
      cases fuel <;> simp [rect_list_merge_rects, merge_rects_state]
    | cons head tail =>
      simp only [List.length_cons] at hk
      cases hs : merge_scan e head.rect [] rects with
      | none =>
        obtain ⟨R, hR, hrun⟩ := ih (rect_list_append_node rects head) tail (by
          simp only [rect_list_append_node, List.length_append, List.length_cons,
            List.length_nil]
          omega)
        refine ⟨R, ?_, fun fuel hf => ?_⟩
        · simp only [rect_list_append_node, List.length_append, List.length_cons,
            List.length_nil] at hR
          simp only [List.length_cons]
          omega
        · cases fuel with
          | zero => omega
          | succ fuel =>
            simp only [rect_list_merge_rects, merge_rects_state, hs]
            exact hrun fuel (by omega)
      | some p =>
        obtain ⟨rects1, n⟩ := p
        have hlen := merge_scan_length e head.rect rects [] rects1 n hs
        simp only [List.length_nil, zero_add] at hlen
        obtain ⟨R, hR, hrun⟩ := ih rects1 (rect_list_append_node tail n) (by
          simp only [rect_list_append_node, List.length_append, List.length_cons,
            List.length_nil]
          omega)
        refine ⟨R, ?_, fun fuel hf => ?_⟩
        · simp only [rect_list_append_node, List.length_append, List.length_cons,
            List.length_nil] at hR
          simp only [List.length_cons]
          omega
        · cases fuel with
          | zero => omega
          | succ fuel =>
            simp only [rect_list_merge_rects, merge_rects_state, hs]
            exact hrun fuel (by omega)

/-- C12: `rect_list_merge_rects` terminates for every set, every candidate
list and every `accepted_error`: with fuel `2 * |candidates| + |set|` (or more)
the loop is left with a result, the candidate list is then empty, and the
result has at most as many members as the set and the candidate list had
together. -/
theorem merge_rects_terminates (rects to_merge : List rect_node_t) (accepted_error : c_int) :
    ∃ R, R.length ≤ rects.length + to_merge.length ∧
      ∀ fuel, 2 * to_merge.length + rects.length ≤ fuel →
        rect_list_merge_rects fuel rects to_merge accepted_error = .ok R ∧
        merge_rects_state fuel rects to_merge accepted_error = .ok (R, []) :=
  merge_rects_total accepted_error (2 * to_merge.length + rects.length) rects to_merge
    (le_refl _)

theorem merge_rects_terminates_witness :
    ∃ R, R.length ≤
        [(⟨0, rect_init 0 0 10 10⟩ : rect_node_t), ⟨1, rect_init 20 0 10 10⟩].length +
          [(⟨2, rect_init 10 0 10 10⟩ : rect_node_t)].length ∧
      ∀ fuel, 2 * [(⟨2, rect_init 10 0 10 10⟩ : rect_node_t)].length +
          [(⟨0, rect_init 0 0 10 10⟩ : rect_node_t), ⟨1, rect_init 20 0 10 10⟩].length ≤ fuel →
        rect_list_merge_rects fuel [⟨0, rect_init 0 0 10 10⟩, ⟨1, rect_init 20 0 10 10⟩]
          [⟨2, rect_init 10 0 10 10⟩] 7 = .ok R ∧
        merge_rects_state fuel [⟨0, rect_init 0 0 10 10⟩, ⟨1, rect_init 20 0 10 10⟩]
          [⟨2, rect_init 10 0 10 10⟩] 7 = .ok (R, []) :=
  merge_rects_terminates [⟨0, rect_init 0 0 10 10⟩, ⟨1, rect_init 20 0 10 10⟩]
    [⟨2, rect_init 10 0 10 10⟩] 7

theorem inside_trans_c (a b c : rect_t) (h1 : a.inside b) (h2 : b.inside c) : a.inside c := by
  unfold rect_t.inside at *
  simp only [c_int.le_iff] at *
  omega

theorem inside_refl_c (a : rect_t) : a.inside a := by
  unfold rect_t.inside
  simp only [c_int.le_iff]
  omega

theorem outer_contains (a b : rect_t) :
    a.inside (_calc_outer_rect_area a b) ∧ b.inside (_calc_outer_rect_area a b) := by
  unfold _calc_outer_rect_area rect_t.inside
  simp only [c_int.le_iff, c_int.lt_iff]
  constructor <;> (refine ⟨?_, ?_, ?_, ?_⟩ <;> split_ifs <;> omega)

theorem merge_scan_contains (e : c_int) (r1 : rect_t) :
    ∀ (rest before rects1 : List rect_node_t) (n : rect_node_t),
      merge_scan e r1 before rest = some (rects1, n) →
      r1.inside n.rect ∧ ∀ m ∈ before ++ rest, m ∈ rects1 ∨ m.rect.inside n.rect := by
  intro rest
  induction rest with
  | nil =>
    intro before rects1 n h
    simp [merge_scan] at h
  | cons c rest ih =>
    intro before rects1 n h
    simp only [merge_scan] at h
    split_ifs at h with hc
    · simp only [Option.some.injEq, Prod.mk.injEq] at h
      obtain ⟨rfl, rfl⟩ := h
      refine ⟨(outer_contains r1 c.rect).1, fun m hm => ?_⟩
      simp only [List.mem_append, List.mem_cons] at hm
      rcases hm with hm | rfl | hm
      · exact Or.inl (List.mem_append.2 (Or.inl hm))
      · exact Or.inr (outer_contains r1 m.rect).2
      · exact Or.inl (List.mem_append.2 (Or.inr hm))
    · have := ih (before ++ [c]) rects1 n h
      simpa using this

theorem merge_rects_contains (e : c_int) (q : rect_t) :
    ∀ (fuel : Nat) (rects to_merge R : List rect_node_t),
      rect_list_merge_rects fuel rects to_merge e = .ok R →
      (∃ n ∈ rects ++ to_merge, q.inside n.rect) → ∃ n ∈ R, q.inside n.rect := by
  intro fuel
  induction fuel with
  | zero =>
    intro rects to_merge R hrun hq
    cases to_merge with
    | nil =>
      simp only [rect_list_merge_rects, outcome.ok.injEq] at hrun
      subst hrun
      simpa using hq
    | cons head tail => simp [rect_list_merge_rects] at hrun
  | succ fuel ih =>
    intro rects to_merge R hrun hq
    cases to_merge with
    | nil =>
      simp only [rect_list_merge_rects, outcome.ok.injEq] at hrun
      subst hrun
      simpa using hq
    | cons head tail =>
      obtain ⟨n, hn, hqn⟩ := hq
      cases hs : merge_scan e head.rect [] rects with
      | none =>
        simp only [rect_list_merge_rects, hs] at hrun
        refine ih _ _ R hrun ⟨n, ?_, hqn⟩
        simp only [rect_list_append_node, List.mem_append, List.mem_cons, List.mem_singleton,
          List.not_mem_nil, or_false] at hn ⊢
        tauto
      | some p =>
        obtain ⟨rects1, nn⟩ := p
        simp only [rect_list_merge_rects, hs] at hrun
        obtain ⟨h1, h2⟩ := merge_scan_contains e head.rect rects [] rects1 nn hs
        simp only [List.nil_append] at h2
        simp only [List.mem_append, List.mem_cons] at hn
        rcases hn with hn | rfl | hn
        · rcases h2 n hn with h | h
          · exact ih _ _ R hrun ⟨n, by simp [h], hqn⟩
          · exact ih _ _ R hrun ⟨nn, by simp [rect_list_append_node],
              inside_trans_c q n.rect nn.rect hqn h⟩
        · exact ih _ _ R hrun ⟨nn, by simp [rect_list_append_node],
            inside_trans_c q n.rect nn.rect hqn h1⟩
        · exact ih _ _ R hrun ⟨n, by simp [rect_list_append_node, hn], hqn⟩

/-- C20: the merge pass never loses covered area: `rect_list_merge_rects`
returns a set (with fuel `2 * |C| + |S|`), and whenever it returns a set,
every rectangle of the set `S` and of the candidate list `C` is fully
contained in some member of the returned set. -/
theorem merge_rects_keeps_cover (S C : List rect_node_t) (accepted_error : c_int)
    (hS : ∀ m ∈ S, m.rect.wf) (hC : ∀ m ∈ C, m.rect.wf) :
    (∃ R, rect_list_merge_rects (2 * C.length + S.length) S C accepted_error = .ok R) ∧
    ∀ fuel R, rect_list_merge_rects fuel S C accepted_error = .ok R →
      ∀ q ∈ S ++ C, ∃ n ∈ R, q.rect.inside n.rect := by
  constructor
  · obtain ⟨R, _, hR⟩ := merge_rects_total accepted_error (2 * C.length + S.length) S C
      (le_refl _)
    exact ⟨R, (hR _ (le_refl _)).1⟩
  · intro fuel R hrun q hq
    exact merge_rects_contains accepted_error q.rect fuel S C R hrun
      ⟨q, hq, inside_refl_c q.rect⟩

theorem merge_rects_keeps_cover_witness :
    rect_list_merge_rects 4 [⟨0, rect_init 0 0 10 10⟩, ⟨1, rect_init 20 0 10 10⟩]
        [⟨2, rect_init 12 0 6 10⟩] 40 = .ok [⟨1, rect_init 0 0 30 10⟩] ∧
    ∀ q ∈ [(⟨0, rect_init 0 0 10 10⟩ : rect_node_t), ⟨1, rect_init 20 0 10 10⟩] ++
        [⟨2, rect_init 12 0 6 10⟩],
      ∃ n ∈ [(⟨1, rect_init 0 0 30 10⟩ : rect_node_t)], q.rect.inside n.rect :=
  ⟨by decide,
    (merge_rects_keeps_cover [⟨0, rect_init 0 0 10 10⟩, ⟨1, rect_init 20 0 10 10⟩]
      [⟨2, rect_init 12 0 6 10⟩] 40 (by decide) (by decide)).2 4
      [⟨1, rect_init 0 0 30 10⟩] (by decide)⟩

/-- C17: the concrete merge scenario: `rect_list_merge_rects` on the set
`{(0,0,10,10), (20,0,10,10)}` with the single candidate `(10,0,10,10)` and any
`accepted_error ≥ 0` leaves the candidate list empty and the set with exactly
one member, `(0,0,30,10)` (area 300). -/
theorem merge_rects_scenario (accepted_error : c_int) (fuel : Nat)
    (herr : 0 ≤ accepted_error) :
    merge_rects_state (fuel + 3) [⟨0, rect_init 0 0 10 10⟩, ⟨1, rect_init 20 0 10 10⟩]
        [⟨2, rect_init 10 0 10 10⟩] accepted_error =
      .ok ([⟨1, rect_init 0 0 30 10⟩], []) ∧
    rect_list_merge_rects (fuel + 3) [⟨0, rect_init 0 0 10 10⟩, ⟨1, rect_init 20 0 10 10⟩]
        [⟨2, rect_init 10 0 10 10⟩] accepted_error =
      .ok [⟨1, rect_init 0 0 30 10⟩] ∧
    (rect_init 0 0 30 10).right = 30 ∧ (rect_init 0 0 30 10).bottom = 10 ∧
    (rect_init 0 0 30 10).area = 300 := by
  have h1 : merge_scan accepted_error (rect_init 10 0 10 10) []
      [⟨0, rect_init 0 0 10 10⟩, ⟨1, rect_init 20 0 10 10⟩] =
      some ([⟨1, rect_init 20 0 10 10⟩], ⟨0, rect_init 0 0 20 10⟩) := by
    have e : (_calc_outer_rect_area (rect_init 10 0 10 10) (rect_init 0 0 10 10)) =
        rect_init 0 0 20 10 := by decide
    simp only [merge_scan, e]
    rw [if_pos (by simpa [rect_init] using herr)]
    rfl
  have h2 : merge_scan accepted_error (rect_init 0 0 20 10) []
      [⟨1, rect_init 20 0 10 10⟩] = some ([], ⟨1, rect_init 0 0 30 10⟩) := by
    have e : (_calc_outer_rect_area (rect_init 0 0 20 10) (rect_init 20 0 10 10)) =
        rect_init 0 0 30 10 := by decide
    simp only [merge_scan, e]
    rw [if_pos (by simpa [rect_init] using herr)]
    rfl
  have h3 : merge_scan accepted_error (rect_init 0 0 30 10) [] [] = none := rfl
  refine ⟨?_, ?_, by decide, by decide, by decide⟩
  · simp only [merge_rects_state, h1, h2, h3, rect_list_append_node, List.nil_append]
  · simp only [rect_list_merge_rects, h1, h2, h3, rect_list_append_node, List.nil_append]

theorem merge_rects_scenario_witness :
    merge_rects_state 4 [⟨0, rect_init 0 0 10 10⟩, ⟨1, rect_init 20 0 10 10⟩]
        [⟨2, rect_init 10 0 10 10⟩] 0 =
      .ok ([⟨1, rect_init 0 0 30 10⟩], []) :=
  (merge_rects_scenario 0 1 (by decide)).1

/-! ## The concrete fuzzy scenario -/

theorem split_fuzzy_action_merge_c (brk : Nat) (dirty : List rect_node_t) (a b : rect_t) :
    (_split_fuzzy brk dirty a b).action = SPLIT_FUZZY_ACTION_MERGE ↔ fuzzy_merge_cond a b := by
  unfold _split_fuzzy fuzzy_merge_cond split_strict_r2 split_strict_r1
  simp only
  split_ifs <;> simp_all

/-- C16: the concrete fuzzy scenario, result: starting from the empty set,
`rect_list_add_split_fuzzy` with `(0,0,5,10)` and then with `(5,0,5,10)`, both
with `accepted_error = 0`, leaves a set with exactly one member,
`(0,0,10,10)` (right 10, bottom 10, area 100). -/
theorem fuzzy_scenario_result (fuel : Nat) :
    rect_list_add_split_fuzzy fuel 2 [] ⟨0, rect_init 0 0 5 10⟩ 0 =
      .ok { rects := [⟨0, rect_init 0 0 5 10⟩], dirty := [], old_last := none, brk := 2 } ∧
    rect_list_add_split_fuzzy (fuel + 2) 2 [⟨0, rect_init 0 0 5 10⟩] ⟨1, rect_init 5 0 5 10⟩ 0 =
      .ok { rects := [⟨0, rect_init 0 0 10 10⟩], dirty := [], old_last := none, brk := 2 } ∧
    node_rects [⟨0, rect_init 0 0 10 10⟩] =
      [{ left := 0, top := 0, right := 10, bottom := 10, width := 10, height := 10,
         area := 100 }] := by
  refine ⟨rfl, ?_, by decide⟩
  have h1 : fuzzy_step 0 [⟨0, rect_init 0 0 5 10⟩] ⟨1, rect_init 5 0 5 10⟩ [] (some 0) 2 =
      .ok { rects := [], dirty := [⟨0, rect_init 0 0 10 10⟩], old_last := none, brk := 2 } := by
    decide
  have h2 : fuzzy_step 0 [] ⟨0, rect_init 0 0 10 10⟩ [] none 2 =
      .ok { rects := [⟨0, rect_init 0 0 10 10⟩], dirty := [], old_last := none, brk := 2 } := by
    decide
  have hl : last_addr [(⟨0, rect_init 0 0 5 10⟩ : rect_node_t)] = some 0 := by decide
  unfold rect_list_add_split_fuzzy
  simp only [rect_list_append_node, List.nil_append]
  rw [hl]
  simp only [fuzzy_loop, h1, h2]

theorem scenario_reach (st : fuzzy_state)
    (h : fuzzy_reach 0 (fuzzy_init 2 [⟨0, rect_init 0 0 5 10⟩] ⟨1, rect_init 5 0 5 10⟩) st) :
    st = { rects := [⟨0, rect_init 0 0 5 10⟩], dirty := [⟨1, rect_init 5 0 5 10⟩],
           old_last := some 0, brk := 2 } ∨
    st = { rects := [], dirty := [⟨0, rect_init 0 0 10 10⟩], old_last := none, brk := 2 } ∨
    st = { rects := [⟨0, rect_init 0 0 10 10⟩], dirty := [], old_last := none, brk := 2 } := by
  induction h with
  | start => exact Or.inl (by decide)
  | next st st1 d ds hreach hd hstep ih =>
    rcases ih with rfl | rfl | rfl
    · simp only [List.cons.injEq] at hd
      obtain ⟨rfl, rfl⟩ := hd
      have h1 : fuzzy_step 0 [⟨0, rect_init 0 0 5 10⟩] ⟨1, rect_init 5 0 5 10⟩ [] (some 0) 2 =
          .ok { rects := [], dirty := [⟨0, rect_init 0 0 10 10⟩], old_last := none,
                brk := 2 } := by decide
      rw [h1] at hstep
      simp only [outcome.ok.injEq] at hstep
      exact Or.inr (Or.inl hstep.symm)
    · simp only [List.cons.injEq] at hd
      obtain ⟨rfl, rfl⟩ := hd
      have h2 : fuzzy_step 0 [] ⟨0, rect_init 0 0 10 10⟩ [] none 2 =
          .ok { rects := [⟨0, rect_init 0 0 10 10⟩], dirty := [], old_last := none,
                brk := 2 } := by decide
      rw [h2] at hstep
      simp only [outcome.ok.injEq] at hstep
      exact Or.inr (Or.inr hstep.symm)
    · simp at hd

theorem scenario_no_split :
    ¬ reaches_split 0 2 [⟨0, rect_init 0 0 5 10⟩] ⟨1, rect_init 5 0 5 10⟩ := by
  rintro ⟨st, d, ds, hreach, hd, hmem⟩
  rcases scenario_reach st hreach with rfl | rfl | rfl
  · simp only [List.cons.injEq] at hd
    obtain ⟨rfl, rfl⟩ := hd
    revert hmem
    decide
  · simp only [List.cons.injEq] at hd
    obtain ⟨rfl, rfl⟩ := hd
    revert hmem
    decide
  · simp at hd

/-- C18 (as stated) fails: in the scenario of inserting `(0,0,5,10)` and then
`(5,0,5,10)` into an empty set with `accepted_error = 0`, the second insertion
never reaches the "split is required" branch: the scan for the inserted
rectangle takes the bounding-box merge branch for the pair. -/
theorem fuzzy_scenario_split_not_reached :
    ¬ (reaches_split 0 2 [⟨0, rect_init 0 0 5 10⟩] ⟨1, rect_init 5 0 5 10⟩ ∧
      (_split_fuzzy 2 [] (rect_init 0 0 5 10) (rect_init 5 0 5 10)).action =
        SPLIT_FUZZY_ACTION_MERGE) ∧
    fuzzy_scan_trace 0 (rect_init 5 0 5 10) [⟨0, rect_init 0 0 5 10⟩] =
      [fuzzy_branch.merge_outer] :=
  ⟨fun h => scenario_no_split h.1, by decide⟩

/-- C18 (amended): in the scenario of inserting `(0,0,5,10)` and then
`(5,0,5,10)` into an empty set with `accepted_error = 0`, the bounding-box
merge fires: the second insertion takes the `outer.area - area <= accepted_error`
branch for the pair (wasted area 0), re-queues the member's record holding
`(0,0,10,10)`, and never reaches the "split is required" branch, so
`_split_fuzzy` is not called (called on the pair it would return
`SPLIT_FUZZY_ACTION_MERGE`). -/
theorem fuzzy_scenario_merge_outer :
    fuzzy_scan_branch 0 (rect_init 5 0 5 10) (rect_init 0 0 5 10) = fuzzy_branch.merge_outer ∧
    (_calc_intra_outer_rect_area (rect_init 5 0 5 10) (rect_init 0 0 5 10)).2.area -
      ((rect_init 0 0 5 10).area + (rect_init 5 0 5 10).area -
        (_calc_intra_outer_rect_area (rect_init 5 0 5 10) (rect_init 0 0 5 10)).1.area) = 0 ∧
    fuzzy_step 0 [⟨0, rect_init 0 0 5 10⟩] ⟨1, rect_init 5 0 5 10⟩ [] (some 0) 2 =
      .ok { rects := [], dirty := [⟨0, rect_init 0 0 10 10⟩], old_last := none, brk := 2 } ∧
    ¬ reaches_split 0 2 [⟨0, rect_init 0 0 5 10⟩] ⟨1, rect_init 5 0 5 10⟩ ∧
    (∀ (brk : Nat) (dirty : List rect_node_t),
      (_split_fuzzy brk dirty (rect_init 0 0 5 10) (rect_init 5 0 5 10)).action =
        SPLIT_FUZZY_ACTION_MERGE) := by
  refine ⟨by decide, by decide, by decide, scenario_no_split, fun brk dirty => ?_⟩
  rw [split_fuzzy_action_merge_c]
  decide

/-! ## The machine model agrees with the reference model inside the window -/

theorem toExact_wf (r : rect_t) : r.toExact.wf ↔ r.wf := Iff.rfl

theorem toExact_wf_area (r : rect_t) : r.toExact.wf_area ↔ r.wf_area := Iff.rfl

theorem toExact_in_range (r : rect_t) : r.toExact.in_range ↔ r.in_range := Iff.rfl

theorem toExact_has (r : rect_t) (x y : Int) : r.toExact.has x y ↔ r.has x y := Iff.rfl

theorem toExact_inside (r m : rect_t) : r.toExact.inside m.toExact ↔ r.inside m := Iff.rfl

theorem toExact_left (r : rect_t) : r.toExact.left = r.left.val := rfl

theorem toExact_top (r : rect_t) : r.toExact.top = r.top.val := rfl

theorem toExact_right (r : rect_t) : r.toExact.right = r.right.val := rfl

theorem toExact_bottom (r : rect_t) : r.toExact.bottom = r.bottom.val := rfl

theorem toExact_width (r : rect_t) : r.toExact.width = r.width.val := rfl

theorem toExact_height (r : rect_t) : r.toExact.height = r.height.val := rfl

theorem toExact_area (r : rect_t) : r.toExact.area = r.area.val := rfl

theorem toExact_injective : Function.Injective rect_t.toExact := by
  intro a b h
  cases a; cases b
  simp only [rect_t.toExact, Exact.rect_t.mk.injEq] at h
  simp only [rect_t.mk.injEq, c_int.eq_iff]
  exact h

theorem toExact_inter_area (a b : rect_t) :
    Exact.inter_area a.toExact b.toExact = inter_area a b := by
  rw [Exact.inter_area_eq]
  rfl

theorem toExact_covers (L : List rect_t) (x y : Int) :
    Exact.covers (L.map rect_t.toExact) x y ↔ covers L x y := by
  simp [Exact.covers, covers, toExact_has]

theorem toExact_total_area (L : List rect_t) :
    Exact.total_area (L.map rect_t.toExact) = total_area L := by
  simp [Exact.total_area, total_area, List.map_map, Function.comp_def, rect_t.toExact]

theorem toExact_non_overlapping (L : List rect_t) :
    Exact.non_overlapping (L.map rect_t.toExact) ↔ non_overlapping L := by
  simp [Exact.non_overlapping, non_overlapping, List.pairwise_map, toExact_inter_area]

theorem toExact_overlap_bounded (e : Int) (L : List rect_t) :
    Exact.overlap_bounded e (L.map rect_t.toExact) ↔ overlap_bounded e L := by
  simp [Exact.overlap_bounded, overlap_bounded, List.pairwise_map, toExact_inter_area]

/-- `rect_init` computes exactly when its arguments are small. -/
theorem toExact_rect_init (x y w h : c_int) (hx : -10000 ≤ x.val ∧ x.val ≤ 10000)
    (hy : -10000 ≤ y.val ∧ y.val ≤ 10000) (hw : -20000 ≤ w.val ∧ w.val ≤ 20000)
    (hh : -60000 ≤ h.val ∧ h.val ≤ 60000) :
    (rect_init x y w h).toExact = Exact.rect_init x.val y.val w.val h.val := by
  have hm := Exact.mul_window w.val h.val hw.1 hw.2 hh.1 hh.2
  simp only [rect_init, Exact.rect_init, rect_t.toExact, Exact.rect_t.mk.injEq,
    c_int.val_add, c_int.val_mul, true_and, and_true]
  refine ⟨?_, ?_, ?_⟩ <;> omega

theorem toExact_intra (a b : rect_t) (ha : a.in_range) (hb : b.in_range) :
    ((_calc_intra_rect_area a b).1.val, (_calc_intra_rect_area a b).2.val) =
      Exact._calc_intra_rect_area a.toExact b.toExact := by
  obtain ⟨a1, a2, a3, a4⟩ := ha
  obtain ⟨b1, b2, b3, b4⟩ := hb
  simp only [_calc_intra_rect_area, Exact._calc_intra_rect_area, rect_t.toExact, c_int.lt_iff,
    c_int.val_sub, Prod.mk.injEq]
  constructor <;> split_ifs <;> omega

theorem toExact_intra_fst (a b : rect_t) (ha : a.in_range) (hb : b.in_range) :
    (_calc_intra_rect_area a b).1.val = (Exact._calc_intra_rect_area a.toExact b.toExact).1 := by
  rw [← toExact_intra a b ha hb]

theorem toExact_intra_snd (a b : rect_t) (ha : a.in_range) (hb : b.in_range) :
    (_calc_intra_rect_area a b).2.val = (Exact._calc_intra_rect_area a.toExact b.toExact).2 := by
  rw [← toExact_intra a b ha hb]

theorem toExact_r1 (current r : rect_t) (hr : r.wf) (hr2 : r.in_range) (hc : current.in_range) :
    (split_strict_r1 current r).toExact = Exact.split_strict_r1 current.toExact r.toExact := by
  obtain ⟨e1, e2, e3, e4⟩ := hr
  obtain ⟨a1, a2, a3, a4⟩ := hr2
  obtain ⟨b1, b2, b3, b4⟩ := hc
  simp only [split_strict_r1, Exact.split_strict_r1, gt_iff_lt, c_int.lt_iff, c_int.val_zero,
    c_int.val_sub]
  have hc1 : (current.top.val - r.top.val + 2147483648) % 4294967296 - 2147483648 =
      current.top.val - r.top.val := by omega
  rw [hc1]
  show _ = if 0 < current.top.val - r.top.val then _ else _
  split_ifs with h
  · simp only [rect_t.toExact, Exact.rect_t.mk.injEq, c_int.val_sub, true_and, and_true]
    omega
  · rfl

theorem toExact_r2 (current r : rect_t) (hr : r.wf) (hr2 : r.in_range) (hc : current.in_range) :
    (split_strict_r2 current r).toExact = Exact.split_strict_r2 current.toExact r.toExact := by
  have h1 := toExact_r1 current r hr hr2 hc
  obtain ⟨e1, e2, e3, e4⟩ := hr
  obtain ⟨a1, a2, a3, a4⟩ := hr2
  obtain ⟨b1, b2, b3, b4⟩ := hc
  have hh : (split_strict_r1 current r).height.val =
      (Exact.split_strict_r1 current.toExact r.toExact).height := by rw [← h1]; rfl
  have hb : -40000 ≤ (Exact.split_strict_r1 current.toExact r.toExact).height ∧
      (Exact.split_strict_r1 current.toExact r.toExact).height ≤ 40000 := by
    unfold Exact.split_strict_r1
    show -40000 ≤ (if current.top.val - r.top.val > 0 then _ else _ : Exact.rect_t).height ∧
      (if current.top.val - r.top.val > 0 then _ else _ : Exact.rect_t).height ≤ 40000
    split_ifs
    · show -40000 ≤ r.height.val - (current.top.val - r.top.val) ∧
        r.height.val - (current.top.val - r.top.val) ≤ 40000
      omega
    · show -40000 ≤ r.height.val ∧ r.height.val ≤ 40000
      omega
  simp only [split_strict_r2, Exact.split_strict_r2, gt_iff_lt, c_int.lt_iff, c_int.val_zero,
    c_int.val_sub]
  have hc1 : (r.bottom.val - current.bottom.val + 2147483648) % 4294967296 - 2147483648 =
      r.bottom.val - current.bottom.val := by omega
  rw [hc1]
  show _ = if 0 < r.bottom.val - current.bottom.val then _ else _
  split_ifs with h
  · rw [← h1]
    simp only [rect_t.toExact, Exact.rect_t.mk.injEq, c_int.val_sub, true_and, and_true]
    rw [hh]
    omega
  · exact h1

theorem r1_left_width (current r : rect_t) :
    (split_strict_r1 current r).left = r.left ∧ (split_strict_r1 current r).width = r.width := by
  unfold split_strict_r1; split_ifs <;> simp

theorem r2_left_width (current r : rect_t) :
    (split_strict_r2 current r).left = r.left ∧ (split_strict_r2 current r).width = r.width := by
  unfold split_strict_r2; simp only; split_ifs <;> simp [r1_left_width]

/-- The four differences `_split_strict` and `_split_fuzzy` start with. -/
theorem toExact_diffs (current r : rect_t) (hr2 : r.in_range) (hc : current.in_range) :
    (current.top - r.top).val = current.top.val - r.top.val ∧
    (r.bottom - current.bottom).val = r.bottom.val - current.bottom.val ∧
    (current.left - r.left).val = current.left.val - r.left.val ∧
    (r.right - current.right).val = r.right.val - current.right.val := by
  obtain ⟨a1, a2, a3, a4⟩ := hr2
  obtain ⟨b1, b2, b3, b4⟩ := hc
  simp only [c_int.val_sub]
  refine ⟨?_, ?_, ?_, ?_⟩ <;> omega

theorem toExact_split_strict (dirty : List rect_t) (current r : rect_t) (hr : r.wf)
    (hr2 : r.in_range) (hc : current.in_range) :
    (_split_strict dirty current r).map rect_t.toExact =
      Exact._split_strict (dirty.map rect_t.toExact) current.toExact r.toExact := by
  have h1 := toExact_r1 current r hr hr2 hc
  have h2 := toExact_r2 current r hr hr2 hc
  obtain ⟨v1, v2, v3, v4⟩ := toExact_diffs current r hr2 hc
  have w1 := r1_left_width current r
  have w2 := r2_left_width current r
  have t2 : (split_strict_r2 current r).top.val =
      (Exact.split_strict_r2 current.toExact r.toExact).top := by rw [← h2]; rfl
  have g2 : (split_strict_r2 current r).height.val =
      (Exact.split_strict_r2 current.toExact r.toExact).height := by rw [← h2]; rfl
  have l2 : (Exact.split_strict_r2 current.toExact r.toExact).left = r.left.val := by
    rw [← h2]; show (split_strict_r2 current r).left.val = _; rw [w2.1]
  have l1 : (Exact.split_strict_r1 current.toExact r.toExact).left = r.left.val := by
    rw [← h1]; show (split_strict_r1 current r).left.val = _; rw [w1.1]
  have k1 : (Exact.split_strict_r1 current.toExact r.toExact).width = r.width.val := by
    rw [← h1]; show (split_strict_r1 current r).width.val = _; rw [w1.2]
  have bt := Exact.r2_top current.toExact r.toExact
  have bh := Exact.r2_height current.toExact r.toExact
  obtain ⟨e1, e2, e3, e4⟩ := hr
  obtain ⟨a1, a2, a3, a4⟩ := hr2
  obtain ⟨b1, b2, b3, b4⟩ := hc
  have bt1 : (Exact.split_strict_r2 current.toExact r.toExact).top =
      max r.top.val current.top.val := bt
  have bh1 : (Exact.split_strict_r2 current.toExact r.toExact).height =
      r.height.val - max (current.top.val - r.top.val) 0 -
        max (r.bottom.val - current.bottom.val) 0 := bh
  have p1 : (rect_init r.left r.top r.width (current.top - r.top)).toExact =
      Exact.rect_init r.left.val r.top.val r.width.val (current.top.val - r.top.val) := by
    rw [toExact_rect_init _ _ _ _ (by omega) (by omega) (by omega) (by omega), v1]
  have p2 : (rect_init r.left current.bottom r.width (r.bottom - current.bottom)).toExact =
      Exact.rect_init r.left.val current.bottom.val r.width.val
        (r.bottom.val - current.bottom.val) := by
    rw [toExact_rect_init _ _ _ _ (by omega) (by omega) (by omega) (by omega), v2]
  have p3 : (rect_init r.left (split_strict_r2 current r).top (current.left - r.left)
      (split_strict_r2 current r).height).toExact =
      Exact.rect_init r.left.val (Exact.split_strict_r2 current.toExact r.toExact).top
        (current.left.val - r.left.val)
        (Exact.split_strict_r2 current.toExact r.toExact).height := by
    rw [toExact_rect_init _ _ _ _ (by omega) (by omega) (by omega) (by omega), v3, t2, g2]
  have p4 : (rect_init current.right (split_strict_r2 current r).top (r.right - current.right)
      (split_strict_r2 current r).height).toExact =
      Exact.rect_init current.right.val (Exact.split_strict_r2 current.toExact r.toExact).top
        (r.right.val - current.right.val)
        (Exact.split_strict_r2 current.toExact r.toExact).height := by
    rw [toExact_rect_init _ _ _ _ (by omega) (by omega) (by omega) (by omega), v4, t2, g2]
  simp only [_split_strict, Exact._split_strict, rect_list_append_xywh,
    Exact.rect_list_append_xywh, rect_list_append, Exact.rect_list_append,
    rect_list_append_node, w1.1, w1.2, w2.1, l1, l2, k1, gt_iff_lt, c_int.lt_iff,
    c_int.val_zero, v1, v2, v3, v4, toExact_left, toExact_top, toExact_right, toExact_bottom,
    toExact_width, toExact_height, apply_ite (List.map rect_t.toExact), List.map_append,
    List.map_cons, List.map_nil]
  rw [p1, p2, p3, p4]

theorem toExact_intra_conds (a b : rect_t) (w h : c_int) (ha : a.in_range) (hb : b.in_range) :
    (((_calc_intra_rect_area a b).1 = w ∧ (_calc_intra_rect_area a b).2 = h) ↔
      ((Exact._calc_intra_rect_area a.toExact b.toExact).1 = w.val ∧
        (Exact._calc_intra_rect_area a.toExact b.toExact).2 = h.val)) ∧
    (((_calc_intra_rect_area a b).1 ≤ 0 ∨ (_calc_intra_rect_area a b).2 ≤ 0) ↔
      ((Exact._calc_intra_rect_area a.toExact b.toExact).1 ≤ 0 ∨
        (Exact._calc_intra_rect_area a.toExact b.toExact).2 ≤ 0)) := by
  rw [c_int.eq_iff, c_int.eq_iff, c_int.le_iff, c_int.le_iff, toExact_intra_fst a b ha hb,
    toExact_intra_snd a b ha hb, c_int.val_zero]
  exact ⟨Iff.rfl, Iff.rfl⟩

theorem toExact_add_inner (current : rect_t) (hc : current.in_range) :
    ∀ (D nd : List rect_t), (∀ f ∈ D, f.wf ∧ f.in_range) →
      (add_split_strict_inner current D nd).map rect_t.toExact =
        Exact.add_split_strict_inner current.toExact (D.map rect_t.toExact)
          (nd.map rect_t.toExact) := by
  intro D
  induction D with
  | nil => intro nd _; rfl
  | cons r D ih =>
    intro nd hD
    have hr := hD r (List.mem_cons_self _ _)
    have hD1 : ∀ f ∈ D, f.wf ∧ f.in_range := fun f hf => hD f (List.mem_cons_of_mem _ hf)
    obtain ⟨c1, c2⟩ := toExact_intra_conds r current r.width r.height hr.2 hc
    simp only [add_split_strict_inner, Exact.add_split_strict_inner, List.map_cons, c1, c2,
      toExact_width, toExact_height]
    split_ifs
    · exact ih nd hD1
    · rw [ih _ hD1]
      simp [rect_list_append_node]
    · rw [ih _ hD1, toExact_split_strict nd current r hr.1 hr.2 hc]

theorem add_inner_window (current : rect_t) (hc : current.in_range) (D : List rect_t)
    (hD : ∀ f ∈ D, f.wf ∧ f.in_range) :
    ∀ s ∈ add_split_strict_inner current D [], s.wf ∧ s.in_range := by
  intro s hs
  have hmem : s.toExact ∈ Exact.add_split_strict_inner current.toExact
      (D.map rect_t.toExact) [] := by
    have := toExact_add_inner current hc D [] hD
    rw [List.map_nil] at this
    rw [← this]
    exact List.mem_map_of_mem _ hs
  have hDx : ∀ f ∈ D.map rect_t.toExact, f.wf := by
    intro f hf
    obtain ⟨g, hg, rfl⟩ := List.mem_map.1 hf
    exact (hD g hg).1
  obtain ⟨h1, f, hf, h2⟩ := Exact.add_inner_wf current.toExact _ hDx _ hmem
  obtain ⟨g, hg, rfl⟩ := List.mem_map.1 hf
  exact ⟨h1, Exact.in_range_of_inside _ _ h1 h2 (hD g hg).2⟩

theorem toExact_add_outer :
    ∀ (rects D : List rect_t), (∀ m ∈ rects, m.in_range) → (∀ f ∈ D, f.wf ∧ f.in_range) →
      (add_split_strict_outer rects D).map rect_t.toExact =
        Exact.add_split_strict_outer (rects.map rect_t.toExact) (D.map rect_t.toExact) := by
  intro rects
  induction rects with
  | nil =>
    intro D _ _
    cases D <;> rfl
  | cons current rest ih =>
    intro D hR hD
    cases D with
    | nil => rfl
    | cons r D =>
      have hc := hR current (List.mem_cons_self _ _)
      have h1 := toExact_add_inner current hc (r :: D) [] hD
      simp only [add_split_strict_outer, Exact.add_split_strict_outer, List.map_cons]
      rw [ih _ (fun m hm => hR m (List.mem_cons_of_mem _ hm))
        (add_inner_window current hc (r :: D) hD), h1]
      rfl

theorem toExact_add_strict (S : List rect_t) (r : rect_t) (hS : ∀ m ∈ S, m.in_range)
    (hr : r.wf ∧ r.in_range) :
    (rect_list_add_split_strict S r).map rect_t.toExact =
      Exact.rect_list_add_split_strict (S.map rect_t.toExact) r.toExact := by
  cases S with
  | nil => rfl
  | cons m S =>
    have h := toExact_add_outer (m :: S) [r] hS (by simpa using hr)
    simp only [rect_list_add_split_strict, Exact.rect_list_add_split_strict, List.map_cons,
      rect_list_append_node, List.nil_append, Exact.rect_list_concat_eq]
    rw [List.map_append]
    exact congrArg _ h

theorem toExact_del_loop (d : rect_t) (hd : d.in_range) :
    ∀ (rects kept modified : List rect_t), (∀ m ∈ rects, m.wf ∧ m.in_range) →
      ((del_split_strict_loop d rects kept modified).1.map rect_t.toExact,
        (del_split_strict_loop d rects kept modified).2.map rect_t.toExact) =
      Exact.del_split_strict_loop d.toExact (rects.map rect_t.toExact)
        (kept.map rect_t.toExact) (modified.map rect_t.toExact) := by
  intro rects
  induction rects with
  | nil => intro kept modified _; rfl
  | cons c rects ih =>
    intro kept modified hR
    have hc := hR c (List.mem_cons_self _ _)
    have hR1 : ∀ m ∈ rects, m.wf ∧ m.in_range := fun m hm => hR m (List.mem_cons_of_mem _ hm)
    obtain ⟨c1, c2⟩ := toExact_intra_conds d c c.width c.height hd hc.2
    simp only [del_split_strict_loop, Exact.del_split_strict_loop, List.map_cons, c1, c2,
      toExact_width, toExact_height]
    split_ifs
    · rw [ih _ _ hR1]
      simp
    · exact ih _ _ hR1
    · rw [ih _ _ hR1, toExact_split_strict modified d c hc.1 hc.2 hd]

theorem toExact_del_strict (S : List rect_t) (d : rect_t) (hS : ∀ m ∈ S, m.wf ∧ m.in_range)
    (hd : d.in_range) :
    (rect_list_del_split_strict S d).map rect_t.toExact =
      Exact.rect_list_del_split_strict (S.map rect_t.toExact) d.toExact := by
  have h := toExact_del_loop d hd S [] [] hS
  simp only [List.map_nil] at h
  simp only [rect_list_del_split_strict, Exact.rect_list_del_split_strict,
    Exact.rect_list_concat_eq, ← h, ← List.map_append]

theorem mem_map_toExact (L : List rect_t) (P : Exact.rect_t → Prop)
    (h : ∀ m ∈ L, P m.toExact) : ∀ f ∈ L.map rect_t.toExact, P f := by
  intro f hf
  obtain ⟨g, hg, rfl⟩ := List.mem_map.1 hf
  exact h g hg

theorem add_strict_window (S : List rect_t) (r : rect_t) (hS : ∀ m ∈ S, m.wf ∧ m.in_range)
    (hr : r.wf ∧ r.in_range) : ∀ m ∈ rect_list_add_split_strict S r, m.wf ∧ m.in_range := by
  intro m hm
  have hmem : m.toExact ∈ Exact.rect_list_add_split_strict (S.map rect_t.toExact) r.toExact := by
    rw [← toExact_add_strict S r (fun m hm => (hS m hm).2) hr]
    exact List.mem_map_of_mem _ hm
  rw [Exact.add_strict_eq, List.mem_append] at hmem
  rcases hmem with h | h
  · obtain ⟨g, hg, e⟩ := List.mem_map.1 h
    rw [toExact_injective e] at hg
    exact hS m hg
  · obtain ⟨h1, f, hf, h2⟩ := Exact.add_outer_wf _ [r.toExact] (by simpa using hr.1) _ h
    simp only [List.mem_singleton] at hf
    subst hf
    exact ⟨h1, Exact.in_range_of_inside _ _ h1 h2 hr.2⟩

theorem del_strict_window (S : List rect_t) (d : rect_t) (hS : ∀ m ∈ S, m.wf ∧ m.in_range)
    (hd : d.in_range) : ∀ m ∈ rect_list_del_split_strict S d, m.wf ∧ m.in_range := by
  intro m hm
  have hmem : m.toExact ∈ Exact.rect_list_del_split_strict (S.map rect_t.toExact) d.toExact := by
    rw [← toExact_del_strict S d hS hd]
    exact List.mem_map_of_mem _ hm
  obtain ⟨f, hf, h⟩ := Exact.del_strict_mem _ _ _ hmem
  obtain ⟨g, hg, rfl⟩ := List.mem_map.1 hf
  obtain ⟨h1, h2, _, _⟩ := Exact.del_piece_wf d.toExact g.toExact m.toExact (hS g hg).1 h
  exact ⟨h1, Exact.in_range_of_inside _ _ h1 h2 (hS g hg).2⟩

theorem toExact_run_strict_ops (ops : List strict_op)
    (hops : ∀ op ∈ ops, op.rect.wf ∧ op.rect.in_range) :
    ∀ A : List rect_t, (∀ m ∈ A, m.wf ∧ m.in_range) →
      (ops.foldl apply_strict_op A).map rect_t.toExact =
        (ops.map strict_op.toExact).foldl Exact.apply_strict_op (A.map rect_t.toExact) := by
  induction ops with
  | nil => intro A _; rfl
  | cons op ops ih =>
    intro A hA
    have hop := hops op (List.mem_cons_self _ _)
    have hops1 : ∀ o ∈ ops, o.rect.wf ∧ o.rect.in_range :=
      fun o ho => hops o (List.mem_cons_of_mem _ ho)
    simp only [List.foldl_cons, List.map_cons]
    cases op with
    | insert r =>
      simp only [apply_strict_op, Exact.apply_strict_op, strict_op.toExact]
      rw [ih hops1 _ (add_strict_window A r hA hop),
        toExact_add_strict A r (fun m hm => (hA m hm).2) hop]
    | delete r =>
      simp only [apply_strict_op, Exact.apply_strict_op, strict_op.toExact]
      rw [ih hops1 _ (del_strict_window A r hA hop.2), toExact_del_strict A r hA hop.2]

/-! ## Strict insertion and deletion -/

/-- C1 (as stated) fails where `int` overflows: with the member
`(-2147483648,0,1,1)` and the inserted rectangle `(2147483646,0,1,1)` the
intersection width wraps to 3, `_split_strict` appends a strip whose right edge
wraps to -2147483648, and the point `(2147483646, 0)` of the inserted rectangle
lies in no member of the result. -/
theorem add_split_strict_retiles_overflow :
    (∀ m ∈ [rect_init (-2147483648) 0 1 1], m.wf) ∧ (rect_init 2147483646 0 1 1).wf ∧
    (rect_init 2147483646 0 1 1).has 2147483646 0 ∧
    ¬ covers (rect_list_add_split_strict [rect_init (-2147483648) 0 1 1]
        (rect_init 2147483646 0 1 1)) 2147483646 0 := by
  decide

/-- C1 (amended): strict insertion re-tiles exactly as long as no `int`
overflows: for well-formed rectangles whose edges lie in `[-10000, 10000]`, a
point lies in some member of the result of `rect_list_add_split_strict` iff it
lies in some member of the original set or in the inserted rectangle. -/
theorem add_split_strict_retiles (S : List rect_t) (r : rect_t)
    (hS : ∀ m ∈ S, m.wf ∧ m.in_range) (hr : r.wf ∧ r.in_range) (x y : Int) :
    covers (rect_list_add_split_strict S r) x y ↔ covers S x y ∨ r.has x y := by
  rw [← toExact_covers, toExact_add_strict S r (fun m hm => (hS m hm).2) hr,
    Exact.exact_add_split_strict_retiles (S.map rect_t.toExact) r.toExact
      (mem_map_toExact S _ (fun m hm => (hS m hm).1)) hr.1,
    toExact_covers, toExact_has]

theorem add_split_strict_retiles_witness :
    (covers (rect_list_add_split_strict [rect_init 0 0 10 10] (rect_init 5 5 10 10)) 12 12 ↔
      covers [rect_init 0 0 10 10] 12 12 ∨ (rect_init 5 5 10 10).has 12 12) ∧
    (rect_init 5 5 10 10).has 12 12 :=
  ⟨add_split_strict_retiles [rect_init 0 0 10 10] (rect_init 5 5 10 10) (by decide) (by decide)
    12 12, by decide⟩

/-- C2 (as stated) fails where `int` overflows: deleting `(-2147483648,0,1,1)`
from the set `{(2147483646,0,1,1)}` finds a wrapped intersection width of 3,
replaces the disjoint member by a strip whose right edge wraps to -2147483648,
and the point `(2147483646, 0)`, which is not in the deleted rectangle, is
lost. -/
theorem del_split_strict_exact_overflow :
    (∀ m ∈ [rect_init 2147483646 0 1 1], m.wf) ∧ (rect_init (-2147483648) 0 1 1).wf ∧
    covers [rect_init 2147483646 0 1 1] 2147483646 0 ∧
    ¬ (rect_init (-2147483648) 0 1 1).has 2147483646 0 ∧
    ¬ covers (rect_list_del_split_strict [rect_init 2147483646 0 1 1]
        (rect_init (-2147483648) 0 1 1)) 2147483646 0 := by
  decide

/-- C2 (amended): strict deletion removes exactly the deleted area as long as
no `int` overflows: for well-formed rectangles whose edges lie in
`[-10000, 10000]`, a point lies in some member of the result of
`rect_list_del_split_strict` iff it lies in some member of the original set and
not in the deleted rectangle, and every member of the result has intersection
area 0 with the deleted rectangle. -/
theorem del_split_strict_exact (S : List rect_t) (d : rect_t)
    (hS : ∀ m ∈ S, m.wf ∧ m.in_range) (hd : d.wf ∧ d.in_range) :
    (∀ x y, covers (rect_list_del_split_strict S d) x y ↔ covers S x y ∧ ¬ d.has x y) ∧
    (∀ s ∈ rect_list_del_split_strict S d, inter_area s d = 0 ∧ inter_area d s = 0) := by
  obtain ⟨h1, h2⟩ := Exact.exact_del_split_strict_exact (S.map rect_t.toExact) d.toExact
    (mem_map_toExact S _ (fun m hm => (hS m hm).1)) hd.1
  rw [← toExact_del_strict S d hS hd.2] at h1 h2
  constructor
  · intro x y
    rw [← toExact_covers, h1 x y, toExact_covers, toExact_has]
  · intro s hs
    rw [← toExact_inter_area, ← toExact_inter_area]
    exact h2 _ (List.mem_map_of_mem _ hs)

theorem del_split_strict_exact_witness :
    (covers (rect_list_del_split_strict [rect_init 0 0 10 10] (rect_init 2 2 4 4)) 1 1 ↔
      covers [rect_init 0 0 10 10] 1 1 ∧ ¬ (rect_init 2 2 4 4).has 1 1) ∧
    covers [rect_init 0 0 10 10] 1 1 :=
  ⟨(del_split_strict_exact [rect_init 0 0 10 10] (rect_init 2 2 4 4) (by decide)
    (by decide)).1 1 1, by decide⟩

/-- C3 (as stated) fails where `int` overflows: deleting
`(10,-2147483646,2,1)` from the well-formed, non-overlapping set
`{(0,5,2147483647,1), (10,-10,5,1)}` leaves members that overlap. -/
theorem strict_non_overlap_invariant_overflow :
    (∀ m ∈ [rect_init 0 5 2147483647 1, rect_init 10 (-10) 5 1], m.wf) ∧
    (rect_init 10 (-2147483646) 2 1).wf ∧
    non_overlapping [rect_init 0 5 2147483647 1, rect_init 10 (-10) 5 1] ∧
    ¬ non_overlapping (rect_list_del_split_strict
        [rect_init 0 5 2147483647 1, rect_init 10 (-10) 5 1]
        (rect_init 10 (-2147483646) 2 1)) := by
  decide

/-- C3 (amended): strict non-overlap is an invariant of both strict operations
as long as no `int` overflows: a set of well-formed rectangles with edges in
`[-10000, 10000]` whose distinct members have intersection area 0 keeps that
property under `rect_list_add_split_strict` and under
`rect_list_del_split_strict` with such a rectangle, and so does every set built
from the empty set by these two operations with such rectangles. -/
theorem strict_non_overlap_invariant (S : List rect_t) (r : rect_t) (ops : List strict_op)
    (hS : ∀ m ∈ S, m.wf ∧ m.in_range) (hr : r.wf ∧ r.in_range) (hP : non_overlapping S)
    (hops : ∀ op ∈ ops, op.rect.wf ∧ op.rect.in_range) :
    non_overlapping (rect_list_add_split_strict S r) ∧
    non_overlapping (rect_list_del_split_strict S r) ∧
    non_overlapping (run_strict_ops ops) := by
  have hopsx : ∀ op ∈ ops.map strict_op.toExact, op.rect.wf := by
    intro op hop
    obtain ⟨o, ho, rfl⟩ := List.mem_map.1 hop
    cases o <;> exact (hops _ ho).1
  obtain ⟨h1, h2, h3⟩ := Exact.exact_strict_non_overlap_invariant (S.map rect_t.toExact)
    r.toExact (ops.map strict_op.toExact) (mem_map_toExact S _ (fun m hm => (hS m hm).1)) hr.1
    ((toExact_non_overlapping S).2 hP) hopsx
  rw [← toExact_add_strict S r (fun m hm => (hS m hm).2) hr, toExact_non_overlapping] at h1
  rw [← toExact_del_strict S r hS hr.2, toExact_non_overlapping] at h2
  refine ⟨h1, h2, ?_⟩
  have h4 := toExact_run_strict_ops ops hops [] (by simp)
  rw [← toExact_non_overlapping]
  unfold run_strict_ops
  rw [h4]
  exact h3

theorem strict_non_overlap_invariant_witness :
    non_overlapping (rect_list_add_split_strict [rect_init 0 0 10 10] (rect_init 5 5 10 10)) ∧
    non_overlapping (rect_list_del_split_strict [rect_init 0 0 10 10] (rect_init 5 5 10 10)) ∧
    non_overlapping (run_strict_ops [.insert (rect_init 0 0 10 10),
      .insert (rect_init 5 5 10 10), .delete (rect_init 2 2 4 4)]) :=
  strict_non_overlap_invariant [rect_init 0 0 10 10] (rect_init 5 5 10 10)
    [.insert (rect_init 0 0 10 10), .insert (rect_init 5 5 10 10), .delete (rect_init 2 2 4 4)]
    (by decide) (by decide) (by decide) (by
      intro op hop
      simp only [List.mem_cons, List.mem_singleton, List.not_mem_nil, or_false] at hop
      rcases hop with rfl | rfl | rfl <;> decide)

/-- C4 (as stated) fails where `int` overflows: inserting `(2147483646,0,1,1)`
into `{(-2147483648,0,1,1)}` (the two do not intersect) leaves members of total
area 3, not `1 + 1 - 0 = 2`. -/
theorem add_split_strict_area_overflow :
    (∀ m ∈ [rect_init (-2147483648) 0 1 1], m.wf_area) ∧
    non_overlapping [rect_init (-2147483648) 0 1 1] ∧ (rect_init 2147483646 0 1 1).wf_area ∧
    total_area (rect_list_add_split_strict [rect_init (-2147483648) 0 1 1]
      (rect_init 2147483646 0 1 1)) = 3 ∧
    total_area [rect_init (-2147483648) 0 1 1] + (rect_init 2147483646 0 1 1).area.val -
      ([rect_init (-2147483648) 0 1 1].map
        (fun m => inter_area (rect_init 2147483646 0 1 1) m)).sum = 2 := by
  decide

/-- C4 (amended): area conservation on strict insert as long as no `int`
overflows: for a set of well-formed (cached area included), pairwise
non-overlapping rectangles and a well-formed rectangle `r`, all with edges in
`[-10000, 10000]`, the sum of member areas after `rect_list_add_split_strict`
equals the sum before plus `r.area` minus the sum over the members of the
intersection area of `r` and the member. -/
theorem add_split_strict_area (S : List rect_t) (r : rect_t)
    (hS : ∀ m ∈ S, m.wf_area ∧ m.in_range) (hP : non_overlapping S)
    (hr : r.wf_area ∧ r.in_range) :
    total_area (rect_list_add_split_strict S r) =
      total_area S + r.area.val - (S.map (fun m => inter_area r m)).sum := by
  have h := Exact.exact_add_split_strict_area (S.map rect_t.toExact) r.toExact
    (mem_map_toExact S _ (fun m hm => (hS m hm).1)) ((toExact_non_overlapping S).2 hP) hr.1
  rw [← toExact_add_strict S r (fun m hm => (hS m hm).2) ⟨hr.1.1, hr.2⟩, toExact_total_area,
    toExact_total_area, List.map_map] at h
  rw [h]
  simp only [Function.comp_def, toExact_inter_area, toExact_area]

theorem add_split_strict_area_witness :
    total_area (rect_list_add_split_strict [rect_init 0 0 10 10] (rect_init 5 5 10 10)) =
      total_area [rect_init 0 0 10 10] + (rect_init 5 5 10 10).area.val -
        ([rect_init 0 0 10 10].map (fun m => inter_area (rect_init 5 5 10 10) m)).sum :=
  add_split_strict_area [rect_init 0 0 10 10] (rect_init 5 5 10 10) (by decide) (by decide)
    (by decide)

/-- C5 (as stated) fails where `int` overflows: deleting `(-2147483648,0,1,1)`
from `{(2147483646,0,1,1)}` (the two do not intersect) leaves members of total
area 2, not `1 - 0 = 1`. -/
theorem del_split_strict_area_overflow :
    (∀ m ∈ [rect_init 2147483646 0 1 1], m.wf_area) ∧
    non_overlapping [rect_init 2147483646 0 1 1] ∧ (rect_init (-2147483648) 0 1 1).wf_area ∧
    total_area (rect_list_del_split_strict [rect_init 2147483646 0 1 1]
      (rect_init (-2147483648) 0 1 1)) = 2 ∧
    total_area [rect_init 2147483646 0 1 1] -
      ([rect_init 2147483646 0 1 1].map
        (fun m => inter_area (rect_init (-2147483648) 0 1 1) m)).sum = 1 := by
  decide

/-- C5 (amended): area conservation on strict delete as long as no `int`
overflows: for a set of well-formed (cached area included), pairwise
non-overlapping rectangles and a well-formed rectangle `d`, all with edges in
`[-10000, 10000]`, the sum of member areas after `rect_list_del_split_strict`
equals the sum before minus the sum over the members of the intersection area
of `d` and the member. -/
theorem del_split_strict_area (S : List rect_t) (d : rect_t)
    (hS : ∀ m ∈ S, m.wf_area ∧ m.in_range) (hP : non_overlapping S)
    (hd : d.wf_area ∧ d.in_range) :
    total_area (rect_list_del_split_strict S d) =
      total_area S - (S.map (fun m => inter_area d m)).sum := by
  have h := Exact.exact_del_split_strict_area (S.map rect_t.toExact) d.toExact
    (mem_map_toExact S _ (fun m hm => (hS m hm).1)) ((toExact_non_overlapping S).2 hP) hd.1
  rw [← toExact_del_strict S d (fun m hm => ⟨(hS m hm).1.1, (hS m hm).2⟩) hd.2,
    toExact_total_area, toExact_total_area, List.map_map] at h
  rw [h]
  simp only [Function.comp_def, toExact_inter_area]

theorem del_split_strict_area_witness :
    total_area (rect_list_del_split_strict [rect_init 0 0 10 10] (rect_init 2 2 4 4)) =
      total_area [rect_init 0 0 10 10] -
        ([rect_init 0 0 10 10].map (fun m => inter_area (rect_init 2 2 4 4) m)).sum :=
  del_split_strict_area [rect_init 0 0 10 10] (rect_init 2 2 4 4) (by decide) (by decide)
    (by decide)

/-- C6 (as stated) fails where `int` overflows: `(-2147483646,-2147483647,1,1)`
is fully contained in the second member of the set
`{(2147483642,1073741824,5,5), (-2147483646,-2147483648,5,2)}`, but the
intersection with the first member wraps to a positive size, the rectangle is
split against it and a strip is appended, so the set changes. -/
theorem add_split_strict_contained_overflow :
    (∀ m ∈ [rect_init 2147483642 1073741824 5 5, rect_init (-2147483646) (-2147483648) 5 2],
      m.wf) ∧
    (rect_init (-2147483646) (-2147483647) 1 1).wf ∧
    (∃ m ∈ [rect_init 2147483642 1073741824 5 5, rect_init (-2147483646) (-2147483648) 5 2],
      (rect_init (-2147483646) (-2147483647) 1 1).inside m) ∧
    rect_list_add_split_strict
        [rect_init 2147483642 1073741824 5 5, rect_init (-2147483646) (-2147483648) 5 2]
        (rect_init (-2147483646) (-2147483647) 1 1) ≠
      [rect_init 2147483642 1073741824 5 5, rect_init (-2147483646) (-2147483648) 5 2] := by
  decide

/-- C6 (amended): idempotent containment as long as no `int` overflows:
inserting with `rect_list_add_split_strict` a well-formed rectangle that is
fully contained in some member of a set of well-formed rectangles, all with
edges in `[-10000, 10000]`, leaves the set unchanged (same members, same
geometry, same order). -/
theorem add_split_strict_contained (S : List rect_t) (r : rect_t)
    (hS : ∀ m ∈ S, m.wf ∧ m.in_range) (hr : r.wf ∧ r.in_range) (h : ∃ m ∈ S, r.inside m) :
    rect_list_add_split_strict S r = S := by
  obtain ⟨m, hm, hin⟩ := h
  have hx := Exact.exact_add_split_strict_contained (S.map rect_t.toExact) r.toExact
    (mem_map_toExact S _ (fun m hm => (hS m hm).1)) hr.1
    ⟨m.toExact, List.mem_map_of_mem _ hm, hin⟩
  rw [← toExact_add_strict S r (fun m hm => (hS m hm).2) hr] at hx
  exact List.map_injective_iff.2 toExact_injective hx

theorem add_split_strict_contained_witness :
    rect_list_add_split_strict [rect_init 0 0 10 10, rect_init 20 0 10 10]
      (rect_init 22 3 4 4) = [rect_init 0 0 10 10, rect_init 20 0 10 10] :=
  add_split_strict_contained [rect_init 0 0 10 10, rect_init 20 0 10 10] (rect_init 22 3 4 4)
    (by decide) (by decide) (by decide)

/-! ## The fuzzy and merge routines inside the window -/

theorem toExact_split_fuzzy (brk : Nat) (dirty : List rect_node_t) (a b : rect_t) (hb : b.wf)
    (hb2 : b.in_range) (ha : a.in_range) :
    (_split_fuzzy brk dirty a b).toExact =
      Exact._split_fuzzy brk (dirty.map rect_node_t.toExact) a.toExact b.toExact := by
  obtain ⟨v1, v2, v3, v4⟩ := toExact_diffs a b hb2 ha
  obtain ⟨e1, e2, e3, e4⟩ := hb
  obtain ⟨a1, a2, a3, a4⟩ := hb2
  obtain ⟨b1, b2, b3, b4⟩ := ha
  have ah1 := a.height.lo
  have ah2 := a.height.hi
  have q1 : (b.height - (a.top - b.top)).val = b.height.val - (a.top.val - b.top.val) := by
    rw [c_int.val_sub, v1]; omega
  have q2 : (b.height - (b.bottom - a.bottom)).val =
      b.height.val - (b.bottom.val - a.bottom.val) := by
    rw [c_int.val_sub, v2]; omega
  have q3 : (b.height - (a.top - b.top) - (b.bottom - a.bottom)).val =
      b.height.val - (a.top.val - b.top.val) - (b.bottom.val - a.bottom.val) := by
    rw [c_int.val_sub, q1, v2]; omega
  have p1 : (rect_init b.left b.top b.width (a.top - b.top)).toExact =
      Exact.rect_init b.left.val b.top.val b.width.val (a.top.val - b.top.val) := by
    rw [toExact_rect_init _ _ _ _ (by omega) (by omega) (by omega) (by omega), v1]
  have p2 : (rect_init b.left a.bottom b.width (b.bottom - a.bottom)).toExact =
      Exact.rect_init b.left.val a.bottom.val b.width.val (b.bottom.val - a.bottom.val) := by
    rw [toExact_rect_init _ _ _ _ (by omega) (by omega) (by omega) (by omega), v2]
  have p3 : ∀ (t h : c_int), -10000 ≤ t.val → t.val ≤ 10000 → -60000 ≤ h.val → h.val ≤ 60000 →
      (rect_init b.left t (a.left - b.left) h).toExact =
        Exact.rect_init b.left.val t.val (a.left.val - b.left.val) h.val := by
    intro t h t1 t2 h1 h2
    rw [toExact_rect_init _ _ _ _ (by omega) (by omega) (by omega) (by omega), v3]
  have p4 : ∀ (t h : c_int), -10000 ≤ t.val → t.val ≤ 10000 → -60000 ≤ h.val → h.val ≤ 60000 →
      (rect_init a.right t (b.right - a.right) h).toExact =
        Exact.rect_init a.right.val t.val (b.right.val - a.right.val) h.val := by
    intro t h t1 t2 h1 h2
    rw [toExact_rect_init _ _ _ _ (by omega) (by omega) (by omega) (by omega), v4]
  simp only [_split_fuzzy, Exact._split_fuzzy, gt_iff_lt, c_int.lt_iff, c_int.val_zero, v1, v2,
    v3, v4, toExact_left, toExact_top, toExact_right, toExact_bottom, toExact_width,
    toExact_height]
  by_cases c1 : 0 < a.top.val - b.top.val <;> by_cases c2 : 0 < b.bottom.val - a.bottom.val <;>
    simp only [c1, c2, if_true, if_false, c_int.eq_iff, q1, q2, q3, toExact_left, toExact_top,
      toExact_right, toExact_bottom, toExact_width, toExact_height, toExact_area]
  all_goals
    split_ifs <;>
    simp only [split_fuzzy_state.toExact, rect_list_append_xywh_heap,
      Exact.rect_list_append_xywh_heap, rect_list_append_node, rect_node_t.toExact,
      List.map_append, List.map_cons, List.map_nil, p1, p2] <;>
    (try rw [p3 _ _ (by omega) (by omega) (by omega) (by omega)]) <;>
    (try rw [p4 _ _ (by omega) (by omega) (by omega) (by omega)]) <;>
    (try simp only [rect_t.toExact, q1, q2, q3])

/-- The intra rectangle of `_calc_intra_outer_rect_area`, built from its four edges. -/
theorem toExact_mk_intra (l r t bt : c_int) (hl : -10000 ≤ l.val ∧ l.val ≤ 10000)
    (hr : -10000 ≤ r.val ∧ r.val ≤ 10000) (ht : -10000 ≤ t.val ∧ t.val ≤ 10000)
    (hb : -10000 ≤ bt.val ∧ bt.val ≤ 10000) :
    ({ left := l, right := r, width := r - l, top := t, bottom := bt, height := bt - t,
       area := if r - l > 0 ∧ bt - t > 0 then (r - l) * (bt - t) else 0 } : rect_t).toExact =
      { left := l.val, right := r.val, width := r.val - l.val, top := t.val, bottom := bt.val,
        height := bt.val - t.val,
        area := if r.val - l.val > 0 ∧ bt.val - t.val > 0 then
          (r.val - l.val) * (bt.val - t.val) else 0 } := by
  have d1 : (r - l).val = r.val - l.val := by rw [c_int.val_sub]; omega
  have d2 : (bt - t).val = bt.val - t.val := by rw [c_int.val_sub]; omega
  have hm := Exact.mul_window_small (r.val - l.val) (bt.val - t.val) (by omega) (by omega) (by omega)
    (by omega)
  have d3 : ((r - l) * (bt - t)).val = (r.val - l.val) * (bt.val - t.val) := by
    rw [c_int.val_mul, d1, d2]; omega
  simp only [rect_t.toExact, Exact.rect_t.mk.injEq, d1, d2, gt_iff_lt, c_int.lt_iff,
    c_int.val_zero, true_and, and_true, apply_ite c_int.val, d3]

/-- The outer rectangle of `_calc_intra_outer_rect_area`, built from its four edges. -/
theorem toExact_mk_outer (l r t bt : c_int) (hl : -10000 ≤ l.val ∧ l.val ≤ 10000)
    (hr : -10000 ≤ r.val ∧ r.val ≤ 10000) (ht : -10000 ≤ t.val ∧ t.val ≤ 10000)
    (hb : -10000 ≤ bt.val ∧ bt.val ≤ 10000) :
    ({ left := l, right := r, width := r - l, top := t, bottom := bt, height := bt - t,
       area := (r - l) * (bt - t) } : rect_t).toExact =
      { left := l.val, right := r.val, width := r.val - l.val, top := t.val, bottom := bt.val,
        height := bt.val - t.val, area := (r.val - l.val) * (bt.val - t.val) } := by
  have d1 : (r - l).val = r.val - l.val := by rw [c_int.val_sub]; omega
  have d2 : (bt - t).val = bt.val - t.val := by rw [c_int.val_sub]; omega
  have hm := Exact.mul_window_small (r.val - l.val) (bt.val - t.val) (by omega) (by omega) (by omega)
    (by omega)
  have d3 : ((r - l) * (bt - t)).val = (r.val - l.val) * (bt.val - t.val) := by
    rw [c_int.val_mul, d1, d2]; omega
  simp only [rect_t.toExact, Exact.rect_t.mk.injEq, d1, d2, true_and, and_true, d3]

theorem toExact_intra_outer (a b : rect_t) (ha : a.in_range) (hb : b.in_range) :
    (_calc_intra_outer_rect_area a b).1.toExact =
      (Exact._calc_intra_outer_rect_area a.toExact b.toExact).1 ∧
    (_calc_intra_outer_rect_area a b).2.toExact =
      (Exact._calc_intra_outer_rect_area a.toExact b.toExact).2 := by
  obtain ⟨a1, a2, a3, a4⟩ := ha
  obtain ⟨b1, b2, b3, b4⟩ := hb
  simp only [_calc_intra_outer_rect_area, Exact._calc_intra_outer_rect_area, c_int.lt_iff,
    toExact_left, toExact_top, toExact_right, toExact_bottom]
  by_cases c1 : a.left.val < b.left.val <;> by_cases c2 : a.right.val < b.right.val <;>
    by_cases c3 : a.top.val < b.top.val <;> by_cases c4 : a.bottom.val < b.bottom.val <;>
    simp only [c1, c2, c3, c4, if_true, if_false] <;>
    exact ⟨toExact_mk_intra _ _ _ _ (by omega) (by omega) (by omega) (by omega),
      toExact_mk_outer _ _ _ _ (by omega) (by omega) (by omega) (by omega)⟩

theorem toExact_outer (a b : rect_t) (ha : a.in_range) (hb : b.in_range) :
    (_calc_outer_rect_area a b).toExact = Exact._calc_outer_rect_area a.toExact b.toExact :=
  (toExact_intra_outer a b ha hb).2

theorem last_addr_toExact (l : List rect_node_t) :
    Exact.last_addr (l.map rect_node_t.toExact) = last_addr l := by
  simp only [Exact.last_addr, last_addr, List.getLast?_map, Option.map_map]
  rfl

theorem update_old_last_toExact (old_last : Option Nat) (before : List rect_node_t)
    (c : rect_node_t) (cx : Exact.rect_node_t) (h : cx.addr = c.addr) :
    Exact.update_old_last old_last (before.map rect_node_t.toExact) cx =
      update_old_last old_last before c := by
  simp only [Exact.update_old_last, update_old_last, last_addr_toExact, h]

/-- The four tests of the inner loop of `rect_list_add_split_fuzzy` agree in both models. -/
theorem toExact_scan_conds (e : c_int) (r current : rect_t) (hr : r.wf_area ∧ r.in_range)
    (hc : current.wf_area ∧ current.in_range) :
    (((_calc_intra_outer_rect_area r current).1.width = r.width ∧
        (_calc_intra_outer_rect_area r current).1.height = r.height) ↔
      ((Exact._calc_intra_outer_rect_area r.toExact current.toExact).1.width = r.width.val ∧
        (Exact._calc_intra_outer_rect_area r.toExact current.toExact).1.height =
          r.height.val)) ∧
    (((_calc_intra_outer_rect_area r current).1.width = current.width ∧
        (_calc_intra_outer_rect_area r current).1.height = current.height) ↔
      ((Exact._calc_intra_outer_rect_area r.toExact current.toExact).1.width =
          current.width.val ∧
        (Exact._calc_intra_outer_rect_area r.toExact current.toExact).1.height =
          current.height.val)) ∧
    (((_calc_intra_outer_rect_area r current).2.area -
        (current.area + r.area - (_calc_intra_outer_rect_area r current).1.area) ≤ e) ↔
      ((Exact._calc_intra_outer_rect_area r.toExact current.toExact).2.area -
        (current.area.val + r.area.val -
          (Exact._calc_intra_outer_rect_area r.toExact current.toExact).1.area) ≤ e.val)) ∧
    (((_calc_intra_outer_rect_area r current).1.area ≤ e) ↔
      ((Exact._calc_intra_outer_rect_area r.toExact current.toExact).1.area ≤ e.val)) := by
  obtain ⟨i1, i2⟩ := toExact_intra_outer r current hr.2 hc.2
  have w1 : (_calc_intra_outer_rect_area r current).1.width.val =
      (Exact._calc_intra_outer_rect_area r.toExact current.toExact).1.width := by
    rw [← i1]; rfl
  have w2 : (_calc_intra_outer_rect_area r current).1.height.val =
      (Exact._calc_intra_outer_rect_area r.toExact current.toExact).1.height := by
    rw [← i1]; rfl
  have w3 : (_calc_intra_outer_rect_area r current).1.area.val =
      (Exact._calc_intra_outer_rect_area r.toExact current.toExact).1.area := by
    rw [← i1]; rfl
  have w4 : (_calc_intra_outer_rect_area r current).2.area.val =
      (Exact._calc_intra_outer_rect_area r.toExact current.toExact).2.area := by
    rw [← i2]; rfl
  have ar : 0 ≤ r.area.val ∧ r.area.val ≤ 400000000 := Exact.area_window r.toExact hr.1 hr.2
  have ac : 0 ≤ current.area.val ∧ current.area.val ≤ 400000000 :=
    Exact.area_window current.toExact hc.1 hc.2
  have b3 := (_calc_intra_outer_rect_area r current).1.area.lo
  have b4 := (_calc_intra_outer_rect_area r current).1.area.hi
  have b5 := (_calc_intra_outer_rect_area r current).2.area.lo
  have b6 := (_calc_intra_outer_rect_area r current).2.area.hi
  obtain ⟨hi, ho, _⟩ := Exact.intra_outer_window r.toExact current.toExact hr.2 hc.2
  refine ⟨?_, ?_, ?_, ?_⟩
  · rw [c_int.eq_iff, c_int.eq_iff, w1, w2]
  · rw [c_int.eq_iff, c_int.eq_iff, w1, w2]
  · rw [c_int.le_iff, c_int.val_sub, c_int.val_sub, c_int.val_add, w3, w4]
    omega
  · rw [c_int.le_iff, w3]

theorem toExact_node_rect (n : rect_node_t) : n.toExact.rect = n.rect.toExact := rfl

theorem toExact_node_addr (n : rect_node_t) : n.toExact.addr = n.addr := rfl

/-- The rectangle written back by the horizontal merge of the fuzzy insertion. -/
theorem toExact_merge_node (r current : rect_t) (hr : r.wf_area ∧ r.in_range)
    (hc : current.wf_area ∧ current.in_range) (brk : Nat) (dirty : List rect_node_t) :
    ({ current with
        left := (_calc_intra_outer_rect_area r current).2.left
        width := (_calc_intra_outer_rect_area r current).2.width
        right := (_calc_intra_outer_rect_area r current).2.right
        area := (_calc_intra_outer_rect_area r current).2.width *
          (_split_fuzzy brk dirty current r).b.height } : rect_t).toExact =
      { current.toExact with
        left := (Exact._calc_intra_outer_rect_area r.toExact current.toExact).2.left
        width := (Exact._calc_intra_outer_rect_area r.toExact current.toExact).2.width
        right := (Exact._calc_intra_outer_rect_area r.toExact current.toExact).2.right
        area := (Exact._calc_intra_outer_rect_area r.toExact current.toExact).2.width *
          (Exact._split_fuzzy brk (dirty.map rect_node_t.toExact) current.toExact
            r.toExact).b.height } := by
  obtain ⟨i1, i2⟩ := toExact_intra_outer r current hr.2 hc.2
  have hs := toExact_split_fuzzy brk dirty current r hr.1.1 hr.2 hc.2
  obtain ⟨_, _, ow⟩ := Exact.intra_outer_window r.toExact current.toExact hr.2 hc.2
  have hh := Exact.r2_height current.toExact r.toExact
  rw [← Exact.split_fuzzy_b brk (dirty.map rect_node_t.toExact)] at hh
  rw [← hs, ← i2] at *
  obtain ⟨⟨e1, e2, e3, e4⟩, _⟩ := hr.1
  obtain ⟨a1, a2, a3, a4⟩ := hr.2
  obtain ⟨b1, b2, b3, b4⟩ := hc.2
  have hh1 : (_split_fuzzy brk dirty current r).b.height.val =
      r.height.val - max (current.top.val - r.top.val) 0 -
        max (r.bottom.val - current.bottom.val) 0 := hh
  have ow1 : -20000 ≤ (_calc_intra_outer_rect_area r current).2.width.val ∧
      (_calc_intra_outer_rect_area r current).2.width.val ≤ 20000 := ow
  have hm := Exact.mul_window (_calc_intra_outer_rect_area r current).2.width.val
    (_split_fuzzy brk dirty current r).b.height.val ow1.1 ow1.2 (by omega) (by omega)
  simp only [rect_t.toExact, split_fuzzy_state.toExact, Exact.rect_t.mk.injEq, true_and,
    and_true, c_int.val_mul]
  omega

theorem toExact_fuzzy_scan (e : c_int) (r : rect_t) (hr : r.wf_area ∧ r.in_range) :
    ∀ (rest before : List rect_node_t) (old_last : Option Nat) (dirty : List rect_node_t)
      (brk : Nat), (∀ n ∈ rest, n.rect.wf_area ∧ n.rect.in_range) →
      (fuzzy_scan e r before rest old_last dirty brk).map fuzzy_scan_state.toExact =
        Exact.fuzzy_scan e.val r.toExact (before.map rect_node_t.toExact)
          (rest.map rect_node_t.toExact) old_last (dirty.map rect_node_t.toExact) brk := by
  intro rest
  induction rest with
  | nil =>
    intro before old_last dirty brk _
    rfl
  | cons cur rest ih =>
    intro before old_last dirty brk hrest
    have hcur := hrest cur (List.mem_cons_self _ _)
    have hrest1 : ∀ n ∈ rest, n.rect.wf_area ∧ n.rect.in_range :=
      fun n hn => hrest n (List.mem_cons_of_mem _ hn)
    obtain ⟨c1, c2, c3, c4⟩ := toExact_scan_conds e r cur.rect hr hcur
    obtain ⟨i1, i2⟩ := toExact_intra_outer r cur.rect hr.2 hcur.2
    have hs := toExact_split_fuzzy brk dirty cur.rect r hr.1.1 hr.2 hcur.2
    have hm := toExact_merge_node r cur.rect hr hcur brk dirty
    have ha : (Exact._split_fuzzy brk (dirty.map rect_node_t.toExact) cur.rect.toExact
        r.toExact).action = (_split_fuzzy brk dirty cur.rect r).action := by rw [← hs]; rfl
    have hd : (Exact._split_fuzzy brk (dirty.map rect_node_t.toExact) cur.rect.toExact
        r.toExact).dirty = (_split_fuzzy brk dirty cur.rect r).dirty.map rect_node_t.toExact := by
      rw [← hs]; rfl
    have hb : (Exact._split_fuzzy brk (dirty.map rect_node_t.toExact) cur.rect.toExact
        r.toExact).brk = (_split_fuzzy brk dirty cur.rect r).brk := by rw [← hs]; rfl
    simp only [fuzzy_scan, Exact.fuzzy_scan, List.map_cons, c1, c2, c3, c4, toExact_node_rect,
      toExact_width, toExact_height, toExact_area, ha, hd, hb]
    split_ifs
    · simp [outcome.map, fuzzy_scan_state.toExact]
    · rw [ih _ _ _ _ hrest1, update_old_last_toExact _ _ cur _ rfl]
    · simp only [outcome.map, fuzzy_scan_state.toExact, rect_list_append_node,
        List.map_append, List.map_cons, List.map_nil, rect_node_t.toExact, i2]
      rw [update_old_last_toExact _ _ cur _ rfl]
    · rw [ih _ _ _ _ hrest1]
      simp
    · simp only [outcome.map, fuzzy_scan_state.toExact, rect_list_append_node,
        List.map_append, List.map_cons, List.map_nil, rect_node_t.toExact, hm]
      rw [update_old_last_toExact _ _ cur _ rfl]
      rfl
    · rfl
    · simp [outcome.map, fuzzy_scan_state.toExact]

theorem toExact_fuzzy_step (e : c_int) (rects : List rect_node_t) (d : rect_node_t)
    (dirty : List rect_node_t) (old_last : Option Nat) (brk : Nat)
    (hR : ∀ n ∈ rects, n.rect.wf_area ∧ n.rect.in_range)
    (hd : d.rect.wf_area ∧ d.rect.in_range) :
    (fuzzy_step e rects d dirty old_last brk).map fuzzy_state.toExact =
      Exact.fuzzy_step e.val (rects.map rect_node_t.toExact) d.toExact
        (dirty.map rect_node_t.toExact) old_last brk := by
  have h := toExact_fuzzy_scan e d.rect hd rects [] old_last dirty brk hR
  simp only [List.map_nil] at h
  simp only [fuzzy_step, Exact.fuzzy_step, toExact_node_rect, ← h]
  cases fuzzy_scan e d.rect [] rects old_last dirty brk with
  | ok s =>
    simp only [outcome.map, fuzzy_state.toExact, fuzzy_scan_state.toExact, rect_list_append_node,
      outcome.ok.injEq, Exact.fuzzy_state.mk.injEq, and_true, true_and]
    split_ifs <;> simp
  | assert_fail => rfl
  | out_of_fuel => rfl

theorem mem_map_node (L : List rect_node_t) (P : Exact.rect_node_t → Prop)
    (h : ∀ m ∈ L, P m.toExact) : ∀ f ∈ L.map rect_node_t.toExact, P f := by
  intro f hf
  obtain ⟨g, hg, rfl⟩ := List.mem_map.1 hf
  exact h g hg

theorem fuzzy_step_window (e : c_int) (he : 0 ≤ e) (rects : List rect_node_t)
    (d : rect_node_t) (dirty : List rect_node_t) (old_last : Option Nat) (brk : Nat)
    (st : fuzzy_state) (hR : ∀ n ∈ rects, n.rect.wf_area ∧ n.rect.in_range)
    (hd : d.rect.wf_area ∧ d.rect.in_range)
    (hD : ∀ n ∈ dirty, n.rect.wf_area ∧ n.rect.in_range)
    (hs : fuzzy_step e rects d dirty old_last brk = .ok st) :
    (∀ n ∈ st.rects, n.rect.wf_area ∧ n.rect.in_range) ∧
    (∀ n ∈ st.dirty, n.rect.wf_area ∧ n.rect.in_range) := by
  have h := toExact_fuzzy_step e rects d dirty old_last brk hR hd
  rw [hs] at h
  have hx : Exact.fuzzy_step e.val (rects.map rect_node_t.toExact) d.toExact
      (dirty.map rect_node_t.toExact) old_last brk = .ok st.toExact := h.symm
  have he1 : (0 : Int) ≤ e.val := he
  obtain ⟨w1, w2⟩ := Exact.fuzzy_step_wf e.val he1 (rects.map rect_node_t.toExact) d.toExact
    (dirty.map rect_node_t.toExact) old_last brk st.toExact
    (mem_map_node rects (fun m => m.rect.wf_area) (fun m hm => (hR m hm).1)) hd.1
    (mem_map_node dirty (fun m => m.rect.wf_area) (fun m hm => (hD m hm).1)) hx
  obtain ⟨r1, r2⟩ := Exact.fuzzy_step_range e.val he1 (rects.map rect_node_t.toExact) d.toExact
    (dirty.map rect_node_t.toExact) old_last brk st.toExact
    (mem_map_node rects (fun m => m.rect.in_range) (fun m hm => (hR m hm).2)) hd
    (mem_map_node dirty (fun m => m.rect.in_range) (fun m hm => (hD m hm).2)) hx
  constructor
  · intro n hn
    have hm : n.toExact ∈ st.toExact.rects := List.mem_map_of_mem _ hn
    exact ⟨w1 _ hm, r1 _ hm⟩
  · intro n hn
    have hm : n.toExact ∈ st.toExact.dirty := List.mem_map_of_mem _ hn
    exact ⟨w2 _ hm, r2 _ hm⟩

theorem toExact_fuzzy_loop (e : c_int) (he : 0 ≤ e) :
    ∀ (fuel : Nat) (st : fuzzy_state),
      (∀ n ∈ st.rects, n.rect.wf_area ∧ n.rect.in_range) →
      (∀ n ∈ st.dirty, n.rect.wf_area ∧ n.rect.in_range) →
      (fuzzy_loop e fuel st).map fuzzy_state.toExact =
        Exact.fuzzy_loop e.val fuel st.toExact := by
  intro fuel
  induction fuel with
  | zero =>
    intro st _ _
    obtain ⟨rects, dirty, old_last, brk⟩ := st
    cases dirty <;> rfl
  | succ fuel ih =>
    intro st hR hD
    obtain ⟨rects, dirty, old_last, brk⟩ := st
    cases dirty with
    | nil => rfl
    | cons d ds =>
      have hd := hD d (List.mem_cons_self _ _)
      have hds : ∀ n ∈ ds, n.rect.wf_area ∧ n.rect.in_range :=
        fun n hn => hD n (List.mem_cons_of_mem _ hn)
      have h := toExact_fuzzy_step e rects d ds old_last brk hR hd
      unfold fuzzy_loop Exact.fuzzy_loop
      simp only [fuzzy_state.toExact, List.map_cons, ← h]
      cases hs : fuzzy_step e rects d ds old_last brk with
      | ok st1 =>
        obtain ⟨h1, h2⟩ := fuzzy_step_window e he rects d ds old_last brk st1 hR hd hds hs
        simp only [outcome.map]
        exact ih st1 h1 h2
      | assert_fail => rfl
      | out_of_fuel => rfl

theorem toExact_add_split_fuzzy (fuel brk : Nat) (S : List rect_node_t) (node : rect_node_t)
    (e : c_int) (he : 0 ≤ e) (hS : ∀ n ∈ S, n.rect.wf_area ∧ n.rect.in_range)
    (hn : node.rect.wf_area ∧ node.rect.in_range) :
    (rect_list_add_split_fuzzy fuel brk S node e).map fuzzy_state.toExact =
      Exact.rect_list_add_split_fuzzy fuel brk (S.map rect_node_t.toExact) node.toExact
        e.val := by
  cases S with
  | nil => rfl
  | cons m S =>
    have h := toExact_fuzzy_loop e he fuel
      { rects := m :: S, dirty := rect_list_append_node [] node, old_last := last_addr (m :: S),
        brk := brk } hS (by simpa [rect_list_append_node] using hn)
    simp only [rect_list_add_split_fuzzy, Exact.rect_list_add_split_fuzzy, List.map_cons]
    rw [h]
    simp only [fuzzy_state.toExact, rect_list_append_node, List.map_cons, List.map_nil,
      List.nil_append, ← last_addr_toExact]

/-- Every state the outer loop passes through is read exactly, and its records are
well formed and inside the window. -/
theorem toExact_fuzzy_reach (e : c_int) (he : 0 ≤ e) (st0 : fuzzy_state)
    (h0R : ∀ n ∈ st0.rects, n.rect.wf_area ∧ n.rect.in_range)
    (h0D : ∀ n ∈ st0.dirty, n.rect.wf_area ∧ n.rect.in_range) :
    ∀ st, fuzzy_reach e st0 st →
      Exact.fuzzy_reach e.val st0.toExact st.toExact ∧
      (∀ n ∈ st.rects, n.rect.wf_area ∧ n.rect.in_range) ∧
      (∀ n ∈ st.dirty, n.rect.wf_area ∧ n.rect.in_range) := by
  intro st hst
  induction hst with
  | start => exact ⟨Exact.fuzzy_reach.start, h0R, h0D⟩
  | next st st1 d ds hreach hd hstep ih =>
    obtain ⟨ih1, ihR, ihD⟩ := ih
    rw [hd] at ihD
    have hdd := ihD d (List.mem_cons_self _ _)
    have hds : ∀ n ∈ ds, n.rect.wf_area ∧ n.rect.in_range :=
      fun n hn => ihD n (List.mem_cons_of_mem _ hn)
    have h := toExact_fuzzy_step e st.rects d ds st.old_last st.brk ihR hdd
    rw [hstep] at h
    refine ⟨?_, fuzzy_step_window e he _ _ _ _ _ st1 ihR hdd hds hstep⟩
    refine Exact.fuzzy_reach.next st.toExact st1.toExact d.toExact
      (ds.map rect_node_t.toExact) ih1 ?_ h.symm
    simp only [fuzzy_state.toExact, hd, List.map_cons]

theorem toExact_node_rects (l : List rect_node_t) :
    Exact.node_rects (l.map rect_node_t.toExact) = (node_rects l).map rect_t.toExact := by
  simp [Exact.node_rects, node_rects, List.map_map, Function.comp_def, rect_node_t.toExact]

theorem toExact_merge_scan (e : c_int) (r1 : rect_t) (hr1 : r1.wf_area ∧ r1.in_range) :
    ∀ (rest before : List rect_node_t), (∀ n ∈ rest, n.rect.wf_area ∧ n.rect.in_range) →
      (merge_scan e r1 before rest).map
          (fun p => (p.1.map rect_node_t.toExact, p.2.toExact)) =
        Exact.merge_scan e.val r1.toExact (before.map rect_node_t.toExact)
          (rest.map rect_node_t.toExact) := by
  intro rest
  induction rest with
  | nil => intro before _; rfl
  | cons c rest ih =>
    intro before hrest
    have hc := hrest c (List.mem_cons_self _ _)
    have hrest1 : ∀ n ∈ rest, n.rect.wf_area ∧ n.rect.in_range :=
      fun n hn => hrest n (List.mem_cons_of_mem _ hn)
    have ho := toExact_outer r1 c.rect hr1.2 hc.2
    have oa : (_calc_outer_rect_area r1 c.rect).area.val =
        (Exact._calc_outer_rect_area r1.toExact c.rect.toExact).area := by rw [← ho]; rfl
    obtain ⟨_, hw, _⟩ := Exact.intra_outer_window r1.toExact c.rect.toExact hr1.2 hc.2
    have hw1 : -400000000 ≤ (Exact._calc_outer_rect_area r1.toExact c.rect.toExact).area ∧
        (Exact._calc_outer_rect_area r1.toExact c.rect.toExact).area ≤ 400000000 := hw
    have a1 : 0 ≤ r1.area.val ∧ r1.area.val ≤ 400000000 :=
      Exact.area_window r1.toExact hr1.1 hr1.2
    have a2 : 0 ≤ c.rect.area.val ∧ c.rect.area.val ≤ 400000000 :=
      Exact.area_window c.rect.toExact hc.1 hc.2
    have hcond : (_calc_outer_rect_area r1 c.rect).area - (r1.area + c.rect.area) ≤ e ↔
        (Exact._calc_outer_rect_area r1.toExact c.rect.toExact).area -
          (r1.area.val + c.rect.area.val) ≤ e.val := by
      rw [c_int.le_iff, c_int.val_sub, c_int.val_add, oa]
      omega
    simp only [merge_scan, Exact.merge_scan, List.map_cons, hcond, toExact_node_rect,
      toExact_area]
    split_ifs
    · simp only [Option.map_some', List.map_append, rect_node_t.toExact, ho]
    · have h := ih (before ++ [c]) hrest1
      simp only [List.map_append, List.map_cons, List.map_nil] at h
      exact h

theorem merge_scan_window (e : c_int) (r1 : rect_t) (hr1 : r1.wf_area ∧ r1.in_range)
    (rects rects1 : List rect_node_t) (n : rect_node_t)
    (hR : ∀ m ∈ rects, m.rect.wf_area ∧ m.rect.in_range)
    (hs : merge_scan e r1 [] rects = some (rects1, n)) :
    (n.rect.wf_area ∧ n.rect.in_range) ∧ ∀ m ∈ rects1, m.rect.wf_area ∧ m.rect.in_range := by
  have h := toExact_merge_scan e r1 hr1 rects [] hR
  rw [hs] at h
  simp only [Option.map_some', List.map_nil] at h
  obtain ⟨w1, w2⟩ := Exact.merge_scan_wf e.val r1.toExact hr1.1.1 _ [] _ _
    (by simpa using mem_map_node rects (fun m => m.rect.wf_area) (fun m hm => (hR m hm).1))
    h.symm
  obtain ⟨r1, r2⟩ := Exact.merge_scan_range e.val r1.toExact hr1.2 _ [] _ _
    (by simpa using mem_map_node rects (fun m => m.rect.in_range) (fun m hm => (hR m hm).2))
    h.symm
  exact ⟨⟨w1, r1⟩, fun m hm => ⟨w2 _ (List.mem_map_of_mem _ hm), r2 _ (List.mem_map_of_mem _ hm)⟩⟩

theorem toExact_merge_rects (e : c_int) :
    ∀ (fuel : Nat) (rects to_merge : List rect_node_t),
      (∀ n ∈ rects, n.rect.wf_area ∧ n.rect.in_range) →
      (∀ n ∈ to_merge, n.rect.wf_area ∧ n.rect.in_range) →
      (rect_list_merge_rects fuel rects to_merge e).map (List.map rect_node_t.toExact) =
        Exact.rect_list_merge_rects fuel (rects.map rect_node_t.toExact)
          (to_merge.map rect_node_t.toExact) e.val := by
  intro fuel
  induction fuel with
  | zero =>
    intro rects to_merge _ _
    cases to_merge <;> rfl
  | succ fuel ih =>
    intro rects to_merge hR hT
    cases to_merge with
    | nil => rfl
    | cons head tail =>
      have hhead := hT head (List.mem_cons_self _ _)
      have htail : ∀ n ∈ tail, n.rect.wf_area ∧ n.rect.in_range :=
        fun n hn => hT n (List.mem_cons_of_mem _ hn)
      have h := toExact_merge_scan e head.rect hhead rects [] hR
      simp only [List.map_nil] at h
      simp only [rect_list_merge_rects, Exact.rect_list_merge_rects, List.map_cons,
        toExact_node_rect, ← h]
      cases hs : merge_scan e head.rect [] rects with
      | none =>
        simp only [Option.map_none']
        rw [ih _ _ (by
          intro n hn
          simp only [rect_list_append_node, List.mem_append, List.mem_singleton] at hn
          rcases hn with h1 | h1
          · exact hR n h1
          · rw [h1]; exact hhead) htail]
        simp [rect_list_append_node]
      | some p =>
        obtain ⟨rects1, nn⟩ := p
        obtain ⟨h1, h2⟩ := merge_scan_window e head.rect hhead rects rects1 nn hR hs
        simp only [Option.map_some']
        rw [ih _ _ h2 (by
          intro n hn
          simp only [rect_list_append_node, List.mem_append, List.mem_singleton] at hn
          rcases hn with h3 | h3
          · exact htail n h3
          · rw [h3]; exact h1)]
        simp [rect_list_append_node]

/-! ## Fuzzy insertion and merging -/

theorem toExact_run_ok (fuel brk : Nat) (S : List rect_node_t) (node : rect_node_t)
    (e : c_int) (he : 0 ≤ e) (hS : ∀ n ∈ S, n.rect.wf_area ∧ n.rect.in_range)
    (hn : node.rect.wf_area ∧ node.rect.in_range) (st : fuzzy_state)
    (hrun : rect_list_add_split_fuzzy fuel brk S node e = .ok st) :
    Exact.rect_list_add_split_fuzzy fuel brk (S.map rect_node_t.toExact) node.toExact e.val =
      .ok st.toExact := by
  rw [← toExact_add_split_fuzzy fuel brk S node e he hS hn, hrun]
  rfl

theorem fuzzy_init_window (brk : Nat) (S : List rect_node_t) (node : rect_node_t)
    (hS : ∀ n ∈ S, n.rect.wf_area ∧ n.rect.in_range)
    (hn : node.rect.wf_area ∧ node.rect.in_range) :
    (∀ n ∈ (fuzzy_init brk S node).rects, n.rect.wf_area ∧ n.rect.in_range) ∧
    (∀ n ∈ (fuzzy_init brk S node).dirty, n.rect.wf_area ∧ n.rect.in_range) := by
  refine ⟨hS, ?_⟩
  intro n hmem
  simp only [fuzzy_init, rect_list_append_node, List.nil_append, List.mem_singleton] at hmem
  rw [hmem]
  exact hn

/-- C11 (as stated) fails where `int` overflows: `rect_list_merge_rects` on the
set `{(0,0,1,1)}` with the candidate `(65535,65535,1,1)` and `accepted_error = 0`
computes the area of the bounding box `65536 * 65536` as 0, takes the merge
(`0 - 2 <= 0`) and returns one member of size `65536 x 65536` with cached area
0; `rect_list_add_split_fuzzy` on the same input does the same. -/
theorem set_operations_preserve_wf_overflow :
    (rect_init 0 0 1 1).wf_area ∧ (rect_init 65535 65535 1 1).wf_area ∧ (0 : c_int) ≤ 0 ∧
    rect_list_merge_rects 3 [⟨0, rect_init 0 0 1 1⟩] [⟨1, rect_init 65535 65535 1 1⟩] 0 =
      .ok [⟨0, { left := 0, top := 0, right := 65536, bottom := 65536, width := 65536,
                 height := 65536, area := 0 }⟩] ∧
    rect_list_add_split_fuzzy 10 2 [⟨0, rect_init 0 0 1 1⟩] ⟨1, rect_init 65535 65535 1 1⟩ 0 =
      .ok { rects := [⟨0, { left := 0, top := 0, right := 65536, bottom := 65536,
                            width := 65536, height := 65536, area := 0 }⟩]
            dirty := []
            old_last := none
            brk := 2 } ∧
    ¬ ({ left := 0, top := 0, right := 65536, bottom := 65536, width := 65536, height := 65536,
         area := 0 } : rect_t).wf_area := by
  decide

/-- C11 (amended): well-formedness is preserved by every set operation as long
as no `int` overflows: if every member of the set and every supplied rectangle
has `right = left + width`, `bottom = top + height`, `area = width * height`,
`width > 0`, `height > 0` and edges in `[-10000, 10000]`, then every member of
the set after `rect_list_add_split_strict`, `rect_list_del_split_strict`,
`rect_list_add_split_fuzzy` (`accepted_error ≥ 0`; also every record in the set
or queued as dirty at the head of any iteration) and `rect_list_merge_rects`
satisfies the five conditions; no degenerate rectangle is put into a set. -/
theorem set_operations_preserve_wf (S : List rect_t) (r : rect_t) (N C : List rect_node_t)
    (node : rect_node_t) (brk : Nat) (accepted_error : c_int)
    (hS : ∀ m ∈ S, m.wf_area ∧ m.in_range) (hr : r.wf_area ∧ r.in_range)
    (hN : ∀ m ∈ N, m.rect.wf_area ∧ m.rect.in_range)
    (hnode : node.rect.wf_area ∧ node.rect.in_range)
    (hC : ∀ m ∈ C, m.rect.wf_area ∧ m.rect.in_range) (herr : 0 ≤ accepted_error) :
    (∀ m ∈ rect_list_add_split_strict S r, m.wf_area) ∧
    (∀ m ∈ rect_list_del_split_strict S r, m.wf_area) ∧
    (∀ fuel st, rect_list_add_split_fuzzy fuel brk N node accepted_error = .ok st →
      ∀ n ∈ st.rects, n.rect.wf_area) ∧
    (∀ st, fuzzy_reach accepted_error (fuzzy_init brk N node) st →
      ∀ n ∈ st.rects ++ st.dirty, n.rect.wf_area) ∧
    (∀ fuel e R, rect_list_merge_rects fuel N C e = .ok R → ∀ n ∈ R, n.rect.wf_area) := by
  obtain ⟨x1, x2, x3, _, x5⟩ := Exact.exact_set_operations_preserve_wf
    (S.map rect_t.toExact) r.toExact (N.map rect_node_t.toExact) (C.map rect_node_t.toExact)
    node.toExact brk accepted_error.val
    (mem_map_toExact S (fun m => m.wf_area) (fun m hm => (hS m hm).1)) hr.1
    (mem_map_node N (fun m => m.rect.wf_area) (fun m hm => (hN m hm).1)) hnode.1
    (mem_map_node C (fun m => m.rect.wf_area) (fun m hm => (hC m hm).1)) herr
  have hS1 : ∀ m ∈ S, m.wf ∧ m.in_range := fun m hm => ⟨(hS m hm).1.1, (hS m hm).2⟩
  refine ⟨?_, ?_, ?_, ?_, ?_⟩
  · intro m hm
    rw [← toExact_add_strict S r (fun m hm => (hS m hm).2) ⟨hr.1.1, hr.2⟩] at x1
    exact x1 _ (List.mem_map_of_mem _ hm)
  · intro m hm
    rw [← toExact_del_strict S r hS1 hr.2] at x2
    exact x2 _ (List.mem_map_of_mem _ hm)
  · intro fuel st hrun n hn
    have h := toExact_run_ok fuel brk N node accepted_error herr hN hnode st hrun
    exact x3 fuel st.toExact h n.toExact (List.mem_map_of_mem _ hn)
  · intro st hst n hn
    obtain ⟨i1, i2⟩ := fuzzy_init_window brk N node hN hnode
    obtain ⟨_, iR, iD⟩ := toExact_fuzzy_reach accepted_error herr _ i1 i2 st hst
    rcases List.mem_append.1 hn with h | h
    · exact (iR n h).1
    · exact (iD n h).1
  · intro fuel e R hrun n hn
    have h := toExact_merge_rects e fuel N C hN hC
    rw [hrun] at h
    exact x5 fuel e.val (R.map rect_node_t.toExact) h.symm n.toExact (List.mem_map_of_mem _ hn)

theorem set_operations_preserve_wf_witness :
    (∀ m ∈ rect_list_add_split_strict [rect_init 0 0 10 10] (rect_init 5 5 10 10), m.wf_area) ∧
    (∀ m ∈ rect_list_del_split_strict [rect_init 0 0 10 10] (rect_init 5 5 10 10), m.wf_area) ∧
    (∀ fuel st, rect_list_add_split_fuzzy fuel 3 [⟨0, rect_init 0 0 10 10⟩]
        ⟨1, rect_init 5 (-5) 10 15⟩ 0 = .ok st → ∀ n ∈ st.rects, n.rect.wf_area) ∧
    rect_list_add_split_fuzzy 10 3 [⟨0, rect_init 0 0 10 10⟩] ⟨1, rect_init 5 (-5) 10 15⟩ 0 =
      .ok { rects := [⟨3, rect_init 5 (-5) 10 5⟩, ⟨0, rect_init 0 0 15 10⟩]
            dirty := []
            old_last := none
            brk := 4 } :=
  have h := set_operations_preserve_wf [rect_init 0 0 10 10] (rect_init 5 5 10 10)
    [⟨0, rect_init 0 0 10 10⟩] [⟨2, rect_init 10 0 10 10⟩] ⟨1, rect_init 5 (-5) 10 15⟩ 3 0
    (by decide) (by decide) (by decide) (by decide) (by decide) (by decide)
  ⟨h.1, h.2.1, h.2.2.1, by decide⟩

/-- C13 (as stated) fails where `int` overflows: for
`a = b = (0,0,65536,65536)` the intra rectangle has width 65536 and height
65536, both positive, and area 0, not `65536 * 65536 = 4294967296`. -/
theorem calc_intra_outer_intra_fields_overflow :
    (_calc_intra_outer_rect_area (rect_init 0 0 65536 65536)
      (rect_init 0 0 65536 65536)).1.width.val = 65536 ∧
    (_calc_intra_outer_rect_area (rect_init 0 0 65536 65536)
      (rect_init 0 0 65536 65536)).1.height.val = 65536 ∧
    (_calc_intra_outer_rect_area (rect_init 0 0 65536 65536)
      (rect_init 0 0 65536 65536)).1.area.val = 0 ∧
    (_calc_intra_outer_rect_area (rect_init 0 0 65536 65536)
      (rect_init 0 0 65536 65536)).1.area.val ≠ 65536 * 65536 := by
  decide

/-- C13 (amended): for rectangles `a` and `b` with edges in `[-10000, 10000]`
the intra rectangle computed by `_calc_intra_outer_rect_area` has width
`min(a.right, b.right) - max(a.left, b.left)`, height
`min(a.bottom, b.bottom) - max(a.top, b.top)`, and area `width * height` when
both are positive and 0 otherwise; in particular the area is 0 when both raw
width and height are negative. -/
theorem calc_intra_outer_intra_fields (a b : rect_t) (ha : a.in_range) (hb : b.in_range) :
    (_calc_intra_outer_rect_area a b).1.width.val =
      min a.right.val b.right.val - max a.left.val b.left.val ∧
    (_calc_intra_outer_rect_area a b).1.height.val =
      min a.bottom.val b.bottom.val - max a.top.val b.top.val ∧
    (_calc_intra_outer_rect_area a b).1.area.val =
      (if (_calc_intra_outer_rect_area a b).1.width.val > 0 ∧
          (_calc_intra_outer_rect_area a b).1.height.val > 0 then
        (_calc_intra_outer_rect_area a b).1.width.val *
          (_calc_intra_outer_rect_area a b).1.height.val
      else 0) ∧
    ((_calc_intra_outer_rect_area a b).1.width.val < 0 →
      (_calc_intra_outer_rect_area a b).1.height.val < 0 →
      (_calc_intra_outer_rect_area a b).1.area.val = 0) := by
  have h := Exact.exact_calc_intra_outer_intra_fields a.toExact b.toExact
  rw [← (toExact_intra_outer a b ha hb).1] at h
  exact h

theorem calc_intra_outer_intra_fields_witness :
    (_calc_intra_outer_rect_area (rect_init 0 0 1 1) (rect_init 5 7 1 1)).1.width.val = -4 ∧
    (_calc_intra_outer_rect_area (rect_init 0 0 1 1) (rect_init 5 7 1 1)).1.height.val = -6 ∧
    (_calc_intra_outer_rect_area (rect_init 0 0 1 1) (rect_init 5 7 1 1)).1.area.val = 0 :=
  ⟨by decide, by decide,
    (calc_intra_outer_intra_fields (rect_init 0 0 1 1) (rect_init 5 7 1 1) (by decide)
      (by decide)).2.2.2 (by decide) (by decide)⟩

/-- C19 (as stated) fails where `int` overflows: with `accepted_error = 0`,
inserting `(-2147483646,-1073741824,5,2)` into the set
`{(2147483636,-2147483647,1,1073741824)}` returns the member and the strip
`(-2147483646,-1073741823,5,1)`; the point `(-2147483642, -1073741824)` of the
inserted rectangle lies in no member of the result. -/
theorem fuzzy_keeps_cover_overflow :
    (∀ m ∈ [(⟨0, rect_init 2147483636 (-2147483647) 1 1073741824⟩ : rect_node_t)],
      m.rect.wf) ∧
    (rect_init (-2147483646) (-1073741824) 5 2).wf ∧ (0 : c_int) ≤ 0 ∧
    rect_list_add_split_fuzzy 10 2 [⟨0, rect_init 2147483636 (-2147483647) 1 1073741824⟩]
        ⟨1, rect_init (-2147483646) (-1073741824) 5 2⟩ 0 =
      .ok { rects := [⟨0, rect_init 2147483636 (-2147483647) 1 1073741824⟩,
                      ⟨2, rect_init (-2147483646) (-1073741823) 5 1⟩]
            dirty := []
            old_last := some 0
            brk := 4 } ∧
    (rect_init (-2147483646) (-1073741824) 5 2).has (-2147483642) (-1073741824) ∧
    ¬ covers (node_rects [⟨0, rect_init 2147483636 (-2147483647) 1 1073741824⟩,
      ⟨2, rect_init (-2147483646) (-1073741823) 5 1⟩]) (-2147483642) (-1073741824) := by
  decide

/-- C19 (amended): fuzzy insertion never loses covered area as long as no `int`
overflows: for a set of well-formed rectangles and a well-formed rectangle
(cached area included), all with edges in `[-10000, 10000]`, and
`accepted_error ≥ 0`, whenever `rect_list_add_split_fuzzy` returns, every point
that lies in some member of the original set or in the inserted rectangle lies
in some member of the resulting set. -/
theorem fuzzy_keeps_cover (fuel brk : Nat) (S : List rect_node_t) (node : rect_node_t)
    (accepted_error : c_int) (st : fuzzy_state)
    (hS : ∀ m ∈ S, m.rect.wf_area ∧ m.rect.in_range)
    (hr : node.rect.wf_area ∧ node.rect.in_range) (herr : 0 ≤ accepted_error)
    (hrun : rect_list_add_split_fuzzy fuel brk S node accepted_error = .ok st) (x y : Int)
    (hp : covers (node_rects S) x y ∨ node.rect.has x y) :
    covers (node_rects st.rects) x y := by
  have h := toExact_run_ok fuel brk S node accepted_error herr hS hr st hrun
  have hx := Exact.exact_fuzzy_keeps_cover fuel brk (S.map rect_node_t.toExact) node.toExact
    accepted_error.val st.toExact
    (mem_map_node S (fun m => m.rect.wf) (fun m hm => (hS m hm).1.1)) hr.1.1 herr h x y
    (by rw [toExact_node_rects, toExact_covers]; exact hp)
  have e : st.toExact.rects = st.rects.map rect_node_t.toExact := rfl
  rw [e, toExact_node_rects, toExact_covers] at hx
  exact hx

theorem fuzzy_keeps_cover_witness :
    covers (node_rects [⟨0, rect_init 0 0 10 10⟩, ⟨2, rect_init 5 10 10 5⟩,
      ⟨3, rect_init 10 5 5 5⟩]) 12 7 :=
  fuzzy_keeps_cover 10 2 [⟨0, rect_init 0 0 10 10⟩] ⟨1, rect_init 5 5 10 10⟩ 0
    { rects := [⟨0, rect_init 0 0 10 10⟩, ⟨2, rect_init 5 10 10 5⟩, ⟨3, rect_init 10 5 5 5⟩]
      dirty := []
      old_last := some 0
      brk := 4 }
    (by decide) (by decide) (by decide) (by decide) 12 7 (by decide)

/-- C21 (as stated) fails where `int` overflows: with `e = 0`, inserting
`(1,1,65536,65536)` into the set `{(0,0,65536,65536)}` computes the intersection
area `65535 * 65535` as `-131071`, which is `<= 0`, so the rectangle is appended
unsplit and the two members of the result overlap by 4294836225. -/
theorem fuzzy_keeps_overlap_bound_overflow :
    (∀ m ∈ [(⟨0, rect_init 0 0 65536 65536⟩ : rect_node_t)], m.rect.wf) ∧
    (rect_init 1 1 65536 65536).wf ∧ (0 : c_int) ≤ 0 ∧
    overlap_bounded 0 (node_rects [⟨0, rect_init 0 0 65536 65536⟩]) ∧
    rect_list_add_split_fuzzy 10 2 [⟨0, rect_init 0 0 65536 65536⟩]
        ⟨1, rect_init 1 1 65536 65536⟩ 0 =
      .ok { rects := [⟨0, rect_init 0 0 65536 65536⟩, ⟨1, rect_init 1 1 65536 65536⟩]
            dirty := []
            old_last := some 0
            brk := 2 } ∧
    inter_area (rect_init 0 0 65536 65536) (rect_init 1 1 65536 65536) = 4294836225 ∧
    ¬ overlap_bounded 0
      (node_rects [⟨0, rect_init 0 0 65536 65536⟩, ⟨1, rect_init 1 1 65536 65536⟩]) := by
  decide

/-- C21 (amended): fuzzy insertion alone keeps a hard pairwise overlap bound
as long as no `int` overflows: for `e ≥ 0`, if every two distinct members of a
set of well-formed rectangles (cached area included, edges in
`[-10000, 10000]`) have intersection area at most `e`, then whenever
`rect_list_add_split_fuzzy` with such a rectangle and budget `e` returns, every
two distinct members of the resulting set have intersection area at most `e`;
with `e = 0` the resulting set is strict (pairwise intersection area 0). -/
theorem fuzzy_keeps_overlap_bound (fuel brk : Nat) (S : List rect_node_t) (node : rect_node_t)
    (e : c_int) (st : fuzzy_state)
    (hS : ∀ m ∈ S, m.rect.wf_area ∧ m.rect.in_range)
    (hr : node.rect.wf_area ∧ node.rect.in_range) (he : 0 ≤ e)
    (hP : overlap_bounded e.val (node_rects S))
    (hrun : rect_list_add_split_fuzzy fuel brk S node e = .ok st) :
    overlap_bounded e.val (node_rects st.rects) ∧
    (e = 0 → non_overlapping (node_rects st.rects)) := by
  have h := toExact_run_ok fuel brk S node e he hS hr st hrun
  obtain ⟨x1, x2⟩ := Exact.exact_fuzzy_keeps_overlap_bound fuel brk
    (S.map rect_node_t.toExact) node.toExact e.val st.toExact
    (mem_map_node S (fun m => m.rect.wf) (fun m hm => (hS m hm).1.1)) hr.1.1 he
    (by rw [toExact_node_rects, toExact_overlap_bounded]; exact hP) h
  have eq : st.toExact.rects = st.rects.map rect_node_t.toExact := rfl
  rw [eq, toExact_node_rects] at x1 x2
  refine ⟨(toExact_overlap_bounded _ _).1 x1, fun h0 => ?_⟩
  rw [toExact_non_overlapping] at x2
  exact x2 (by rw [h0]; rfl)

theorem fuzzy_keeps_overlap_bound_witness :
    overlap_bounded 3 (node_rects [⟨0, rect_init 0 0 10 10⟩, ⟨1, rect_init 9 0 10 3⟩]) ∧
    rect_list_add_split_fuzzy 10 3 [⟨0, rect_init 0 0 10 10⟩, ⟨1, rect_init 9 0 10 3⟩]
        ⟨2, rect_init 5 8 10 10⟩ 3 =
      .ok { rects := [⟨0, rect_init 0 0 10 10⟩, ⟨1, rect_init 9 0 10 3⟩,
                      ⟨3, rect_init 5 10 10 8⟩, ⟨4, rect_init 10 8 5 2⟩]
            dirty := []
            old_last := some 1
            brk := 5 } ∧
    overlap_bounded 3 (node_rects [⟨0, rect_init 0 0 10 10⟩, ⟨1, rect_init 9 0 10 3⟩,
      ⟨3, rect_init 5 10 10 8⟩, ⟨4, rect_init 10 8 5 2⟩]) :=
  ⟨by decide, by decide,
    (fuzzy_keeps_overlap_bound 10 3 [⟨0, rect_init 0 0 10 10⟩, ⟨1, rect_init 9 0 10 3⟩]
      ⟨2, rect_init 5 8 10 10⟩ 3
      { rects := [⟨0, rect_init 0 0 10 10⟩, ⟨1, rect_init 9 0 10 3⟩,
                  ⟨3, rect_init 5 10 10 8⟩, ⟨4, rect_init 10 8 5 2⟩]
        dirty := []
        old_last := some 1
        brk := 5 }
      (by decide) (by decide) (by decide) (by decide) (by decide)).1⟩
